import Mathlib

/-!
Verification of the winget-pkgs-updater manifest patch engine.

The Python sources (scripts/manifest/updater.py, scripts/yaml_utils.py,
scripts/version_utils.py) are embedded shallowly: manifest text is a
`List Char`, Python dictionaries are association lists, and each regular
expression that the code uses is realised as a dedicated deterministic
scanner (every pattern in the source is free of backtracking ambiguity:
each `\s*` is followed by a character class disjoint from whitespace, so
maximal munch is exact).
-/

set_option maxRecDepth 1000000

namespace Winget

/-- Python `str.isspace`-style whitespace, the set matched by `\s` in the
`re` module for ASCII text: space, tab, newline, carriage return,
vertical tab, form feed. -/
def isWs (c : Char) : Bool :=
  c = ' ' || c = '\t' || c = '\n' || c = '\r' || c = Char.ofNat 11 || c = Char.ofNat 12

/-- the class `\d` (ASCII). -/
def isDigit (c : Char) : Bool := '0' ≤ c && c ≤ '9'

/-- the class `\w` (ASCII): letters, digits, underscore. -/
def isWord (c : Char) : Bool :=
  ('a' ≤ c && c ≤ 'z') || ('A' ≤ c && c ≤ 'Z') || isDigit c || c = '_'

/-- the class `[A-Fa-f0-9]`. -/
def isHex (c : Char) : Bool :=
  isDigit c || ('a' ≤ c && c ≤ 'f') || ('A' ≤ c && c ≤ 'F')

/-- the class `[\d\.]`. -/
def isDigitDot (c : Char) : Bool := isDigit c || c = '.'

/-- the class `[\d-]`. -/
def isDigitDash (c : Char) : Bool := isDigit c || c = '-'

/-- string literals as character lists. -/
def str (s : String) : List Char := s.data

/-- does `pat` occur (contiguously) anywhere in `s`? -/
def occursIn (pat : List Char) : List Char → Bool
  | [] => pat.isEmpty
  | c :: r => pat.isPrefixOf (c :: r) || occursIn pat r

/-- recursion core of `countOccs`, structurally recursive on a fuel
argument so that the kernel can evaluate it; the fuel is always the
length of the scanned text, which bounds the number of steps. -/
def countOccsF (pat : List Char) : Nat → List Char → Nat
  | _, [] => 0
  | 0, _ => 0
  | fuel + 1, c :: r =>
    if pat ≠ [] ∧ pat.isPrefixOf (c :: r) then
      countOccsF pat fuel (r.drop (pat.length - 1)) + 1
    else
      countOccsF pat fuel r

/-- Python `str.count`: non-overlapping occurrences, scanning left to
right (only used with a non-empty pattern, as in the source). -/
def countOccs (pat s : List Char) : Nat := countOccsF pat s.length s

/-- recursion core of `pyReplace` (fuel = length of the scanned text). -/
def pyReplaceF (old new : List Char) : Nat → List Char → List Char
  | _, [] => []
  | 0, s => s
  | fuel + 1, c :: r =>
    if old ≠ [] ∧ old.isPrefixOf (c :: r) then
      new ++ pyReplaceF old new fuel (r.drop (old.length - 1))
    else
      c :: pyReplaceF old new fuel r

/-- Python `str.replace`: replace every non-overlapping occurrence of
`old` by `new`, scanning left to right (the source only calls it with a
non-empty `old`; an empty `old` is passed through unchanged). -/
def pyReplace (old new s : List Char) : List Char := pyReplaceF old new s.length s

/-- Python `content.split(chr(10))`. -/
def splitNl : List Char → List (List Char)
  | [] => [[]]
  | c :: r =>
    if c = '\n' then [] :: splitNl r
    else
      match splitNl r with
      | [] => [[c]]
      | p :: ps => (c :: p) :: ps

/-- Python `(chr(10)).join(lines)`. -/
def joinNl : List (List Char) → List Char
  | [] => []
  | [l] => l
  | l :: ls => l ++ '\n' :: joinNl ls

/-- Python `str.strip()` (no argument: strips whitespace on both ends). -/
def pyStrip (s : List Char) : List Char :=
  ((s.dropWhile isWs).reverse.dropWhile isWs).reverse

/-- Python `len(line) - len(line.lstrip())`. -/
def indentOf (l : List Char) : Nat := (l.takeWhile isWs).length

/-- Python `str.strip(chars)` for the two-character set `'- '`. -/
def stripDashSp (s : List Char) : List Char :=
  let mem := fun c => c = '-' || c = ' '
  ((s.dropWhile mem).reverse.dropWhile mem).reverse

/-- the part of a stripped line before its first colon,
Python `stripped.split(chr(58), 1)[0]`. -/
def beforeColon (s : List Char) : List Char := s.takeWhile (· ≠ ':')

/-- the part after the first colon, Python `stripped.split(chr(58), 1)[1]`
(only used on lines known to contain a colon). -/
def afterColon (s : List Char) : List Char := (s.dropWhile (· ≠ ':')).drop 1

/-- does the line contain a colon? -/
def hasColon (s : List Char) : Bool := s.any (· = ':')

/-- a dictionary (Python `Dict[str, str]`) as an association list; lookup
returns the first binding. -/
abbrev Dict : Type := List (List Char × List Char)

/-- Python `d[k]` / `k in d`. -/
def dlookup (d : Dict) (k : List Char) : Option (List Char) :=
  match d with
  | [] => none
  | p :: rest => if p.1 = k then some p.2 else dlookup rest k

/-- Python `d.keys()` with duplicates removed (preserving first
occurrences; the source treats `d.keys()` as a set). -/
def dkeys (d : Dict) : List (List Char) :=
  (d.map (·.1)).dedup

/-- truthiness of `Optional[str]` (`None` and the empty string are falsy). -/
def optStr : Option (List Char) → Bool
  | none => false
  | some s => !s.isEmpty

/-- truthiness of `Optional[Dict]` (`None` and the empty dict are falsy). -/
def optDict : Option Dict → Bool
  | none => false
  | some d => !d.isEmpty

/-- the single-quote character (used by the ProductCode rewrites). -/
def sq : Char := Char.ofNat 39

/-- is the line whitespace-only (the empty line included)? -/
def isWsLine (l : List Char) : Bool := l.all isWs

/-!
## Regex scanners

Each `re` pattern of the source becomes a deterministic matcher: given the
text at the current position it either fails or returns the rest of the
text after the match. `re.search`/`re.sub` try every position from the
left; the loops below do the same.
-/

/-- match of `^\s*-\s*Architecture:\s*(\w+)` against a whole line
(`re.match` anchors at the start only), returning the captured
architecture name. -/
def matchArchLine (l : List Char) : Option (List Char) :=
  match l.dropWhile isWs with
  | '-' :: rest =>
    let s2 := rest.dropWhile isWs
    if (str ("Architecture:")).isPrefixOf s2 then
      let s3 := (s2.drop 13).dropWhile isWs
      let w := s3.takeWhile isWord
      if w.isEmpty then none else some w
    else none
  | _ => none

/-- match of `PackageVersion:\s*([\d\.]+)` at the current position,
returning the captured group. -/
def matchPkgVerAt (s : List Char) : Option (List Char) :=
  if (str ("PackageVersion:")).isPrefixOf s then
    let t := (s.drop 15).dropWhile isWs
    let d := t.takeWhile isDigitDot
    if d.isEmpty then none else some d
  else none

/-- `re.search(r'PackageVersion:\s*([\d\.]+)', content)`: the leftmost
match's captured group. -/
def findPackageVersion : List Char → Option (List Char)
  | [] => none
  | c :: r =>
    match matchPkgVerAt (c :: r) with
    | some d => some d
    | none => findPackageVersion r

/-- match of `LIT\s*CLASS+` at the current position (the shape of the
`InstallerSha256:`, `SignatureSha256:` and `ReleaseDate:` patterns),
returning the rest after the match.  The character class is always
disjoint from `\s`, so greedy munching is exact. -/
def matchLitClassAt (lit : List Char) (cls : Char → Bool) (s : List Char) :
    Option (List Char) :=
  if lit.isPrefixOf s then
    let t := (s.drop lit.length).dropWhile isWs
    let d := t.takeWhile cls
    if d.isEmpty then none else some (t.drop d.length)
  else none

/-- does `LIT\s*CLASS+` match anywhere (`re.search`)? -/
def searchLitClass (lit : List Char) (cls : Char → Bool) : List Char → Bool
  | [] => false
  | c :: r => (matchLitClassAt lit cls (c :: r)).isSome || searchLitClass lit cls r

/-- fuel core of `subLitClass`. -/
def subLitClassF (lit : List Char) (cls : Char → Bool) (repl : List Char) :
    Nat → List Char → List Char
  | _, [] => []
  | 0, s => s
  | fuel + 1, c :: r =>
    match matchLitClassAt lit cls (c :: r) with
    | some rest => repl ++ subLitClassF lit cls repl fuel rest
    | none => c :: subLitClassF lit cls repl fuel r

/-- `re.sub(r'LIT\s*CLASS+', repl, content)` with a constant replacement
(the `InstallerSha256:` and `SignatureSha256:` updates). -/
def subLitClass (lit : List Char) (cls : Char → Bool) (repl content : List Char) :
    List Char :=
  subLitClassF lit cls repl content.length content

/-- fuel core of `subReleaseDate`: the replacement function keeps the
first match as `ReleaseDate: {today}` and deletes every later one. -/
def subReleaseDateF (today : List Char) : Nat → Bool → List Char → List Char
  | _, _, [] => []
  | 0, _, s => s
  | fuel + 1, seen, c :: r =>
    match matchLitClassAt (str ("ReleaseDate:")) isDigitDash (c :: r) with
    | some rest =>
      (if seen then [] else str ("ReleaseDate: ") ++ today) ++
        subReleaseDateF today fuel true rest
    | none => c :: subReleaseDateF today fuel seen r

/-- `re.sub(r'ReleaseDate:\s*[\d-]+', replace_release_date, content)`. -/
def subReleaseDate (today content : List Char) : List Char :=
  subReleaseDateF today content.length false content

/-- match of `InstallerUrl:\s*https?://[^\s]+` at the current position,
returning the rest after the match. -/
def matchUrlAt (s : List Char) : Option (List Char) :=
  if (str ("InstallerUrl:")).isPrefixOf s then
    let t := (s.drop 13).dropWhile isWs
    let t2 :=
      if (str ("https://")).isPrefixOf t then some (t.drop 8)
      else if (str ("http://")).isPrefixOf t then some (t.drop 7)
      else none
    match t2 with
    | some u =>
      let v := u.takeWhile (fun c => !isWs c)
      if v.isEmpty then none else some (u.drop v.length)
    | none => none
  else none

/-- fuel core of `subUrlSingle`. -/
def subUrlSingleF (repl : List Char) : Nat → List Char → List Char
  | _, [] => []
  | 0, s => s
  | fuel + 1, c :: r =>
    match matchUrlAt (c :: r) with
    | some rest => repl ++ subUrlSingleF repl fuel rest
    | none => c :: subUrlSingleF repl fuel r

/-- `re.sub(r'InstallerUrl:\s*https?://[^\s]+', f'InstallerUrl: {url}',
content)` (the single-architecture URL update). -/
def subUrlSingle (url content : List Char) : List Char :=
  subUrlSingleF (str ("InstallerUrl: ") ++ url) content.length content

/-!
## Blank-run collapsing

The source finishes several rewrites with
`re.sub(r'\n\s*\n\s*\n+', '\n\n', content)` (in two places the final `+`
is absent, which does not change the behaviour).  At a given position the
pattern matches exactly when a newline starts a maximal whitespace run
containing at least three newlines, and the (greedy, backtracking) match
always extends to the last newline of that run; the replacement is two
newlines, and scanning resumes after the match.  Reading the text as a
list of `\n`-separated lines, this is: every maximal group of consecutive
whitespace-only lines that sits between two newlines of the run collapses
to one empty line.  `collapseBlankLines` implements that line-level
reading; the optional trailing whitespace-only line at the end of file
keeps its text because the match cannot extend past the run's last
newline. -/
def collapseBlankLines : Nat → List (List Char) → List (List Char)
  | _, [] => []
  | 0, ls => ls
  | fuel + 1, l :: rest =>
    let w := rest.takeWhile isWsLine
    let rest' := rest.drop w.length
    if rest'.isEmpty then
      if 3 ≤ w.length then [l, [], w.getLastD []] else l :: w
    else
      if 2 ≤ w.length then l :: [] :: collapseBlankLines fuel rest'
      else l :: (w ++ collapseBlankLines fuel rest')

/-- `re.sub(r'\n\s*\n\s*\n+', '\n\n', content)` (see the derivation
above). -/
def collapseNl (content : List Char) : List Char :=
  joinNl (collapseBlankLines (splitNl content).length (splitNl content))

/-!
## scripts/manifest/updater.py
-/

/-- the per-line loop of `_update_multi_arch_urls` and
`_update_multi_arch_hashes` (the two Python functions are verbatim copies
of each other with `InstallerUrl:` and `InstallerSha256:` as the field;
`matchArchLine` never captures an empty name, so the Python truthiness
test on `current_arch` is the `some` case). -/
def updMultiArchGo (field : List Char) (m : Dict) :
    Option (List Char) → List (List Char) → List (List Char) → List (List Char)
  | _, _, [] => []
  | arch, updated, l :: ls =>
    let arch' := match matchArchLine l with | some a => some a | none => arch
    let rel := occursIn field l &&
      (match arch' with | some a => !a.isEmpty && (dlookup m a).isSome | none => false)
    if rel then
      match arch' with
      | some a =>
        if updated.contains a then
          updMultiArchGo field m arch' updated ls
        else
          (List.replicate (indentOf l) ' ' ++ field ++ ' ' :: (dlookup m a).getD [])
            :: updMultiArchGo field m arch' (a :: updated) ls
      | none => l :: updMultiArchGo field m arch' updated ls
    else l :: updMultiArchGo field m arch' updated ls

/-- `_update_multi_arch_urls` from scripts/manifest/updater.py. -/
def update_multi_arch_urls (content : List Char) (installer_urls : Dict) : List Char :=
  collapseNl (joinNl (updMultiArchGo (str ("InstallerUrl:")) installer_urls none []
    (splitNl content)))

/-- `_update_multi_arch_hashes` from scripts/manifest/updater.py. -/
def update_multi_arch_hashes (content : List Char) (arch_hashes : Dict) : List Char :=
  collapseNl (joinNl (updMultiArchGo (str ("InstallerSha256:")) arch_hashes none []
    (splitNl content)))

/-- the context keys of `_update_product_codes`
(`'apps_features'` / `f'installer_PLUSarch'` / `'top_level'`). -/
inductive PCCtx
  | apps
  | topLevel
  | installerArch (a : List Char)
deriving DecidableEq

/-- truthiness of the `current_arch` variable (a non-empty string). -/
def archTruthy : Option (List Char) → Bool
  | some a => !a.isEmpty
  | none => false

/-- the per-line loop of `_update_product_codes`; state in order:
current architecture, `in_apps_features`, `in_installers_section`,
`updated_contexts`. -/
def updProductCodesGo (pc : Dict) :
    Option (List Char) → Bool → Bool → List PCCtx → List (List Char) → List (List Char)
  | _, _, _, _, [] => []
  | arch, inApps, inInst, updated, l :: ls =>
    let isInstLine := occursIn (str ("Installers:")) l && pyStrip l = str ("Installers:")
    let inInst1 := if isInstLine then true else inInst
    let inApps1 := if isInstLine then false else inApps
    let arch1 :=
      if inInst1 then
        match matchArchLine l with | some a => some a | none => arch
      else arch
    let hitApps := occursIn (str ("AppsAndFeaturesEntries:")) l
    let resetLine := !l.isEmpty && l.head? ≠ some ' ' && l.head? ≠ some '-' &&
      (pyStrip l).head? ≠ some '#'
    let inApps2 := if hitApps then true else if resetLine then false else inApps1
    let inInst2 := if hitApps then false else if resetLine then false else inInst1
    let arch2 := if hitApps then none else arch1
    if occursIn (str ("ProductCode:")) l then
      let ind := indentOf l
      if inApps2 && (dlookup pc (str ("default"))).isSome then
        if updated.contains PCCtx.apps then
          updProductCodesGo pc arch2 inApps2 inInst2 updated ls
        else
          (List.replicate ind ' ' ++ str ("- ProductCode: ") ++
              sq :: (dlookup pc (str ("default"))).getD [] ++ [sq])
            :: updProductCodesGo pc arch2 inApps2 inInst2 (PCCtx.apps :: updated) ls
      else if inInst2 && archTruthy arch2 && (dlookup pc (arch2.getD [])).isSome then
        if updated.contains (PCCtx.installerArch (arch2.getD [])) then
          updProductCodesGo pc arch2 inApps2 inInst2 updated ls
        else
          (List.replicate ind ' ' ++ str ("ProductCode: ") ++
              sq :: (dlookup pc (arch2.getD [])).getD [] ++ [sq])
            :: updProductCodesGo pc arch2 inApps2 inInst2
                (PCCtx.installerArch (arch2.getD []) :: updated) ls
      else if !inApps2 && !inInst2 && (dlookup pc (str ("default"))).isSome then
        if updated.contains PCCtx.topLevel then
          updProductCodesGo pc arch2 inApps2 inInst2 updated ls
        else
          (List.replicate ind ' ' ++ str ("ProductCode: ") ++
              sq :: (dlookup pc (str ("default"))).getD [] ++ [sq])
            :: updProductCodesGo pc arch2 inApps2 inInst2 (PCCtx.topLevel :: updated) ls
      else l :: updProductCodesGo pc arch2 inApps2 inInst2 updated ls
    else l :: updProductCodesGo pc arch2 inApps2 inInst2 updated ls

/-- `_update_product_codes` from scripts/manifest/updater.py (no blank
collapsing at the end: the Python function returns the joined lines). -/
def update_product_codes (content : List Char) (product_codes : Dict) : List Char :=
  joinNl (updProductCodesGo product_codes none false false [] (splitNl content))

/-- lookahead `(?=\w+:)`: at least one word character followed directly
by a colon (a colon is not a word character, so only the maximal word
run can be followed by one). -/
def lookaheadWordColon (u : List Char) : Bool :=
  let w := u.takeWhile isWord
  !w.isEmpty && (u.drop w.length).head? = some ':'

/-- the lazy `(?:.*\n)*?(?=\w+:)` tail of the block-scalar pattern:
consume whole lines, as few as possible, until the lookahead holds
(failing if the text runs out first). -/
def notesLazyF : Nat → List Char → Option (List Char)
  | 0, _ => none
  | fuel + 1, u =>
    if lookaheadWordColon u then some u
    else
      let ln := u.takeWhile (· ≠ '\n')
      match u.drop ln.length with
      | '\n' :: r => notesLazyF fuel r
      | _ => none

/-- match of `ReleaseNotes:\s*\|-\n(?:.*\n)*?(?=\w+:)` at the current
position, returning the rest (which starts at the unconsumed
lookahead). -/
def matchNotesBlockAt (s : List Char) : Option (List Char) :=
  if (str ("ReleaseNotes:")).isPrefixOf s then
    let t := (s.drop 13).dropWhile isWs
    if (str ("|-")).isPrefixOf t then
      match t.drop 2 with
      | '\n' :: r => notesLazyF (r.length + 1) r
      | _ => none
    else none
  else none

/-- match of `ReleaseNotes:\s*\|-` at the current position (the branch
gate of `_update_release_notes`). -/
def matchNotesHdrAt (s : List Char) : Bool :=
  (str ("ReleaseNotes:")).isPrefixOf s &&
    (str ("|-")).isPrefixOf ((s.drop 13).dropWhile isWs)

/-- `re.search(r'ReleaseNotes:\s*\|-', content)`. -/
def searchNotesHdr : List Char → Bool
  | [] => false
  | c :: r => matchNotesHdrAt (c :: r) || searchNotesHdr r

/-- fuel core of the block-scalar substitution: first match replaced by
`repl1`, later matches deleted. -/
def subNotesBlockF (repl1 : List Char) : Nat → Bool → List Char → List Char
  | _, _, [] => []
  | 0, _, s => s
  | fuel + 1, seen, c :: r =>
    match matchNotesBlockAt (c :: r) with
    | some rest => (if seen then [] else repl1) ++ subNotesBlockF repl1 fuel true rest
    | none => c :: subNotesBlockF repl1 fuel seen r

/-- fuel core of the substitution for `LIT.*` patterns with a
first-kept / rest-deleted replacement function (`ReleaseNotes:.*` and
`ReleaseNotesUrl:.*`; `.*` cannot cross a newline and always succeeds,
so every occurrence of the literal is a match reaching the end of its
line). -/
def subLitLineF (lit repl1 : List Char) : Nat → Bool → List Char → List Char
  | _, _, [] => []
  | 0, _, s => s
  | fuel + 1, seen, c :: r =>
    if lit.isPrefixOf (c :: r) then
      let rest := ((c :: r).drop lit.length).dropWhile (· ≠ '\n')
      (if seen then [] else repl1) ++ subLitLineF lit repl1 fuel true rest
    else c :: subLitLineF lit repl1 fuel seen r

/-- `_update_release_notes` from scripts/manifest/updater.py. -/
def update_release_notes (content release_notes : List Char) : List Char :=
  let yaml_notes := pyReplace ['\r'] ['\n'] (pyReplace (str ("\r\n")) (str ("\n")) release_notes)
  let indented := pyReplace ['\n'] (str ("\n  ")) yaml_notes
  if searchNotesHdr content then
    collapseNl (subNotesBlockF (str ("ReleaseNotes: |-\n  ") ++ indented ++ ['\n'])
      content.length false content)
  else
    collapseNl (subLitLineF (str ("ReleaseNotes:")) (str ("ReleaseNotes: |-\n  ") ++ indented)
      content.length false content)

/-- `_update_release_notes_url` from scripts/manifest/updater.py. -/
def update_release_notes_url (content release_notes_url : List Char) : List Char :=
  collapseNl (subLitLineF (str ("ReleaseNotesUrl:"))
    (str ("ReleaseNotesUrl: ") ++ release_notes_url) content.length false content)

/-!
## scripts/yaml_utils.py — `remove_duplicate_fields`
-/

/-- the ad hoc context-key strings of `remove_duplicate_fields`
(`f'arch_block:IDX:ARCH'`, `f'list_item:INDENT:LINEIDX'`,
`f'section:NAME:INDENT'`, `f'top:INDENT'`; the four families cannot
collide, so a variant type is a faithful model of the string keys). -/
inductive CtxKey
  | top (indent : Nat)
  | sec (name : List Char) (indent : Nat)
  | archBlock (idx : Nat) (arch : List Char)
  | listItem (indent : Nat) (lineIdx : Nat)
deriving DecidableEq

/-- the `field_tracker` dictionary; only membership of a field name in a
context's inner dictionary affects the output, so the inner dictionary
is kept as the list of field names already seen. -/
abbrev Tracker : Type := List (CtxKey × List (List Char))

/-- dictionary read. -/
def tlook : Tracker → CtxKey → Option (List (List Char))
  | [], _ => none
  | p :: rest, k => if p.1 = k then some p.2 else tlook rest k

/-- dictionary write (replace the binding, or append a new one). -/
def tset : Tracker → CtxKey → List (List Char) → Tracker
  | [], k, v => [(k, v)]
  | p :: rest, k, v => if p.1 = k then (k, v) :: rest else p :: tset rest k v

/-- the skip test of `remove_duplicate_fields` (blank or comment
line). -/
def rdfSkip (l : List Char) : Bool :=
  (pyStrip l).isEmpty || (pyStrip l).head? = some '#'

/-- the `field_name` a line declares
(`stripped.split(chr(58), 1)[0].strip().lstrip(chr(45)).strip()`,
shared between all stripping uses). -/
def rdfField (l : List Char) : List Char := stripDashSp (beforeColon (pyStrip l))

/-- does the stripped line start a list item (`stripped.startswith`)? -/
def rdfListStart (l : List Char) : Bool := (str ("- ")).isPrefixOf (pyStrip l)

/-- is the line a `- Architecture:` list start inside the installer
list? -/
def rdfArchLine (inInst : Bool) (l : List Char) : Bool :=
  inInst && rdfListStart l && rdfField l = str ("Architecture")

/-- does the line reset the context to top level (zero indent, not a
list item)? -/
def rdfReset (l : List Char) : Bool := indentOf l = 0 && !rdfListStart l

/-- the context key a field line is tracked under, from the state after
the reset step. -/
def rdfCtx (arch : Option (List Char)) (secName : Option (List Char)) (listIdx : Nat)
    (inInst : Bool) (indent lineIdx : Nat) (isListStart : Bool) : CtxKey :=
  if archTruthy arch && inInst then CtxKey.archBlock listIdx (arch.getD [])
  else if isListStart then CtxKey.listItem indent lineIdx
  else
    match secName with
    | some n => if n.isEmpty then CtxKey.top indent else CtxKey.sec n indent
    | none => CtxKey.top indent

/-- `current_arch` after the reset step of a tracked field line. -/
def rdfArch2 (arch : Option (List Char)) (l : List Char) : Option (List Char) :=
  if rdfReset l then none else arch

/-- `current_section` after the reset step. -/
def rdfSec2 (secName : Option (List Char)) (l : List Char) : Option (List Char) :=
  if rdfReset l then some (rdfField l) else secName

/-- `current_list_item_idx` after the reset step. -/
def rdfIdx2 (listIdx : Nat) (l : List Char) : Nat :=
  if rdfReset l then 0 else listIdx

/-- `in_installer_list` after the reset step. -/
def rdfInInst2 (inInst : Bool) (l : List Char) : Bool :=
  if rdfReset l then false else inInst

/-- the context key of a tracked field line, from the state before the
line. -/
def rdfCtxOf (arch : Option (List Char)) (secName : Option (List Char)) (listIdx : Nat)
    (inInst : Bool) (lineIdx : Nat) (l : List Char) : CtxKey :=
  rdfCtx (rdfArch2 arch l) (rdfSec2 secName l) (rdfIdx2 listIdx l) (rdfInInst2 inInst l)
    (indentOf l) lineIdx (rdfListStart l)

/-- the per-line loop of `remove_duplicate_fields`; state in order:
tracker, `current_arch`, `current_section`, `current_list_item_idx`,
`in_installer_list`, the running line index (`enumerate`). -/
def rdfGo (tr : Tracker) (arch : Option (List Char)) (secName : Option (List Char))
    (listIdx : Nat) (inInst : Bool) (lineIdx : Nat) :
    List (List Char) → List (List Char)
  | [] => []
  | l :: ls =>
    if rdfSkip l then
      l :: rdfGo tr arch secName listIdx inInst (lineIdx + 1) ls
    else if pyStrip l = str ("Installers:") then
      l :: rdfGo tr arch secName 0 true (lineIdx + 1) ls
    else if hasColon (pyStrip l) then
      if rdfArchLine inInst l then
        l :: rdfGo (tset tr (CtxKey.archBlock (listIdx + 1) (pyStrip (afterColon (pyStrip l)))) [])
          (some (pyStrip (afterColon (pyStrip l)))) secName (listIdx + 1) inInst (lineIdx + 1) ls
      else if !(rdfListStart l && rdfField l = str ("Architecture")) then
        if ((tlook tr (rdfCtxOf arch secName listIdx inInst lineIdx l)).getD []).contains
            (rdfField l) then
          rdfGo tr (rdfArch2 arch l) (rdfSec2 secName l) (rdfIdx2 listIdx l)
            (rdfInInst2 inInst l) (lineIdx + 1) ls
        else
          l :: rdfGo (tset tr (rdfCtxOf arch secName listIdx inInst lineIdx l)
              (rdfField l ::
                (tlook tr (rdfCtxOf arch secName listIdx inInst lineIdx l)).getD []))
            (rdfArch2 arch l) (rdfSec2 secName l) (rdfIdx2 listIdx l) (rdfInInst2 inInst l)
            (lineIdx + 1) ls
      else
        l :: rdfGo tr (rdfArch2 arch l) (rdfSec2 secName l) (rdfIdx2 listIdx l)
          (rdfInInst2 inInst l) (lineIdx + 1) ls
    else
      l :: rdfGo tr arch secName listIdx inInst (lineIdx + 1) ls

/-- `remove_duplicate_fields` from scripts/yaml_utils.py. -/
def remove_duplicate_fields (content : List Char) : List Char :=
  collapseNl (joinNl (rdfGo [] none none 0 false 0 (splitNl content)))

/-!
## scripts/manifest/updater.py — `update_manifest_content` and
`add_missing_architectures`
-/

/-- `update_manifest_content` from scripts/manifest/updater.py.  The
extra `today` argument models `datetime.now().strftime('%Y-%m-%d')`. -/
def update_manifest_content (content version : List Char)
    (sha256 signature_sha256 release_notes release_notes_url : Option (List Char))
    (arch_hashes installer_urls : Option Dict)
    (installer_url : Option (List Char))
    (product_codes : Option Dict)
    (today : List Char) : List Char :=
  let c1 :=
    match findPackageVersion content with
    | some old =>
      if old ≠ version then
        let c := pyReplace old version content
        if (str (".0")).isSuffixOf old && (str (".0")).isSuffixOf version then
          let oldShort := old.take (old.length - 2)
          let newShort := version.take (version.length - 2)
          if 0 < countOccs oldShort c then pyReplace oldShort newShort c else c
        else c
      else content
    | none => content
  let c2 :=
    if optDict installer_urls then update_multi_arch_urls c1 (installer_urls.getD [])
    else if optStr installer_url then subUrlSingle (installer_url.getD []) c1
    else c1
  let c3 :=
    if optDict arch_hashes then update_multi_arch_hashes c2 (arch_hashes.getD [])
    else if optStr sha256 then
      subLitClass (str ("InstallerSha256:")) isHex
        (str ("InstallerSha256: ") ++ sha256.getD []) c2
    else c2
  let c4 :=
    if optStr signature_sha256 then
      subLitClass (str ("SignatureSha256:")) isHex
        (str ("SignatureSha256: ") ++ signature_sha256.getD []) c3
    else c3
  let c5 :=
    if optDict product_codes then update_product_codes c4 (product_codes.getD []) else c4
  let c6 :=
    if searchLitClass (str ("ReleaseDate:")) isDigitDash c5 then
      collapseNl (subReleaseDate today c5)
    else c5
  let c7 :=
    if optStr release_notes && occursIn (str ("ReleaseNotes:")) c6 then
      update_release_notes c6 (release_notes.getD [])
    else c6
  let c8 :=
    if optStr release_notes_url && occursIn (str ("ReleaseNotesUrl:")) c7 then
      update_release_notes_url c7 (release_notes_url.getD [])
    else c7
  remove_duplicate_fields c8

/-- all architectures named by `- Architecture:` lines (the
`existing_archs` set). -/
def collectArchs : List (List Char) → List (List Char)
  | [] => []
  | l :: ls =>
    match matchArchLine l with
    | some a => a :: collectArchs ls
    | none => collectArchs ls

/-- the largest index whose line satisfies `p` (the Python
`for i in range(len(lines) - 1, -1, -1)` scans, which stop at the first
hit from the end). -/
def lastIdxWhere (p : List Char → Bool) : List (List Char) → Option Nat
  | [] => none
  | l :: ls =>
    match lastIdxWhere p ls with
    | some j => some (j + 1)
    | none => if p l then some 0 else none

/-- the end-of-block test of the `add_missing_architectures` inner
scan. -/
def blockEndLine (l : List Char) : Bool :=
  let t := pyStrip l
  (str ("- Architecture:")).isPrefixOf t || (str ("ManifestType:")).isPrefixOf t ||
    (!t.isEmpty && l.head? ≠ some ' ')

/-- the `NestedInstallerType`-structure extraction loop over the last
installer block. -/
def extractNested : Bool → List (List Char) → List (List Char)
  | _, [] => []
  | inN, l :: ls =>
    if occursIn (str ("NestedInstallerType:")) l then l :: extractNested true ls
    else if inN && (str ("  ")).isPrefixOf l &&
        !(str ("  InstallerUrl:")).isPrefixOf l &&
        !(str ("  InstallerSha256:")).isPrefixOf l then
      l :: extractNested inN ls
    else if occursIn (str ("InstallerUrl:")) l || occursIn (str ("InstallerSha256:")) l then
      extractNested false ls
    else extractNested inN ls

/-- strict lexicographic order on strings (Python `<` on `str`, by code
point). -/
def strLt : List Char → List Char → Bool
  | [], [] => false
  | [], _ :: _ => true
  | _ :: _, [] => false
  | c :: a, d :: b => if c = d then strLt a b else decide (c < d)

/-- insertion into a `strLt`-sorted list. -/
def insertStr (x : List Char) : List (List Char) → List (List Char)
  | [] => [x]
  | y :: ys => if strLt x y || x = y then x :: y :: ys else y :: insertStr x ys

/-- Python `sorted` on a list of strings. -/
def sortStrings : List (List Char) → List (List Char)
  | [] => []
  | x :: xs => insertStr x (sortStrings xs)

/-- the per-architecture block synthesis of `add_missing_architectures`
(`none` when a dictionary lookup raises `KeyError`). -/
def buildBlocks (nested : List (List Char)) (hs us : Dict) :
    List (List Char) → Option (List (List Char))
  | [] => some []
  | a :: as =>
    match dlookup us a, dlookup hs a, buildBlocks nested hs us as with
    | some u, some h, some rest =>
      some ((str ("- Architecture: ") ++ a) :: nested ++
        (str ("  InstallerUrl: ") ++ u) :: (str ("  InstallerSha256: ") ++ h) :: rest)
    | _, _, _ => none

/-- `add_missing_architectures` from scripts/manifest/updater.py (a
`KeyError` on the URL lookup is modelled as `none`). -/
def add_missing_architectures (content : List Char) (arch_hashes installer_urls : Dict) :
    Option (List Char) :=
  let lines := splitNl content
  let existing := collectArchs lines
  let newArchs := (dkeys arch_hashes).filter (fun a => !existing.contains a)
  if newArchs.isEmpty then some content
  else
    let insertIdx :=
      (lastIdxWhere (fun l => (str ("ManifestType:")).isPrefixOf (pyStrip l)) lines).getD
        lines.length
    match lastIdxWhere (fun l => (str ("- Architecture:")).isPrefixOf (pyStrip l)) lines with
    | none => some content
    | some start =>
      let stop :=
        match (lines.drop (start + 1)).findIdx? blockEndLine with
        | some j => start + j
        | none => lines.length - 1
      let slice := (lines.take (min (stop + 1) lines.length)).drop start
      let nested := extractNested false slice
      match buildBlocks nested arch_hashes installer_urls (sortStrings newArchs) with
      | some secs => some (joinNl (lines.take insertIdx ++ secs ++ lines.drop insertIdx))
      | none => none

/-!
## scripts/version_utils.py

`packaging.version.parse` is third-party code; `parseVer` below is
modelled from the spec: PEP 440 semantic-version parsing, restricted to
the numeric dotted-release fragment the manifests use (optional
surrounding whitespace, optional `v`/`V`, then `N(.N)*`).  Everything
outside the fragment — in particular hyphenated dates such as
`2025-09-16`, whose second hyphen-group cannot be a PEP 440 post-release
— fails to parse, which in the Python code raises `InvalidVersion` and
lands in the `except` fallbacks. -/

/-- decimal digits to a number. -/
def digitsToNat (ds : List Char) : Nat :=
  ds.foldl (fun n c => n * 10 + (c.toNat - 48)) 0

/-- read a leading digit run. -/
def readNat (s : List Char) : Option (Nat × List Char) :=
  let d := s.takeWhile isDigit
  if d.isEmpty then none else some (digitsToNat d, s.drop d.length)

/-- the `(.N)*` tail of a release, requiring the whole rest to be
consumed. -/
def parseRelTail : Nat → List Char → List Nat → Option (List Nat)
  | _, [], acc => some acc.reverse
  | 0, _, _ => none
  | fuel + 1, c :: r, acc =>
    if c = '.' then
      match readNat r with
      | some (n, r') => parseRelTail fuel r' (n :: acc)
      | none => none
    else none

/-- Modelled from the spec: `packaging.version.parse`, numeric
dotted-release fragment of PEP 440 (see the section comment). -/
def parseVer (s : List Char) : Option (List Nat) :=
  let t1 := pyStrip s
  let t2 :=
    match t1 with
    | c :: r => if c = 'v' || c = 'V' then r else c :: r
    | [] => []
  match readNat t2 with
  | some (n, r) => parseRelTail r.length r [n]
  | none => none

/-- PEP 440 release comparison: componentwise, the shorter release
padded with zeros. -/
def cmpRel : List Nat → List Nat → Ordering
  | [], b => if b.all (fun y => y = 0) then .eq else .lt
  | x :: a, [] => if x = 0 && a.all (fun y => y = 0) then .eq else .gt
  | x :: a, y :: b => if x < y then .lt else if y < x then .gt else cmpRel a b

/-- `compare_versions` from scripts/version_utils.py: semantic comparison
when both sides parse, otherwise (the `except` branch) plain string
comparison. -/
def compare_versions (v1 v2 : List Char) : Int :=
  match parseVer v1, parseVer v2 with
  | some a, some b =>
    match cmpRel a b with
    | .lt => -1
    | .gt => 1
    | .eq => 0
  | _, _ => if strLt v1 v2 then -1 else if strLt v2 v1 then 1 else 0

/-- `is_newer_version` from scripts/version_utils.py. -/
def is_newer_version (current newVer : List Char) : Bool :=
  0 < compare_versions newVer current

/-- the sanitising fallback of `get_latest_version`
(`v.replace('-', '.').replace('_', '.')`). -/
def sanitizeVer (v : List Char) : List Char :=
  v.map (fun c => if c = '-' || c = '_' then '.' else c)

/-- the sort key attached to each version string: parsed, else parsed
after sanitising, else the `0.0.0` fallback. -/
def verKey (v : List Char) : List Nat :=
  match parseVer v with
  | some p => p
  | none =>
    match parseVer (sanitizeVer v) with
    | some p => p
    | none => [0, 0, 0]

/-- `a ≤ b` on release keys. -/
def relLe (a b : List Nat) : Bool := cmpRel a b ≠ .gt

/-- stable insertion by key (Python `list.sort(key=...)` is stable and
ascending; `[-1]` then picks the last of the maximal keys, which this
insertion preserves). -/
def insertVer (x : List Nat × List Char) :
    List (List Nat × List Char) → List (List Nat × List Char)
  | [] => [x]
  | y :: ys => if relLe x.1 y.1 then x :: y :: ys else y :: insertVer x ys

/-- the stable ascending sort of `(key, original)` pairs. -/
def sortVers : List (List Nat × List Char) → List (List Nat × List Char)
  | [] => []
  | x :: xs => insertVer x (sortVers xs)

/-- `get_latest_version` from scripts/version_utils.py. -/
def get_latest_version (versions : List (List Char)) : Except (List Char) (List Char) :=
  if versions.isEmpty then .error (str ("Cannot get latest version from empty list"))
  else
    let parsed := versions.map (fun v => (verKey v, v))
    let sorted := sortVers parsed
    .ok (sorted.getLastD ([], [])).2

/-!
## Specification-side vocabulary

The definitions below express the claims' language (field names,
positional architecture context, first occurrences, YAML block-scalar
decoding) independently of the scanning state machines above, so that
the theorems compare implementation with specification.
-/

/-- the field name of a line: the stripped text before the first colon,
with list dashes removed — the notion `remove_duplicate_fields` itself
uses; `none` for lines without a colon. -/
def keyOf (l : List Char) : Option (List Char) :=
  if hasColon (pyStrip l) then some (stripDashSp (beforeColon (pyStrip l))) else none

/-- every field name occurring in a text. -/
def fieldNames (content : List Char) : List (List Char) :=
  (splitNl content).filterMap keyOf

/-- the architecture context of line `i`: the name captured by the last
`- Architecture:` line at or before `i` (the claims' notion of the block
a line belongs to — a block extends until the next architecture line). -/
def archCtxAt (lines : List (List Char)) (i : Nat) : Option (List Char) :=
  ((lines.take (i + 1)).filterMap matchArchLine).getLast?

/-- is line `i` a field line of the multi-arch rewrite: it mentions the
field and its architecture context is in the dictionary? -/
def maRelevant (field : List Char) (m : Dict) (lines : List (List Char)) (i : Nat) : Bool :=
  occursIn field (lines.getD i []) &&
    (match archCtxAt lines i with
     | some a => !a.isEmpty && (dlookup m a).isSome
     | none => false)

/-- is line `i` the first relevant line of its architecture? -/
def maFirst (field : List Char) (m : Dict) (lines : List (List Char)) (i : Nat) : Bool :=
  maRelevant field m lines i &&
    ((List.range i).all fun j =>
      !(maRelevant field m lines j && archCtxAt lines j = archCtxAt lines i))

/-- the per-line result the claim describes: the first relevant line per
architecture is rewritten in place to the mapped value, later relevant
lines of that architecture are deleted, all other lines are kept. -/
def maSpecLine (field : List Char) (m : Dict) (lines : List (List Char)) (i : Nat) :
    Option (List Char) :=
  if maRelevant field m lines i then
    if maFirst field m lines i then
      some (List.replicate (indentOf (lines.getD i [])) ' ' ++ field ++
        ' ' :: (dlookup m ((archCtxAt lines i).getD [])).getD [])
    else none
  else some (lines.getD i [])

/-- the whole specification-side rewrite (with the final blank-run
collapse of the source). -/
def maSpec (field : List Char) (m : Dict) (content : List Char) : List Char :=
  let lines := splitNl content
  collapseNl (joinNl ((List.range lines.length).filterMap (maSpecLine field m lines)))

/-- trailing-newline normalization (the chomping of a YAML `|-` block
scalar). -/
def chompNl (s : List Char) : List Char :=
  (s.reverse.dropWhile (· = '\n')).reverse

/-- the indentation a YAML literal block scalar detects: that of its
first non-empty line. -/
def detectIndent (ls : List (List Char)) : Nat :=
  match ls.find? (fun l => !isWsLine l) with
  | some l => indentOf l
  | none => 0

/-- the lines belonging to a block scalar of indentation `n`:
whitespace-only lines continue it, any other line needs `n` leading
spaces. -/
def takeBlock (n : Nat) : List (List Char) → List (List Char)
  | [] => []
  | l :: ls =>
    if isWsLine l || n ≤ indentOf l then l :: takeBlock n ls else []

/-- one block line's contribution: the indentation is stripped, an empty
line (shorter than the indentation) contributes nothing. -/
def stripIndent (n : Nat) (l : List Char) : List Char :=
  if l.length ≤ n then [] else l.drop n

/-- decoding of a top-level `|-` literal block scalar per the YAML
rules: auto-detected indentation, whitespace-only continuation lines,
strip chomping; a detected indentation of zero means the scalar is
empty (the next zero-indent line already ends it). -/
def decodeBlockScalar (ls : List (List Char)) : List Char :=
  let n := detectIndent ls
  if n = 0 then [] else chompNl (joinNl ((takeBlock n ls).map (stripIndent n)))

/-- read the ReleaseNotes block scalar back out of a patched manifest:
the lines following the first `ReleaseNotes: |-` line, decoded. -/
def decodeReleaseNotes (content : List Char) : Option (List Char) :=
  let lines := splitNl content
  match lines.findIdx? (fun l => l = str ("ReleaseNotes: |-")) with
  | some i => some (decodeBlockScalar (lines.drop (i + 1)))
  | none => none

/-- the integer a comparison outcome is reported as. -/
def ordToInt : Ordering → Int
  | .lt => -1
  | .gt => 1
  | .eq => 0

/-- the architectures named by the new hash data but absent from the
manifest text (the claims' "missing" architectures). -/
def missingArchs (content : List Char) (arch_hashes : Dict) : List (List Char) :=
  (dkeys arch_hashes).filter (fun a => !(collectArchs (splitNl content)).contains a)

/-- the `NestedInstallerType`/`NestedInstallerFiles` structure cloned
from the last existing architecture block. -/
def clonedNested (content : List Char) : List (List Char) :=
  let lines := splitNl content
  match lastIdxWhere (fun l => (str ("- Architecture:")).isPrefixOf (pyStrip l)) lines with
  | none => []
  | some start =>
    let stop :=
      match (lines.drop (start + 1)).findIdx? blockEndLine with
      | some j => start + j
      | none => lines.length - 1
    extractNested false ((lines.take (min (stop + 1) lines.length)).drop start)

/-- the new architecture blocks the claim describes: one block per
missing architecture in ascending name order, each cloning the last
block's nested-installer lines and carrying its own URL and hash. -/
def newArchSections (content : List Char) (arch_hashes installer_urls : Dict) :
    List (List Char) :=
  (sortStrings (missingArchs content arch_hashes)).flatMap (fun a =>
    (str ("- Architecture: ") ++ a) :: clonedNested content ++
      [str ("  InstallerUrl: ") ++ (dlookup installer_urls a).getD [],
       str ("  InstallerSha256: ") ++ (dlookup arch_hashes a).getD []])

/-- the number of lines equal to a given line. -/
def countLines (x : List Char) (ls : List (List Char)) : Nat :=
  ls.countP (fun l => l = x)

/-- a concrete installer manifest (the shape of the repository's own
multi-architecture test fixture) used by witnesses. -/
def sampleManifest : List Char :=
  str ("PackageIdentifier: UniKey.UniKey\nPackageVersion: 4.6.230919\nInstallerType: zip\nReleaseDate: 2023-09-19\nInstallers:\n- Architecture: x64\n  NestedInstallerType: portable\n  NestedInstallerFiles:\n  - RelativeFilePath: UnikeyNT.exe\n    PortableCommandAlias: UnikeyNT\n  InstallerUrl: https://unikey.org/assets/release/unikey46RC2-230919-win64.zip\n  InstallerSha256: OLDX64\n- Architecture: x86\n  InstallerUrl: https://unikey.org/assets/release/unikey46RC2-230919-win32.zip\n  InstallerSha256: OLDX86\nManifestType: installer\nManifestVersion: 1.9.0\n")

/-- per-architecture hashes for the sample (arm64 is missing from the
manifest). -/
def sampleHashes : Dict :=
  [(str ("x64"), str ("AA11")), (str ("x86"), str ("BB22")), (str ("arm64"), str ("CC33"))]

/-- per-architecture URLs for the sample. -/
def sampleUrls : Dict :=
  [(str ("x64"), str ("https://u.org/a64.zip")), (str ("x86"), str ("https://u.org/a32.zip")),
   (str ("arm64"), str ("https://u.org/arm.zip"))]

/-- the lines the cleanup scan never removes: blank and comment lines,
the `Installers:` heading, colon-free lines, and `- Architecture:` list
starts. -/
def rdfProtected (l : List Char) : Bool :=
  rdfSkip l || pyStrip l = str ("Installers:") || !hasColon (pyStrip l) ||
    (rdfListStart l && rdfField l = str ("Architecture"))

/-- a plain top-level field line: zero indent, not a list item, a colon,
a nonempty field name, neither blank nor comment nor the `Installers:`
heading. -/
def rdfFlat (l : List Char) : Bool :=
  !rdfSkip l && pyStrip l ≠ str ("Installers:") && hasColon (pyStrip l) &&
    indentOf l = 0 && !rdfListStart l && !(rdfField l).isEmpty

/-- the cleanup the claim describes on a flat run of field lines: keep
the first line of each field name, remove every later one. -/
def dedupByField (seen : List (List Char)) : List (List Char) → List (List Char)
  | [] => []
  | l :: ls =>
    if (rdfField l) ∈ seen then dedupByField seen ls
    else l :: dedupByField (rdfField l :: seen) ls

/-- fragments joined by a separator (the decomposition of a text along
the non-overlapping occurrences of a version string). -/
def joinSep (sep : List Char) : List (List Char) → List Char
  | [] => []
  | [f] => f
  | f :: g :: rest => f ++ (sep ++ joinSep sep (g :: rest))

/-- the start offsets of the separators inside `joinSep sep frags`. -/
def seamPos (sep : List Char) : List (List Char) → List Nat
  | [] => []
  | [_] => []
  | f :: g :: rest =>
    f.length :: (seamPos sep (g :: rest)).map (fun p => f.length + sep.length + p)

/-!
## Theorems
-/

/-- inserting keeps the elements (up to permutation). -/
theorem insertVer_perm (x : List Nat × List Char) (l : List (List Nat × List Char)) :
    List.Perm (insertVer x l) (x :: l) := by
  induction l with
  | nil => simp [insertVer]
  | cons y ys ih =>
    simp only [insertVer]
    split
    · exact List.Perm.refl _
    · exact (List.Perm.cons y ih).trans (List.Perm.swap x y ys)

/-- the sort is a permutation. -/
theorem sortVers_perm (l : List (List Nat × List Char)) :
    List.Perm (sortVers l) l := by
  induction l with
  | nil => simp [sortVers]
  | cons x xs ih => exact (insertVer_perm x (sortVers xs)).trans (List.Perm.cons x ih)

/-- the last-or-default element of a non-empty list is a member. -/
theorem mem_getLastD {α : Type} (l : List α) (d : α) (h : l ≠ []) : l.getLastD d ∈ l := by
  induction l generalizing d with
  | nil => exact absurd rfl h
  | cons a t ih =>
    rw [List.getLastD_cons]
    cases t with
    | nil => simp [List.getLastD]
    | cons b t' => exact List.mem_cons_of_mem a (ih a (by simp))

/-- C10: `get_latest_version` fails exactly on the empty list — every
entry that does not parse is keyed by its sanitised parse or by the
lowest fallback key instead of raising — and the returned value is
always one of the original input strings. -/
theorem c10_get_latest_version :
    (∀ versions : List (List Char),
      (∃ e, get_latest_version versions = .error e) ↔ versions = []) ∧
    (∀ (versions : List (List Char)) (r : List Char),
      get_latest_version versions = .ok r → r ∈ versions) := by
  constructor
  · intro versions
    constructor
    · rintro ⟨e, he⟩
      by_contra hne
      have hf : versions.isEmpty = false := by
        cases versions with
        | nil => exact absurd rfl hne
        | cons a t => rfl
      simp [get_latest_version, hf] at he
    · rintro rfl
      exact ⟨_, rfl⟩
  · intro versions r h
    have hf : versions.isEmpty = false := by
      cases hc : versions.isEmpty with
      | false => rfl
      | true => simp [get_latest_version, hc] at h
    have hne : versions ≠ [] := by
      cases versions with
      | nil => simp at hf
      | cons a t => simp
    simp only [get_latest_version, hf, Bool.false_eq_true, if_false, Except.ok.injEq] at h
    set parsed := versions.map (fun v => (verKey v, v)) with hp
    have hpne : sortVers parsed ≠ [] := by
      intro hnil
      have := (sortVers_perm parsed).length_eq
      rw [hnil] at this
      cases versions with
      | nil => exact hne rfl
      | cons a t => simp [hp] at this
    have hmem : (sortVers parsed).getLastD ([], []) ∈ sortVers parsed :=
      mem_getLastD _ _ hpne
    have hmem2 : (sortVers parsed).getLastD ([], []) ∈ parsed :=
      (sortVers_perm parsed).mem_iff.mp hmem
    rw [hp] at hmem2
    rcases List.mem_map.mp hmem2 with ⟨v, hv, hveq⟩
    have : r = v := by rw [← h, ← hveq]
    exact this ▸ hv

/-- witness for C10 at concrete inputs. -/
theorem c10_witness :
    (∃ e, get_latest_version [] = .error e) ∧
      str ("1.2.4") ∈ [str ("1.2.3"), str ("1.2.4")] :=
  ⟨(c10_get_latest_version.1 []).mpr rfl,
   c10_get_latest_version.2 [str ("1.2.3"), str ("1.2.4")] (str ("1.2.4")) (by rfl)⟩

/-- C6 counterexample: hyphen-separated forms do not order semantically —
both sides of the pair fail PEP 440 parsing, the code falls back to
plain string comparison, and `2025-9-16` is reported *greater* than
`2025-10-2`, while the same versions written with dots (where semantic
parsing applies) compare the other way around. -/
theorem c6_counterexample :
    compare_versions (str ("2025-9-16")) (str ("2025-10-2")) = 1 ∧
    compare_versions (str ("2025.9.16")) (str ("2025.10.2")) = -1 := by
  constructor
  · decide
  · decide

/-- C6 (amended): dotted numeric forms order semantically
(`1.2.3 = 1.2.3.0`, `2025.10.13 > 2025.9.30`, and in general two
parseable versions compare by their padded releases), while a version
that fails semantic parsing (such as a hyphenated date) makes the
comparison fall back to plain lexicographic string order;
`is_newer_version current new` holds exactly when
`compare_versions new current` is positive. -/
theorem c6_semantic_comparison :
    compare_versions (str ("1.2.3")) (str ("1.2.3.0")) = 0 ∧
    compare_versions (str ("2025.10.13")) (str ("2025.9.30")) = 1 ∧
    (∀ v1 v2 a b, parseVer v1 = some a → parseVer v2 = some b →
      compare_versions v1 v2 = ordToInt (cmpRel a b)) ∧
    (∀ v1 v2, parseVer v1 = none ∨ parseVer v2 = none →
      compare_versions v1 v2 =
        if strLt v1 v2 then -1 else if strLt v2 v1 then 1 else 0) ∧
    (∀ current newVer, is_newer_version current newVer = true ↔
      0 < compare_versions newVer current) := by
  refine ⟨by decide, by decide, ?_, ?_, ?_⟩
  · intro v1 v2 a b h1 h2
    simp only [compare_versions, h1, h2]
    cases cmpRel a b <;> rfl
  · intro v1 v2 h
    rcases h with h | h
    · cases hv : parseVer v2 <;> simp [compare_versions, h, hv]
    · cases hv : parseVer v1 <;> simp [compare_versions, h, hv]
  · intro current newVer
    simp [is_newer_version]

/-- witness for C6 at concrete inputs. -/
theorem c6_witness :
    compare_versions (str ("1.2")) (str ("1.10")) = ordToInt (cmpRel [1, 2] [1, 10]) ∧
    compare_versions (str ("2025-9-16")) (str ("2025-10-2")) =
      (if strLt (str ("2025-9-16")) (str ("2025-10-2")) then -1
       else if strLt (str ("2025-10-2")) (str ("2025-9-16")) then 1 else 0) ∧
    (is_newer_version (str ("1.2.3")) (str ("1.2.4")) = true ↔
      0 < compare_versions (str ("1.2.4")) (str ("1.2.3"))) :=
  ⟨c6_semantic_comparison.2.2.1 _ _ _ _ (by decide) (by decide),
   c6_semantic_comparison.2.2.2.1 _ _ (Or.inl (by decide)),
   c6_semantic_comparison.2.2.2.2 _ _⟩

/-- C5: the code contradicts its own multi-architecture design.  On a
standard installer manifest the `Installers:` line is at indentation
zero, so the same iteration that sets `in_installers_section` also runs
the `elif line and not line.startswith(' ')...` reset and clears it
again; `current_arch` is therefore never set, the per-architecture
branch of `_update_product_codes` is dead, the first ProductCode inside
an architecture block is rewritten with the `default` code, and the
second architecture's ProductCode is deleted as a top-level duplicate. -/
theorem c5_product_code_context_bug :
    countOccs (str ("ProductCode:"))
      (update_product_codes
        (str ("PackageVersion: 1.0\nInstallers:\n- Architecture: x64\n  ProductCode: OLD64\n- Architecture: arm64\n  ProductCode: OLDARM\nManifestType: installer\n"))
        [(str ("x64"), str ("NEW64")), (str ("arm64"), str ("NEWARM")),
         (str ("default"), str ("DFLT"))]) = 1 ∧
    occursIn (str ("ProductCode: ") ++ sq :: str ("DFLT") ++ [sq])
      (update_product_codes
        (str ("PackageVersion: 1.0\nInstallers:\n- Architecture: x64\n  ProductCode: OLD64\n- Architecture: arm64\n  ProductCode: OLDARM\nManifestType: installer\n"))
        [(str ("x64"), str ("NEW64")), (str ("arm64"), str ("NEWARM")),
         (str ("default"), str ("DFLT"))]) = true ∧
    occursIn (str ("NEW64"))
      (update_product_codes
        (str ("PackageVersion: 1.0\nInstallers:\n- Architecture: x64\n  ProductCode: OLD64\n- Architecture: arm64\n  ProductCode: OLDARM\nManifestType: installer\n"))
        [(str ("x64"), str ("NEW64")), (str ("arm64"), str ("NEWARM")),
         (str ("default"), str ("DFLT"))]) = false := by
  refine ⟨by decide, by decide, by decide⟩

/-- C1 counterexample: with old version `1.2` and new version `1.2.3`
the old version is detected, occurs once, and still occurs in the
output (as a prefix of the new version), where the claim demands zero
occurrences. -/
theorem c1_counterexample :
    findPackageVersion (str ("PackageVersion: 1.2\n")) = some (str ("1.2")) ∧
    countOccs (str ("1.2")) (str ("PackageVersion: 1.2\n")) = 1 ∧
    countOccs (str ("1.2"))
      (update_manifest_content (str ("PackageVersion: 1.2\n")) (str ("1.2.3"))
        none none none none none none none none (str ("2026-10-12"))) = 1 := by
  refine ⟨by decide, by decide, by decide⟩

/-- C2 counterexample: a manifest whose only architecture block (for an
architecture absent from the map) contains a run of two blank lines is
not returned unchanged — the final blank-run collapse of
`_update_multi_arch_urls` rewrites those lines to a single blank line
even though no field was touched. -/
theorem c2_counterexample :
    update_multi_arch_urls (str ("- Architecture: arm64\n\n\nx"))
      [(str ("x64"), str ("https://e.x/a.zip"))] ≠ str ("- Architecture: arm64\n\n\nx") := by
  decide

/-- C3 counterexample: the whole-text version substitution rewrites a
field key that happens to contain the old version, so the output
contains the field name `A3.4B` that the input never had. -/
theorem c3_counterexample :
    (fieldNames
      (update_manifest_content (str ("PackageVersion: 1.2\nA1.2B: x\n")) (str ("3.4"))
        none none none none none none none none (str ("2026-10-12")))).contains
      (str ("A3.4B")) = true ∧
    (fieldNames (str ("PackageVersion: 1.2\nA1.2B: x\n"))).contains (str ("A3.4B")) = false := by
  refine ⟨by decide, by decide⟩

/-- C8 counterexample: release notes containing two consecutive
whitespace-only lines do not round-trip — the blank-run collapse that
`_update_release_notes` applies after emitting the block scalar rewrites
the run, and decoding returns `a\n\nb` instead of the original
`a\n \n \nb`. -/
theorem c8_counterexample :
    decodeReleaseNotes
      (update_release_notes (str ("ReleaseNotes: x\nManifestType: installer\n"))
        (str ("a\n \n \nb"))) ≠ some (str ("a\n \n \nb")) := by
  decide

/-- indexing at the length of the left part of an append. -/
theorem getD_append_len {α : Type} (pre : List α) (l : α) (rs : List α) (d : α) :
    (pre ++ l :: rs).getD pre.length d = l := by
  induction pre with
  | nil => rfl
  | cons a t ih => simpa using ih

/-- taking one line past the left part of an append. -/
theorem take_append_len {α : Type} (pre : List α) (l : α) (rs : List α) :
    (pre ++ l :: rs).take (pre.length + 1) = pre ++ [l] := by
  induction pre with
  | nil => rfl
  | cons a t ih => simpa using ih

/-- how the positional architecture context grows by one line. -/
theorem archPre_snoc (pre : List (List Char)) (l : List Char) :
    ((pre ++ [l]).filterMap matchArchLine).getLast? =
      (match matchArchLine l with
       | some a => some a
       | none => (pre.filterMap matchArchLine).getLast?) := by
  rw [List.filterMap_append]
  cases h : matchArchLine l with
  | some a => simp [List.filterMap_cons, h]
  | none => simp [List.filterMap_cons, h]

/-- the state of the `_update_multi_arch_urls` / `_update_multi_arch_hashes`
loop after a prefix of lines equals the positional description: the
current architecture is the last architecture line of the prefix, and
the updated set holds exactly the architectures that already had a
relevant field line. -/
theorem updMultiArchGo_spec (field : List Char) (m : Dict) (L : List (List Char)) :
    ∀ (rest pre : List (List Char)) (arch : Option (List Char)) (upd : List (List Char)),
      L = pre ++ rest →
      arch = (pre.filterMap matchArchLine).getLast? →
      (∀ a : List Char, upd.contains a = true ↔
        ∃ j < pre.length, maRelevant field m L j = true ∧ archCtxAt L j = some a) →
      updMultiArchGo field m arch upd rest =
        (List.range' pre.length rest.length).filterMap (maSpecLine field m L) := by
  intro rest
  induction rest with
  | nil => intro pre arch upd hL ha hu; simp [updMultiArchGo]
  | cons l rs ih =>
    intro pre arch upd hL ha hu
    have hl : L.getD pre.length [] = l := by
      rw [hL]; exact getD_append_len pre l rs []
    have hctx : archCtxAt L pre.length =
        (match matchArchLine l with
         | some a => some a
         | none => arch) := by
      unfold archCtxAt
      rw [hL, take_append_len, archPre_snoc, ha]
    have hrel : maRelevant field m L pre.length =
        (occursIn field l &&
          (match (match matchArchLine l with
                  | some a => some a
                  | none => arch) with
           | some a => !a.isEmpty && (dlookup m a).isSome
           | none => false)) := by
      unfold maRelevant
      rw [hl, hctx]
    have hLnext : L = (pre ++ [l]) ++ rs := by rw [hL]; simp
    have hanext :
        (match matchArchLine l with
         | some a => some a
         | none => arch) = ((pre ++ [l]).filterMap matchArchLine).getLast? := by
      rw [archPre_snoc, ha]
    have hrange : List.range' pre.length (l :: rs).length =
        pre.length :: List.range' (pre.length + 1) rs.length := rfl
    have hprelen : (pre ++ [l]).length = pre.length + 1 := by simp
    -- case split on relevance of the current line
    cases hr : (occursIn field l &&
        (match (match matchArchLine l with
                | some a => some a
                | none => arch) with
         | some a => !a.isEmpty && (dlookup m a).isSome
         | none => false)) with
    | false =>
      have hinv : ∀ a : List Char, upd.contains a = true ↔
          ∃ j < (pre ++ [l]).length, maRelevant field m L j = true ∧
            archCtxAt L j = some a := by
        intro a
        rw [hprelen, hu a]
        constructor
        · rintro ⟨j, hj, h1, h2⟩; exact ⟨j, Nat.lt_succ_of_lt hj, h1, h2⟩
        · rintro ⟨j, hj, h1, h2⟩
          rcases Nat.lt_succ_iff_lt_or_eq.mp hj with hj' | rfl
          · exact ⟨j, hj', h1, h2⟩
          · rw [hrel, hr] at h1; exact absurd h1 (by simp)
      have hspec : maSpecLine field m L pre.length = some l := by
        unfold maSpecLine
        rw [hrel, hr, hl]
        simp
      rw [hrange, List.filterMap_cons, hspec]
      simp only [updMultiArchGo]
      rw [hr]
      simp only [Bool.false_eq_true, if_false]
      rw [ih (pre ++ [l]) _ upd hLnext hanext (by rw [hprelen] at hinv ⊢; exact hinv)]
      rw [hprelen]
    | true =>
      -- the current architecture context is a dictionary key
      have harch : ∃ a, (match matchArchLine l with
          | some a => some a
          | none => arch) = some a := by
        cases hm : (match matchArchLine l with
            | some a => some a
            | none => arch) with
        | some a => exact ⟨a, rfl⟩
        | none => rw [hm] at hr; simp at hr
      rcases harch with ⟨a, hma⟩
      have hctxa : archCtxAt L pre.length = some a := by rw [hctx, hma]
      have hrelT : maRelevant field m L pre.length = true := by rw [hrel, hr]
      have hsome : some a = ((pre ++ [l]).filterMap matchArchLine).getLast? := by
        rw [← hma]; exact hanext
      have hfirst : maFirst field m L pre.length = !(upd.contains a) := by
        unfold maFirst
        rw [hrelT, Bool.true_and]
        cases hc2 : upd.contains a with
        | true =>
          rcases (hu a).mp hc2 with ⟨j, hj, h1, h2⟩
          simp only [Bool.not_true]
          rw [List.all_eq_false]
          refine ⟨j, List.mem_range.mpr hj, ?_⟩
          rw [h1, h2, hctxa]
          simp
        | false =>
          simp only [Bool.not_false]
          rw [List.all_eq_true]
          intro j hj
          cases hmr : maRelevant field m L j with
          | false => simp [hmr]
          | true =>
            have hne : ¬ (archCtxAt L j = some a) := by
              intro hcj
              rw [(hu a).mpr ⟨j, List.mem_range.mp hj, hmr, hcj⟩] at hc2
              exact Bool.noConfusion hc2
            rw [hctxa]
            simp [hmr, hne]
      cases hc : upd.contains a with
      | true =>
        -- duplicate: the line is deleted
        have hinv : ∀ x : List Char, upd.contains x = true ↔
            ∃ j < (pre ++ [l]).length, maRelevant field m L j = true ∧
              archCtxAt L j = some x := by
          intro x
          rw [hprelen, hu x]
          constructor
          · rintro ⟨j, hj, h1, h2⟩; exact ⟨j, Nat.lt_succ_of_lt hj, h1, h2⟩
          · rintro ⟨j, hj, h1, h2⟩
            rcases Nat.lt_succ_iff_lt_or_eq.mp hj with hj' | rfl
            · exact ⟨j, hj', h1, h2⟩
            · rw [hctxa] at h2
              have : x = a := by injection h2.symm
              subst this
              exact (hu x).mp hc
        have hspec : maSpecLine field m L pre.length = none := by
          unfold maSpecLine
          rw [hrelT, hfirst, hc]
          simp
        rw [hrange, List.filterMap_cons, hspec]
        simp only [updMultiArchGo]
        rw [hr, hma]
        simp only [if_true]
        rw [hc]
        simp only [if_true]
        rw [ih (pre ++ [l]) _ upd hLnext hsome (by rw [hprelen] at hinv ⊢; exact hinv)]
        rw [hprelen]
      | false =>
        -- first occurrence: the line is rewritten in place
        have hinv : ∀ x : List Char, (a :: upd).contains x = true ↔
            ∃ j < (pre ++ [l]).length, maRelevant field m L j = true ∧
              archCtxAt L j = some x := by
          intro x
          rw [hprelen]
          have hmem : (a :: upd).contains x = true ↔ x ∈ a :: upd := by simp
          have hmem2 : upd.contains x = true ↔ x ∈ upd := by simp
          rw [hmem]
          constructor
          · intro hx
            rcases List.mem_cons.mp hx with rfl | hxm
            · exact ⟨pre.length, Nat.lt_succ_self _, hrelT, hctxa⟩
            · rcases (hu x).mp (hmem2.mpr hxm) with ⟨j, hj, h1, h2⟩
              exact ⟨j, Nat.lt_succ_of_lt hj, h1, h2⟩
          · rintro ⟨j, hj, h1, h2⟩
            rcases Nat.lt_succ_iff_lt_or_eq.mp hj with hj' | rfl
            · exact List.mem_cons_of_mem a (hmem2.mp ((hu x).mpr ⟨j, hj', h1, h2⟩))
            · rw [hctxa] at h2
              have : x = a := by injection h2.symm
              subst this
              exact List.mem_cons_self x upd
        have hspec : maSpecLine field m L pre.length =
            some (List.replicate (indentOf l) ' ' ++ field ++
              ' ' :: (dlookup m a).getD []) := by
          unfold maSpecLine
          rw [hrelT, hfirst, hc, hl, hctxa]
          simp
        rw [hrange, List.filterMap_cons, hspec]
        simp only [updMultiArchGo]
        rw [hr, hma]
        simp only [if_true]
        rw [hc]
        simp only [Bool.false_eq_true, if_false]
        rw [ih (pre ++ [l]) _ (a :: upd) hLnext hsome (by rw [hprelen] at hinv ⊢; exact hinv)]
        rw [hprelen]

/-- the two multi-arch rewrites coincide with the positional
specification. -/
theorem updMultiArch_eq_spec (field : List Char) (m : Dict) (content : List Char) :
    collapseNl (joinNl (updMultiArchGo field m none [] (splitNl content))) =
      maSpec field m content := by
  unfold maSpec
  rw [updMultiArchGo_spec field m (splitNl content) (splitNl content) [] none [] rfl rfl
      (by
        intro a
        constructor
        · intro h
          simp at h
        · rintro ⟨j, hj, -, -⟩
          exact absurd hj (Nat.not_lt_zero j))]
  simp only [List.length_nil, ← List.range_eq_range']

/-- C2 (amended): `_update_multi_arch_urls` and
`_update_multi_arch_hashes` rewrite their field line only inside the
block opened by the last matching `- Architecture: name` line, replace
exactly the first such line per architecture name with the mapped value
(rebuilt as original indentation, field, one space, value), delete every
later occurrence of the field for an architecture already updated, and
leave lines whose architecture context is absent from the map unchanged
— except that the final pass additionally collapses every run of two or
more consecutive whitespace-only lines to a single blank line, exactly
as `maSpec` states. -/
theorem c2_once_per_architecture :
    (∀ (content : List Char) (m : Dict),
      update_multi_arch_urls content m = maSpec (str ("InstallerUrl:")) m content) ∧
    (∀ (content : List Char) (m : Dict),
      update_multi_arch_hashes content m = maSpec (str ("InstallerSha256:")) m content) :=
  ⟨fun content m => updMultiArch_eq_spec _ m content,
   fun content m => updMultiArch_eq_spec _ m content⟩

/-- a successful reverse scan returns a valid index whose line
satisfies the test. -/
theorem lastIdxWhere_mem {p : List Char → Bool} :
    ∀ {ls : List (List Char)} {i : Nat}, lastIdxWhere p ls = some i →
      i < ls.length ∧ p (ls.getD i []) = true := by
  intro ls
  induction ls with
  | nil => intro i h; exact absurd h (by simp [lastIdxWhere])
  | cons l t ih =>
    intro i h
    unfold lastIdxWhere at h
    cases hm : lastIdxWhere p t with
    | some j =>
      rw [hm] at h
      injection h with h'
      subst h'
      rcases ih hm with ⟨h1, h2⟩
      exact ⟨Nat.succ_lt_succ h1, h2⟩
    | none =>
      rw [hm] at h
      by_cases hp : p l = true
      · rw [if_pos hp] at h
        injection h with h'
        subst h'
        exact ⟨Nat.succ_pos _, hp⟩
      · rw [if_neg hp] at h
        exact absurd h (by simp)

/-- a word character is never whitespace. -/
theorem isWord_not_ws {c : Char} (h : isWord c = true) : isWs c = false := by
  by_contra hc
  have hc' : isWs c = true := by
    cases hx : isWs c with
    | true => rfl
    | false => exact absurd hx hc
  unfold isWs at hc'
  simp only [Bool.or_eq_true, decide_eq_true_eq] at hc'
  rcases hc' with ((((h1 | h2) | h3) | h4) | h5) | h6 <;>
    first
      | (subst h1; revert h; decide)
      | (subst h2; revert h; decide)
      | (subst h3; revert h; decide)
      | (subst h4; revert h; decide)
      | (subst h5; revert h; decide)
      | (subst h6; revert h; decide)

/-- a canonical architecture line is captured by the scanner. -/
theorem archLine_match {a : List Char} (hne : a ≠ []) (hw : a.all isWord = true) :
    matchArchLine (str ("- Architecture: ") ++ a) = some a := by
  rcases List.exists_cons_of_ne_nil hne with ⟨c, t, rfl⟩
  have hcw : isWord c = true := by
    rw [List.all_cons] at hw
    exact (Bool.and_eq_true_iff.mp hw).1
  have hcns : isWs c = false := isWord_not_ws hcw
  unfold matchArchLine
  have h1 : (str ("- Architecture: ") ++ c :: t).dropWhile isWs =
      '-' :: (str (" Architecture: ") ++ c :: t) := rfl
  rw [h1]
  have h2 : (str (" Architecture: ") ++ c :: t).dropWhile isWs =
      str ("Architecture: ") ++ c :: t := rfl
  simp only [h2]
  have h3 : (str ("Architecture:")).isPrefixOf (str ("Architecture: ") ++ c :: t) = true := by
    have : str ("Architecture: ") ++ c :: t = str ("Architecture:") ++ (' ' :: c :: t) := rfl
    rw [this, List.isPrefixOf_iff_prefix]
    exact List.prefix_append _ _
  rw [h3]
  simp only [if_true]
  have h4 : (str ("Architecture: ") ++ c :: t).drop 13 = ' ' :: c :: t := by
    have : str ("Architecture: ") ++ c :: t = str ("Architecture:") ++ (' ' :: c :: t) := rfl
    rw [this]
    have h13 : (str ("Architecture:")).length = 13 := rfl
    rw [← h13]
    exact List.drop_left _ _
  rw [h4]
  have h5 : (' ' :: c :: t).dropWhile isWs = c :: t := by
    rw [List.dropWhile_cons, if_pos (show isWs ' ' = true from rfl),
        List.dropWhile_cons, if_neg (by simp [hcns])]
  rw [h5]
  have h6 : (c :: t).takeWhile isWord = c :: t := by
    apply List.takeWhile_eq_self_iff.mpr
    intro x hx
    exact (List.all_eq_true.mp hw) x hx
  rw [h6]
  simp

/-- a line the scanner captures puts its architecture into the
collected set. -/
theorem collectArchs_mem {a l : List Char} :
    ∀ {lines : List (List Char)}, l ∈ lines → matchArchLine l = some a →
      a ∈ collectArchs lines := by
  intro lines
  induction lines with
  | nil => intro h; exact absurd h (List.not_mem_nil l)
  | cons x t ih =>
    intro hmem hl
    unfold collectArchs
    rcases List.mem_cons.mp hmem with rfl | hmem'
    · rw [hl]; exact List.mem_cons_self _ _
    · cases hx : matchArchLine x with
      | some b => exact List.mem_cons_of_mem b (ih hmem' hl)
      | none => exact ih hmem' hl

/-- the cloned nested lines all come from the scanned slice. -/
theorem extractNested_subset :
    ∀ (b : Bool) (ls : List (List Char)) (x : List Char),
      x ∈ extractNested b ls → x ∈ ls := by
  intro b ls
  induction ls generalizing b with
  | nil => intro x h; exact absurd h (by simp [extractNested])
  | cons l t ih =>
    intro x h
    unfold extractNested at h
    split at h
    · rcases List.mem_cons.mp h with rfl | h'
      · exact List.mem_cons_self _ _
      · exact List.mem_cons_of_mem _ (ih _ _ h')
    · split at h
      · rcases List.mem_cons.mp h with rfl | h'
        · exact List.mem_cons_self _ _
        · exact List.mem_cons_of_mem _ (ih _ _ h')
      · split at h
        · exact List.mem_cons_of_mem _ (ih _ _ h)
        · exact List.mem_cons_of_mem _ (ih _ _ h)

/-- a key of the dictionary has a binding. -/
theorem dlookup_isSome_of_mem_dkeys {a : List Char} :
    ∀ {d : Dict}, a ∈ dkeys d → (dlookup d a).isSome = true := by
  intro d
  induction d with
  | nil => intro h; exact absurd h (by simp [dkeys])
  | cons p rest ih =>
    intro h
    have hmap : a ∈ (p :: rest).map (·.1) := (List.mem_dedup).mp h
    unfold dlookup
    by_cases hp : p.1 = a
    · rw [if_pos hp]; rfl
    · rw [if_neg hp]
      apply ih
      rcases List.mem_cons.mp hmap with h1 | h2
      · exact absurd h1.symm hp
      · exact (List.mem_dedup).mpr h2

/-- block synthesis succeeds and produces the described blocks when
every architecture has both bindings. -/
theorem buildBlocks_eq (nested : List (List Char)) (hs us : Dict) :
    ∀ (as : List (List Char)),
      (∀ a ∈ as, (dlookup us a).isSome = true ∧ (dlookup hs a).isSome = true) →
      buildBlocks nested hs us as = some (as.flatMap (fun a =>
        (str ("- Architecture: ") ++ a) :: nested ++
          [str ("  InstallerUrl: ") ++ (dlookup us a).getD [],
           str ("  InstallerSha256: ") ++ (dlookup hs a).getD []])) := by
  intro as
  induction as with
  | nil => intro _; simp [buildBlocks]
  | cons a t ih =>
    intro h
    rcases h a (List.mem_cons_self a t) with ⟨hu, hh⟩
    rcases Option.isSome_iff_exists.mp hu with ⟨u, hu'⟩
    rcases Option.isSome_iff_exists.mp hh with ⟨v, hv'⟩
    unfold buildBlocks
    rw [hu', hv', ih (fun x hx => h x (List.mem_cons_of_mem a hx))]
    simp [List.flatMap_cons, hu', hv']

/-- string insertion is a permutation. -/
theorem insertStr_perm (x : List Char) (l : List (List Char)) :
    List.Perm (insertStr x l) (x :: l) := by
  induction l with
  | nil => simp [insertStr]
  | cons y ys ih =>
    simp only [insertStr]
    split
    · exact List.Perm.refl _
    · exact (List.Perm.cons y ih).trans (List.Perm.swap x y ys)

/-- string sorting is a permutation. -/
theorem sortStrings_perm (l : List (List Char)) : List.Perm (sortStrings l) l := by
  induction l with
  | nil => simp [sortStrings]
  | cons x xs ih => exact (insertStr_perm x (sortStrings xs)).trans (List.Perm.cons x ih)

/-- trichotomy of the string order. -/
theorem strLt_trichotomy : ∀ a b : List Char, strLt a b = true ∨ a = b ∨ strLt b a = true := by
  intro a
  induction a with
  | nil =>
    intro b
    cases b with
    | nil => exact Or.inr (Or.inl rfl)
    | cons d bt => exact Or.inl rfl
  | cons c at' ih =>
    intro b
    cases b with
    | nil => exact Or.inr (Or.inr rfl)
    | cons d bt =>
      by_cases hcd : c = d
      · subst hcd
        rcases ih bt with h | h | h
        · exact Or.inl (by simp [strLt, h])
        · exact Or.inr (Or.inl (by rw [h]))
        · exact Or.inr (Or.inr (by simp [strLt, h]))
      · rcases lt_trichotomy c d with h | h | h
        · exact Or.inl (by simp [strLt, hcd, h])
        · exact absurd h hcd
        · exact Or.inr (Or.inr (by simp [strLt, Ne.symm hcd, h]))

/-- the weak string order is total. -/
theorem strLe_total (x y : List Char) :
    (strLt x y || x = y) = true ∨ (strLt y x || y = x) = true := by
  rcases strLt_trichotomy x y with h | h | h
  · exact Or.inl (by simp [h])
  · exact Or.inl (by simp [h])
  · exact Or.inr (by simp [h])

/-- inserting into a weakly ascending list keeps it weakly ascending. -/
theorem chain'_insertStr (x : List Char) :
    ∀ l : List (List Char),
      List.Chain' (fun u v => (strLt u v || u = v) = true) l →
      List.Chain' (fun u v => (strLt u v || u = v) = true) (insertStr x l) := by
  intro l
  induction l with
  | nil => intro _; simp [insertStr]
  | cons y ys ih =>
    intro h
    unfold insertStr
    by_cases hle : (strLt x y || x = y) = true
    · rw [if_pos hle]
      exact List.Chain'.cons hle h
    · rw [if_neg hle]
      have hyx : (strLt y x || y = x) = true := by
        rcases strLe_total x y with h1 | h1
        · exact absurd h1 hle
        · exact h1
      have htail := ih (List.Chain'.tail h)
      cases hys : ys with
      | nil =>
        subst hys
        simp only [insertStr]
        exact List.Chain'.cons hyx (by simp)
      | cons z zs =>
        subst hys
        simp only [insertStr]
        by_cases hxz : (strLt x z || x = z) = true
        · rw [if_pos hxz]
          simp only [insertStr] at htail
          rw [if_pos hxz] at htail
          exact List.Chain'.cons hyx htail
        · rw [if_neg hxz]
          simp only [insertStr] at htail
          rw [if_neg hxz] at htail
          have hyz : (strLt y z || y = z) = true := List.chain'_cons.mp h |>.1
          exact List.Chain'.cons hyz htail

/-- the sort is weakly ascending. -/
theorem sortStrings_sorted (l : List (List Char)) :
    List.Chain' (fun u v => (strLt u v || u = v) = true) (sortStrings l) := by
  induction l with
  | nil => simp [sortStrings]
  | cons x xs ih => exact chain'_insertStr x (sortStrings xs) ih

/-- counting a member of a duplicate-free list. -/
theorem countLines_eq_one {a : List Char} :
    ∀ {l : List (List Char)}, l.Nodup → a ∈ l → countLines a l = 1 := by
  intro l
  induction l with
  | nil => intro _ h; exact absurd h (List.not_mem_nil a)
  | cons x t ih =>
    intro hnd hmem
    unfold countLines
    rcases List.mem_cons.mp hmem with rfl | hmem'
    · have hnot : a ∉ t := (List.nodup_cons.mp hnd).1
      rw [List.countP_cons]
      simp only [decide_eq_true_eq]
      have h0 : t.countP (fun l => decide (l = a)) = 0 := by
        apply List.countP_eq_zero.mpr
        intro b hb
        simp only [decide_eq_true_eq]
        intro hba
        exact hnot (hba ▸ hb)
      unfold countLines at h0
      simp [h0]
    · have hne : x ≠ a := by
        rintro rfl
        exact (List.nodup_cons.mp hnd).1 hmem'
      rw [List.countP_cons]
      have := ih (List.nodup_cons.mp hnd).2 hmem'
      unfold countLines at this
      simp [this, hne]

/-- every cloned nested line is a line of the manifest. -/
theorem clonedNested_subset {content : List Char} {x : List Char}
    (h : x ∈ clonedNested content) : x ∈ splitNl content := by
  unfold clonedNested at h
  simp only at h
  cases hs : lastIdxWhere (fun l => (str ("- Architecture:")).isPrefixOf (pyStrip l))
      (splitNl content) with
  | none => rw [hs] at h; exact absurd h (by simp [extractNested])
  | some start =>
    rw [hs] at h
    have h1 := extractNested_subset _ _ _ h
    exact List.mem_of_mem_take (List.mem_of_mem_drop h1)

/-- the count of one architecture line over the synthesized blocks. -/
theorem countLines_flatMap_blocks (arch arch0 : List Char)
    (block : List Char → List (List Char))
    (hb : ∀ b, countLines arch (block b) = if b = arch0 then 1 else 0) :
    ∀ as : List (List Char), as.Nodup →
      countLines arch (as.flatMap block) = if arch0 ∈ as then 1 else 0 := by
  intro as
  induction as with
  | nil => intro _; simp [countLines]
  | cons b t ih =>
    intro hnd
    rw [List.flatMap_cons]
    unfold countLines
    rw [List.countP_append]
    have h1 := hb b
    unfold countLines at h1
    have h2 := ih (List.nodup_cons.mp hnd).2
    unfold countLines at h2
    rw [h1, h2]
    by_cases hba : b = arch0
    · subst hba
      have : b ∉ t := (List.nodup_cons.mp hnd).1
      simp [this]
    · simp only [if_neg hba]
      by_cases hat : arch0 ∈ t
      · simp [hat, List.mem_cons, Ne.symm, hba]
      · simp only [if_neg hat]
        have : arch0 ∉ b :: t := by
          intro hmem
          rcases List.mem_cons.mp hmem with h | h
          · exact hba h.symm
          · exact hat h
        simp [this]

/-- C4: `add_missing_architectures` on an installer manifest with a
`ManifestType:` trailer (last such line at index `mt`) and at least one
`- Architecture:` block, given hash/URL maps that cover the missing
architectures (word-shaped names): with no missing architectures the
text is returned unchanged; otherwise the returned text inserts the
`newArchSections` blocks — one per missing architecture, in ascending
name order, each cloning the last block's nested-installer lines and
carrying that architecture's URL and hash — immediately before the
trailer line, and each missing architecture's `- Architecture: name`
line occurs exactly once in the result. -/
theorem c4_missing_architecture_insertion
    (content : List Char) (arch_hashes installer_urls : Dict) (mt start : Nat)
    (hmt : lastIdxWhere (fun l => (str ("ManifestType:")).isPrefixOf (pyStrip l))
      (splitNl content) = some mt)
    (hstart : lastIdxWhere (fun l => (str ("- Architecture:")).isPrefixOf (pyStrip l))
      (splitNl content) = some start)
    (hword : ∀ a ∈ missingArchs content arch_hashes, a ≠ [] ∧ a.all isWord = true)
    (hurl : ∀ a ∈ missingArchs content arch_hashes,
      (dlookup installer_urls a).isSome = true) :
    (missingArchs content arch_hashes = [] →
      add_missing_architectures content arch_hashes installer_urls = some content) ∧
    (missingArchs content arch_hashes ≠ [] →
      add_missing_architectures content arch_hashes installer_urls =
        some (joinNl ((splitNl content).take mt ++
          newArchSections content arch_hashes installer_urls ++
          (splitNl content).drop mt)) ∧
      mt < (splitNl content).length ∧
      (str ("ManifestType:")).isPrefixOf (pyStrip ((splitNl content).getD mt [])) = true ∧
      (∀ a ∈ missingArchs content arch_hashes,
        countLines (str ("- Architecture: ") ++ a)
          ((splitNl content).take mt ++
            newArchSections content arch_hashes installer_urls ++
            (splitNl content).drop mt) = 1) ∧
      List.Chain' (fun u v => (strLt u v || u = v) = true)
        (sortStrings (missingArchs content arch_hashes)) ∧
      (∀ a ∈ missingArchs content arch_hashes,
        (str ("  InstallerUrl: ") ++ (dlookup installer_urls a).getD []) ∈
          newArchSections content arch_hashes installer_urls ∧
        (str ("  InstallerSha256: ") ++ (dlookup arch_hashes a).getD []) ∈
          newArchSections content arch_hashes installer_urls)) := by
  have hfilter : ((dkeys arch_hashes).filter
      (fun a => !(collectArchs (splitNl content)).contains a)) =
      missingArchs content arch_hashes := rfl
  constructor
  · intro hempty
    have h1 : ((dkeys arch_hashes).filter
        (fun a => !(collectArchs (splitNl content)).contains a)) = [] := by
      rw [hfilter]; exact hempty
    simp only [add_missing_architectures]
    rw [h1]
    rfl
  · intro hne
    have hnempty : ((dkeys arch_hashes).filter
        (fun a => !(collectArchs (splitNl content)).contains a)).isEmpty = false := by
      rw [hfilter]
      cases hM : missingArchs content arch_hashes with
      | nil => exact absurd hM hne
      | cons x xs => rfl
    have hsortmem : ∀ a : List Char,
        a ∈ sortStrings (missingArchs content arch_hashes) ↔
          a ∈ missingArchs content arch_hashes :=
      fun a => (sortStrings_perm _).mem_iff
    have hlk : ∀ a ∈ sortStrings (missingArchs content arch_hashes),
        (dlookup installer_urls a).isSome = true ∧
          (dlookup arch_hashes a).isSome = true := by
      intro a ha
      have hm' := (hsortmem a).mp ha
      refine ⟨hurl a hm', ?_⟩
      apply dlookup_isSome_of_mem_dkeys
      have hm2 : a ∈ (dkeys arch_hashes).filter
          (fun a => !(collectArchs (splitNl content)).contains a) := by
        rw [hfilter]; exact hm'
      exact (List.mem_filter.mp hm2).1
    have hnotin : ∀ a ∈ missingArchs content arch_hashes,
        ∀ x ∈ splitNl content, ¬ (x = str ("- Architecture: ") ++ a) := by
      intro a ha x hx hxa
      obtain ⟨hane, haw⟩ := hword a ha
      subst hxa
      have hc : a ∈ collectArchs (splitNl content) :=
        collectArchs_mem hx (archLine_match hane haw)
      have hm2 : a ∈ (dkeys arch_hashes).filter
          (fun a => !(collectArchs (splitNl content)).contains a) := by
        rw [hfilter]; exact ha
      have hfil := (List.mem_filter.mp hm2).2
      simp only [Bool.not_eq_true'] at hfil
      exact absurd hc (by simpa using hfil)
    have hout : add_missing_architectures content arch_hashes installer_urls =
        some (joinNl ((splitNl content).take mt ++
          newArchSections content arch_hashes installer_urls ++
          (splitNl content).drop mt)) := by
      simp only [add_missing_architectures]
      rw [hnempty]
      simp only [Bool.false_eq_true, if_false]
      rw [hfilter, hmt, hstart]
      simp only [Option.getD_some]
      rw [buildBlocks_eq _ _ _ _ hlk]
      simp only [newArchSections, clonedNested, hstart]
    refine ⟨hout, (lastIdxWhere_mem hmt).1, (lastIdxWhere_mem hmt).2, ?_, sortStrings_sorted _, ?_⟩
    · intro a ha
      have hnd : (sortStrings (missingArchs content arch_hashes)).Nodup := by
        rw [(sortStrings_perm _).nodup_iff]
        have : (dkeys arch_hashes).Nodup := List.nodup_dedup _
        rw [← hfilter]
        exact this.filter _
      have hblock : ∀ b : List Char,
          countLines (str ("- Architecture: ") ++ a)
            ((str ("- Architecture: ") ++ b) :: clonedNested content ++
              [str ("  InstallerUrl: ") ++ (dlookup installer_urls b).getD [],
               str ("  InstallerSha256: ") ++ (dlookup arch_hashes b).getD []]) =
            if b = a then 1 else 0 := by
        intro b
        unfold countLines
        rw [List.countP_append, List.countP_cons]
        have hnested : (clonedNested content).countP
            (fun l => decide (l = str ("- Architecture: ") ++ a)) = 0 := by
          apply List.countP_eq_zero.mpr
          intro x hx
          simp only [decide_eq_true_eq]
          exact hnotin a ha x (clonedNested_subset hx)
        have hurl0 : ¬ (str ("  InstallerUrl: ") ++ (dlookup installer_urls b).getD [] =
            str ("- Architecture: ") ++ a) := by
          intro hq
          have hh1 : (str ("  InstallerUrl: ") ++
              (dlookup installer_urls b).getD []).head? = some ' ' := rfl
          rw [hq] at hh1
          have hh2 : (str ("- Architecture: ") ++ a).head? = some '-' := rfl
          rw [hh1] at hh2
          exact absurd (Option.some.inj hh2) (by decide)
        have hsha0 : ¬ (str ("  InstallerSha256: ") ++ (dlookup arch_hashes b).getD [] =
            str ("- Architecture: ") ++ a) := by
          intro hq
          have hh1 : (str ("  InstallerSha256: ") ++
              (dlookup arch_hashes b).getD []).head? = some ' ' := rfl
          rw [hq] at hh1
          have hh2 : (str ("- Architecture: ") ++ a).head? = some '-' := rfl
          rw [hh1] at hh2
          exact absurd (Option.some.inj hh2) (by decide)
        have harl : (str ("- Architecture: ") ++ b = str ("- Architecture: ") ++ a) ↔ b = a := by
          constructor
          · intro hq; exact List.append_cancel_left hq
          · intro hq; rw [hq]
        rw [hnested]
        by_cases hba : b = a
        · subst hba
          simp [List.countP_cons, hurl0, hsha0]
        · have : ¬ (str ("- Architecture: ") ++ b = str ("- Architecture: ") ++ a) :=
            fun hq => hba (harl.mp hq)
          simp [List.countP_cons, hurl0, hsha0, this, hba]
      have hcnt := countLines_flatMap_blocks (str ("- Architecture: ") ++ a) a
        (fun b => (str ("- Architecture: ") ++ b) :: clonedNested content ++
          [str ("  InstallerUrl: ") ++ (dlookup installer_urls b).getD [],
           str ("  InstallerSha256: ") ++ (dlookup arch_hashes b).getD []])
        hblock (sortStrings (missingArchs content arch_hashes)) hnd
      rw [if_pos ((hsortmem a).mpr ha)] at hcnt
      unfold countLines
      rw [List.countP_append, List.countP_append]
      have htake : ((splitNl content).take mt).countP
          (fun l => decide (l = str ("- Architecture: ") ++ a)) = 0 := by
        apply List.countP_eq_zero.mpr
        intro x hx
        simp only [decide_eq_true_eq]
        exact hnotin a ha x (List.mem_of_mem_take hx)
      have hdrop : ((splitNl content).drop mt).countP
          (fun l => decide (l = str ("- Architecture: ") ++ a)) = 0 := by
        apply List.countP_eq_zero.mpr
        intro x hx
        simp only [decide_eq_true_eq]
        exact hnotin a ha x (List.mem_of_mem_drop hx)
      have hsecs : (newArchSections content arch_hashes installer_urls).countP
          (fun l => decide (l = str ("- Architecture: ") ++ a)) = 1 := by
        unfold countLines at hcnt
        exact hcnt
      rw [htake, hdrop, hsecs]
    · intro a ha
      constructor
      · apply List.mem_flatMap.mpr
        exact ⟨a, (hsortmem a).mpr ha, by
          apply List.mem_cons_of_mem
          apply List.mem_append_right
          exact List.mem_cons_self _ _⟩
      · apply List.mem_flatMap.mpr
        exact ⟨a, (hsortmem a).mpr ha, by
          apply List.mem_cons_of_mem
          apply List.mem_append_right
          exact List.mem_cons_of_mem _ (List.mem_cons_self _ _)⟩

/-- witness for C4 at the sample manifest (`ManifestType:` at line 15,
last architecture block at line 12, arm64 missing). -/
theorem c4_witness :
    add_missing_architectures sampleManifest sampleHashes sampleUrls =
      some (joinNl ((splitNl sampleManifest).take 15 ++
        newArchSections sampleManifest sampleHashes sampleUrls ++
        (splitNl sampleManifest).drop 15)) ∧
    countLines (str ("- Architecture: ") ++ str ("arm64"))
      ((splitNl sampleManifest).take 15 ++
        newArchSections sampleManifest sampleHashes sampleUrls ++
        (splitNl sampleManifest).drop 15) = 1 :=
  ⟨((c4_missing_architecture_insertion sampleManifest sampleHashes sampleUrls 15 12
      (by decide) (by decide) (by decide) (by decide)).2 (by decide)).1,
   ((c4_missing_architecture_insertion sampleManifest sampleHashes sampleUrls 15 12
      (by decide) (by decide) (by decide) (by decide)).2 (by decide)).2.2.2.1
    (str ("arm64")) (by decide)⟩

/-- splitting never yields the empty list of lines. -/
theorem splitNl_ne_nil (s : List Char) : splitNl s ≠ [] := by
  cases s with
  | nil => simp [splitNl]
  | cons c r =>
    unfold splitNl
    by_cases h : c = '\n'
    · rw [if_pos h]; simp
    · rw [if_neg h]
      cases splitNl r <;> simp

/-- splitting step: a newline starts a fresh line. -/
theorem splitNl_cons_nl (r : List Char) : splitNl ('\n' :: r) = [] :: splitNl r := by
  simp [splitNl]

/-- splitting step: any other character extends the first line. -/
theorem splitNl_cons_ne {c : Char} (r : List Char) (h : c ≠ '\n') :
    splitNl (c :: r) = (c :: (splitNl r).headD []) :: (splitNl r).tail := by
  simp only [splitNl, if_neg h]
  rcases hS : splitNl r with _ | ⟨p, ps⟩
  · exact absurd hS (splitNl_ne_nil r)
  · rfl

/-- joining undoes splitting. -/
theorem joinNl_splitNl (s : List Char) : joinNl (splitNl s) = s := by
  induction s with
  | nil => rfl
  | cons c r ih =>
    by_cases h : c = '\n'
    · subst h
      rw [splitNl_cons_nl]
      rcases hS : splitNl r with _ | ⟨p, ps⟩
      · exact absurd hS (splitNl_ne_nil r)
      · rw [hS] at ih
        show joinNl ([] :: p :: ps) = '\n' :: r
        unfold joinNl
        rw [ih]
        rfl
    · rw [splitNl_cons_ne r h]
      rcases hS : splitNl r with _ | ⟨p, ps⟩
      · exact absurd hS (splitNl_ne_nil r)
      · rw [hS] at ih
        cases ps with
        | nil =>
          show joinNl [c :: p] = c :: r
          unfold joinNl at ih ⊢
          rw [ih]
        | cons q ps' =>
          show joinNl ((c :: p) :: q :: ps') = c :: r
          unfold joinNl at ih ⊢
          rw [← ih]
          rfl

/-- one line past the front: splitting after a newline-free prefix. -/
theorem splitNl_nlfree_append {m : List Char} (hm : '\n' ∉ m) (B : List Char) :
    splitNl (m ++ B) = (m ++ (splitNl B).headD []) :: (splitNl B).tail := by
  induction m with
  | nil =>
    rcases hS : splitNl B with _ | ⟨p, ps⟩
    · exact absurd hS (splitNl_ne_nil B)
    · rw [List.nil_append, hS]
      rfl
  | cons c m' ih =>
    have hc : c ≠ '\n' := fun hq => hm (hq ▸ List.mem_cons_self c m')
    have hm' : '\n' ∉ m' := fun hq => hm (List.mem_cons_of_mem c hq)
    show splitNl (c :: (m' ++ B)) = _
    rw [splitNl_cons_ne _ hc, ih hm']
    rfl

/-- the general structure of splitting an append. -/
theorem splitNl_append (X Y : List Char) :
    splitNl (X ++ Y) = (splitNl X).dropLast ++
      ((splitNl X).getLastD [] ++ (splitNl Y).headD []) :: (splitNl Y).tail := by
  induction X with
  | nil =>
    rcases hS : splitNl Y with _ | ⟨p, ps⟩
    · exact absurd hS (splitNl_ne_nil Y)
    · rw [List.nil_append, hS]
      rfl
  | cons c X' ih =>
    show splitNl (c :: (X' ++ Y)) = _
    by_cases h : c = '\n'
    · subst h
      rw [splitNl_cons_nl, splitNl_cons_nl, ih]
      rcases hS : splitNl X' with _ | ⟨p, ps⟩
      · exact absurd hS (splitNl_ne_nil X')
      · rw [List.dropLast_cons_of_ne_nil (by simp : (p :: ps) ≠ [])]
        simp [List.getLastD_cons]
    · rw [splitNl_cons_ne _ h, splitNl_cons_ne _ h, ih]
      rcases hS : splitNl X' with _ | ⟨p, ps⟩
      · exact absurd hS (splitNl_ne_nil X')
      · cases ps with
        | nil => simp
        | cons q ps' =>
          simp [List.dropLast_cons_of_ne_nil, List.getLastD_cons]

/-- the number of lines is one more than the number of newlines. -/
theorem splitNl_length (s : List Char) :
    (splitNl s).length = s.count '\n' + 1 := by
  induction s with
  | nil => rfl
  | cons c r ih =>
    by_cases h : c = '\n'
    · subst h
      rw [splitNl_cons_nl]
      simp [List.count_cons, ih]
    · rw [splitNl_cons_ne _ h]
      rcases hS : splitNl r with _ | ⟨p, ps⟩
      · exact absurd hS (splitNl_ne_nil r)
      · rw [hS] at ih
        simp only [List.length_cons] at ih
        rw [List.count_cons]
        simp only [beq_iff_eq]
        rw [if_neg h]
        simp only [List.length_cons, List.tail_cons]
        omega

/-- the stripped text is the leading-stripped text minus a whitespace
tail. -/
theorem pyStrip_decomp (s : List Char) :
    ∃ w, s.dropWhile isWs = pyStrip s ++ w ∧ w.all isWs = true := by
  refine ⟨((s.dropWhile isWs).reverse.takeWhile isWs).reverse, ?_, ?_⟩
  · unfold pyStrip
    conv_lhs => rw [← List.reverse_reverse (s.dropWhile isWs),
      ← List.takeWhile_append_dropWhile (p := isWs) (l := (s.dropWhile isWs).reverse)]
    rw [List.reverse_append]
  · rw [List.all_eq_true]
    intro c hc
    exact List.mem_takeWhile_imp (List.mem_reverse.mp hc)

/-- a take-while stops inside the left part of an append as soon as the
left part has a failing element. -/
theorem takeWhile_append_stop {p : Char → Bool} :
    ∀ (t w : List Char), (∃ c ∈ t, p c = false) → (t ++ w).takeWhile p = t.takeWhile p := by
  intro t
  induction t with
  | nil =>
    intro w h
    rcases h with ⟨c, hc, -⟩
    exact absurd hc (List.not_mem_nil c)
  | cons c t' ih =>
    intro w h
    rw [List.cons_append, List.takeWhile_cons, List.takeWhile_cons]
    cases hp : p c with
    | false => rfl
    | true =>
      rcases h with ⟨d, hd, hdp⟩
      rcases List.mem_cons.mp hd with rfl | hd'
      · rw [hp] at hdp; exact absurd hdp (by simp)
      · rw [ih w ⟨d, hd', hdp⟩]

/-- the field name of a line whose colon already sits inside a known
prefix: everything appended after the prefix is irrelevant. -/
theorem keyOf_append {p : List Char} (hp : hasColon p = true) (x : List Char) :
    keyOf (p ++ x) = some (stripDashSp ((p.dropWhile isWs).takeWhile (· ≠ ':'))) := by
  have hmem : ':' ∈ p := by
    unfold hasColon at hp
    rcases List.any_eq_true.mp hp with ⟨c, hc, he⟩
    have : c = ':' := by simpa using he
    exact this ▸ hc
  have hpx : ':' ∈ p ++ x := List.mem_append_left x hmem
  have hdropne : p.dropWhile isWs ≠ [] := by
    intro hq
    have := List.dropWhile_eq_nil_iff.mp hq ':' hmem
    simp [isWs] at this
  have hdrop : (p ++ x).dropWhile isWs = p.dropWhile isWs ++ x := by
    rw [List.dropWhile_append]
    simp [hdropne]
  have hmemdrop : ':' ∈ p.dropWhile isWs := by
    have h2 := List.takeWhile_append_dropWhile (p := isWs) (l := p)
    rcases List.mem_append.mp (h2 ▸ hmem) with h3 | h3
    · have := List.mem_takeWhile_imp h3
      simp [isWs] at this
    · exact h3
  rcases pyStrip_decomp (p ++ x) with ⟨w, hw, hwall⟩
  have hmemT : ':' ∈ pyStrip (p ++ x) := by
    have : ':' ∈ (p ++ x).dropWhile isWs := by
      rw [hdrop]
      exact List.mem_append_left x hmemdrop
    rw [hw] at this
    rcases List.mem_append.mp this with h3 | h3
    · exact h3
    · have := List.all_eq_true.mp hwall ':' h3
      simp [isWs] at this
  have hhasT : hasColon (pyStrip (p ++ x)) = true := by
    unfold hasColon
    exact List.any_eq_true.mpr ⟨':', hmemT, by simp⟩
  unfold keyOf
  rw [if_pos hhasT]
  unfold beforeColon
  have hTQ : (pyStrip (p ++ x) ++ w).takeWhile (· ≠ ':') =
      (pyStrip (p ++ x)).takeWhile (· ≠ ':') := by
    apply takeWhile_append_stop
    exact ⟨':', hmemT, by simp⟩
  have hPQ : (p.dropWhile isWs ++ x).takeWhile (· ≠ ':') =
      (p.dropWhile isWs).takeWhile (· ≠ ':') := by
    apply takeWhile_append_stop
    exact ⟨':', hmemdrop, by simp⟩
  have : (pyStrip (p ++ x)).takeWhile (· ≠ ':') =
      (p.dropWhile isWs).takeWhile (· ≠ ':') := by
    rw [← hTQ, ← hw, hdrop, hPQ]
  rw [this]

/-- a digit-or-dash character is never whitespace. -/
theorem isDigitDash_not_ws {c : Char} (h : isDigitDash c = true) : isWs c = false := by
  by_contra hc
  have hc' : isWs c = true := by
    cases hx : isWs c with
    | true => rfl
    | false => exact absurd hx hc
  unfold isWs at hc'
  simp only [Bool.or_eq_true, decide_eq_true_eq] at hc'
  rcases hc' with ((((h1 | h2) | h3) | h4) | h5) | h6 <;>
    first
      | (subst h1; revert h; decide)
      | (subst h2; revert h; decide)
      | (subst h3; revert h; decide)
      | (subst h4; revert h; decide)
      | (subst h5; revert h; decide)
      | (subst h6; revert h; decide)

/-- a take-while over an append whose left part passes wholly and whose
right part stops immediately. -/
theorem takeWhile_all_append {p : Char → Bool} :
    ∀ (D B : List Char), D.all p = true → (∀ c, B.head? = some c → p c = false) →
      (D ++ B).takeWhile p = D := by
  intro D
  induction D with
  | nil =>
    intro B _ hB
    cases B with
    | nil => rfl
    | cons c r =>
      rw [List.nil_append, List.takeWhile_cons, hB c rfl]
      rw [if_neg Bool.false_ne_true]
  | cons d D' ih =>
    intro B hD hB
    rw [List.all_cons] at hD
    rcases Bool.and_eq_true_iff.mp hD with ⟨h1, h2⟩
    rw [List.cons_append, List.takeWhile_cons, h1]
    rw [ih B h2 hB]
    rw [if_pos rfl]

/-- dropping a prefix by predicate never lengthens a list. -/
theorem dropWhile_length_le (p : Char → Bool) : ∀ (l : List Char),
    (l.dropWhile p).length ≤ l.length
  | [] => le_refl _
  | c :: r => by
    rw [List.dropWhile_cons]
    by_cases h : p c = true
    · rw [if_pos h]
      exact Nat.le_trans (dropWhile_length_le p r) (Nat.le_succ _)
    · rw [if_neg h]

/-- a successful scanner step consumes at least one character. -/
theorem matchLitClassAt_lt {lit : List Char} {cls : Char → Bool} {s rest : List Char}
    (hlit : lit ≠ []) (h : matchLitClassAt lit cls s = some rest) :
    rest.length < s.length := by
  unfold matchLitClassAt at h
  by_cases hp : lit.isPrefixOf s = true
  · rw [if_pos hp] at h
    by_cases hd : (((s.drop lit.length).dropWhile isWs).takeWhile cls).isEmpty = true
    · rw [if_pos hd] at h
      exact absurd h (by simp)
    · rw [if_neg hd] at h
      injection h with h'
      subst h'
      have h1 : 1 ≤ (((s.drop lit.length).dropWhile isWs).takeWhile cls).length := by
        cases hq : ((s.drop lit.length).dropWhile isWs).takeWhile cls with
        | nil => rw [hq] at hd; simp at hd
        | cons a b => simp [hq]
      have h2 : ((s.drop lit.length).dropWhile isWs).length ≤ s.length - lit.length := by
        calc ((s.drop lit.length).dropWhile isWs).length
            ≤ (s.drop lit.length).length := dropWhile_length_le _ _
          _ = s.length - lit.length := List.length_drop _ _
      have h3 : 1 ≤ lit.length := by
        cases lit with
        | nil => exact absurd rfl hlit
        | cons _ _ => simp
      have h4 : lit.length ≤ s.length := by
        rw [List.isPrefixOf_iff_prefix] at hp
        exact hp.length_le
      rw [List.length_drop]
      omega
  · rw [if_neg hp] at h
    exact absurd h (by simp)

/-- the fuel of the ReleaseDate substitution is irrelevant once it
covers the text length. -/
theorem subRDF_fuel (today : List Char) :
    ∀ (f1 : Nat) (s : List Char) (f2 : Nat) (seen : Bool),
      s.length ≤ f1 → s.length ≤ f2 →
      subReleaseDateF today f1 seen s = subReleaseDateF today f2 seen s := by
  intro f1
  induction f1 with
  | zero =>
    intro s f2 seen h1 _
    have hs : s = [] := List.length_eq_zero.mp (Nat.le_zero.mp h1)
    subst hs
    cases f2 <;> rfl
  | succ f ih =>
    intro s f2 seen h1 h2
    cases s with
    | nil => cases f2 <;> rfl
    | cons c r =>
      cases f2 with
      | zero => simp at h2
      | succ f2' =>
        cases hm : matchLitClassAt (str ("ReleaseDate:")) isDigitDash (c :: r) with
        | some rest =>
          have hlt := matchLitClassAt_lt (show str ("ReleaseDate:") ≠ [] by decide) hm
          show subReleaseDateF today (f + 1) seen (c :: r) =
            subReleaseDateF today (f2' + 1) seen (c :: r)
          unfold subReleaseDateF
          rw [hm]
          show (if seen = true then [] else str ("ReleaseDate: ") ++ today) ++
              subReleaseDateF today f true rest =
            (if seen = true then [] else str ("ReleaseDate: ") ++ today) ++
              subReleaseDateF today f2' true rest
          simp only [List.length_cons] at h1 h2 hlt
          rw [ih rest f2' true (by omega) (by omega)]
        | none =>
          show subReleaseDateF today (f + 1) seen (c :: r) =
            subReleaseDateF today (f2' + 1) seen (c :: r)
          unfold subReleaseDateF
          rw [hm]
          show c :: subReleaseDateF today f seen r = c :: subReleaseDateF today f2' seen r
          simp only [List.length_cons] at h1 h2
          rw [ih r f2' seen (by omega) (by omega)]

/-- scanning passes over a region without matches unchanged. -/
theorem subRDF_skip (today : List Char) :
    ∀ (A rest : List Char) (f : Nat) (seen : Bool),
      (A ++ rest).length ≤ f →
      (∀ j < A.length, matchLitClassAt (str ("ReleaseDate:")) isDigitDash
        ((A ++ rest).drop j) = none) →
      subReleaseDateF today f seen (A ++ rest) =
        A ++ subReleaseDateF today rest.length seen rest := by
  intro A
  induction A with
  | nil =>
    intro rest f seen hf _
    simp only [List.nil_append]
    exact subRDF_fuel today f rest rest.length seen (by simpa using hf) (le_refl _)
  | cons c A' ih =>
    intro rest f seen hf hno
    have h0 := hno 0 (by simp)
    simp only [List.drop_zero, List.cons_append] at h0
    cases f with
    | zero => simp at hf
    | succ f' =>
      have harith : (A' ++ rest).length ≤ f' := by
        simp only [List.cons_append, List.length_cons] at hf
        omega
      have hstep : subReleaseDateF today (f' + 1) seen (c :: (A' ++ rest)) =
          c :: subReleaseDateF today f' seen (A' ++ rest) := by
        conv_lhs => rw [subReleaseDateF]
        rw [h0]
      rw [List.cons_append, hstep,
        ih rest f' seen harith (fun j hj => by
          have h2 := hno (j + 1) (by simp only [List.length_cons]; omega)
          simpa using h2)]
      rw [List.cons_append]

/-- a region without matches is returned unchanged. -/
theorem subRDF_noMatch (today : List Char) (B : List Char) (f : Nat) (seen : Bool)
    (hf : B.length ≤ f)
    (hno : ∀ j < B.length, matchLitClassAt (str ("ReleaseDate:")) isDigitDash
      (B.drop j) = none) :
    subReleaseDateF today f seen B = B := by
  have h := subRDF_skip today B [] f seen (by simpa using hf) (by simpa using hno)
  have hz : subReleaseDateF today ([] : List Char).length seen [] = [] := rfl
  rw [hz, List.append_nil] at h
  exact h

/-- the scanner fires on a canonical `ReleaseDate: VALUE` occurrence,
consuming exactly the literal, the single space, and the digit-dash
value. -/
theorem matchRD_canonical (D B : List Char) (hD1 : D ≠ []) (hD2 : D.all isDigitDash = true)
    (hB : ∀ c, B.head? = some c → isDigitDash c = false) :
    matchLitClassAt (str ("ReleaseDate:")) isDigitDash
      (str ("ReleaseDate: ") ++ (D ++ B)) = some B := by
  rcases List.exists_cons_of_ne_nil hD1 with ⟨d, D', rfl⟩
  have hdw : isWs d = false := by
    rw [List.all_cons] at hD2
    exact isDigitDash_not_ws (Bool.and_eq_true_iff.mp hD2).1
  have hshape : str ("ReleaseDate: ") ++ ((d :: D') ++ B) =
      str ("ReleaseDate:") ++ (' ' :: ((d :: D') ++ B)) := rfl
  have hpre : (str ("ReleaseDate:")).isPrefixOf
      (str ("ReleaseDate:") ++ (' ' :: ((d :: D') ++ B))) = true := by
    rw [List.isPrefixOf_iff_prefix]
    exact List.prefix_append _ _
  have htw : (d :: (D' ++ B)).takeWhile isDigitDash = d :: D' := by
    have h := takeWhile_all_append (d :: D') B hD2 hB
    simpa using h
  unfold matchLitClassAt
  rw [hshape, if_pos hpre]
  simp only [List.drop_left, List.cons_append, List.dropWhile_cons]
  rw [if_pos (show isWs ' ' = true from rfl)]
  rw [if_neg (show ¬ isWs d = true by rw [hdw]; exact Bool.false_ne_true)]
  rw [htw]
  simp only [List.isEmpty_cons, Bool.false_eq_true, if_false]
  rw [show (d :: (D' ++ B)).drop (d :: D').length = B from by
    simpa using List.drop_left (d :: D') B]

/-- the canonical ReleaseDate rewrite: on a text whose single scanner
match is the canonical `ReleaseDate: VALUE` between `A` and `B`, the
substitution rewrites exactly that value to `today`. -/
theorem subRD_canonical (today A D B : List Char)
    (hscanA : ∀ j < A.length, matchLitClassAt (str ("ReleaseDate:")) isDigitDash
      ((A ++ (str ("ReleaseDate: ") ++ (D ++ B))).drop j) = none)
    (hD1 : D ≠ []) (hD2 : D.all isDigitDash = true)
    (hB : ∀ c, B.head? = some c → isDigitDash c = false)
    (hscanB : ∀ j < B.length, matchLitClassAt (str ("ReleaseDate:")) isDigitDash
      (B.drop j) = none) :
    subReleaseDate today (A ++ (str ("ReleaseDate: ") ++ (D ++ B))) =
      A ++ (str ("ReleaseDate: ") ++ (today ++ B)) := by
  unfold subReleaseDate
  rw [subRDF_skip today A (str ("ReleaseDate: ") ++ (D ++ B)) _ false (le_refl _) hscanA]
  have hcons : str ("ReleaseDate: ") ++ (D ++ B) =
      'R' :: (str ("eleaseDate: ") ++ (D ++ B)) := rfl
  have hlen : (str ("ReleaseDate: ") ++ (D ++ B)).length =
      (str ("eleaseDate: ") ++ (D ++ B)).length + 1 := by rw [hcons]; rfl
  rw [hlen, hcons]
  unfold subReleaseDateF
  rw [← hcons, matchRD_canonical D B hD1 hD2 hB]
  have hBlen : B.length ≤ (str ("eleaseDate: ") ++ (D ++ B)).length := by
    simp only [List.length_append]
    omega
  show A ++ ((if false = true then [] else str ("ReleaseDate: ") ++ today) ++
      subReleaseDateF today (str ("eleaseDate: ") ++ (D ++ B)).length true B) =
    A ++ (str ("ReleaseDate: ") ++ (today ++ B))
  rw [if_neg Bool.false_ne_true]
  rw [subRDF_noMatch today B _ true hBlen hscanB]
  rw [List.append_assoc]

/-- a filterMap over positions that reproduces every entry rebuilds the
list. -/
theorem range_filterMap_getD {α : Type} (L : List α) (d : α) (f : Nat → Option α)
    (hf : ∀ i < L.length, f i = some (L.getD i d)) :
    (List.range L.length).filterMap f = L := by
  have hgen : ∀ n, n ≤ L.length → (List.range n).filterMap f = L.take n := by
    intro n
    induction n with
    | zero => intro _; rfl
    | succ k ih =>
      intro hk
      have hk2 : k < L.length := hk
      rw [List.range_succ, List.filterMap_append, ih (Nat.le_of_succ_le hk)]
      have hfk := hf k hk2
      have hone : List.filterMap f [k] = [L.getD k d] := by
        rw [List.filterMap_cons, hfk]
        rfl
      rw [hone]
      have hget : L[k]? = some (L.getD k d) := by
        rw [List.getElem?_eq_getElem hk2]
        rw [List.getD_eq_getElem?_getD, List.getElem?_eq_getElem hk2]
        rfl
      rw [List.take_succ, hget]
      rfl
  have h := hgen L.length (le_refl _)
  rwa [List.take_length] at h

/-- indexing inside an appended prefix. -/
theorem getD_append_lt {α : Type} : ∀ (pre r : List α) (d : α) (i : Nat),
    i < pre.length → (pre ++ r).getD i d = pre.getD i d
  | [], _, _, i, h => absurd h (by simp)
  | _ :: _, _, _, 0, _ => rfl
  | a :: t, r, d, i + 1, h => by
    simp only [List.cons_append, List.getD_cons_succ]
    exact getD_append_lt t r d i (by simpa using h)

/-- indexing past an appended prefix and one more element. -/
theorem getD_append_gt {α : Type} : ∀ (pre : List α) (x : α) (T : List α) (d : α) (i : Nat),
    pre.length < i → (pre ++ x :: T).getD i d = T.getD (i - pre.length - 1) d
  | [], _, _, _, 0, h => absurd h (by simp)
  | [], x, T, d, i + 1, _ => by
    simp only [List.nil_append, List.getD_cons_succ, List.length_nil, Nat.sub_zero,
      Nat.add_sub_cancel]
  | _ :: _, _, _, _, 0, h => absurd h (by simp)
  | a :: t, x, T, d, i + 1, h => by
    simp only [List.cons_append, List.getD_cons_succ, List.length_cons]
    rw [getD_append_gt t x T d i (by simpa using h)]
    congr 1
    omega

/-- line structure of a text around a newline-free middle segment that
starts right after a line break (the previous line is empty-terminated)
and runs to the end of its own line. -/
theorem splitNl_mid (A m B : List Char) (hm : '\n' ∉ m)
    (hlastA : (splitNl A).getLastD [] = [])
    (hBnl : B = [] ∨ B.head? = some '\n') :
    splitNl (A ++ (m ++ B)) = (splitNl A).dropLast ++ (m :: (splitNl B).tail) := by
  have hBh : (splitNl B).headD [] = [] := by
    rcases hBnl with rfl | hh
    · rfl
    · rcases B with _ | ⟨c, B2⟩
      · rfl
      · have hc : c = '\n' := by simpa using hh
        subst hc
        rw [splitNl_cons_nl]
        rfl
  rw [splitNl_append A (m ++ B), splitNl_nlfree_append hm B, hlastA]
  simp only [List.headD_cons, List.tail_cons, List.nil_append]
  rw [hBh, List.append_nil]

/-- C9 counterexample: a duplicated top-level `Installers:` line is kept
by `remove_duplicate_fields` — the `Installers:` branch bypasses the
duplicate tracking — although the claim requires every later occurrence
of a field name in the same context to be removed. -/
theorem c9_counterexample :
    remove_duplicate_fields (str ("Installers:\nInstallers:")) =
      str ("Installers:\nInstallers:") ∧
    (fieldNames (str ("Installers:\nInstallers:"))).count (str ("Installers")) = 2 := by
  refine ⟨by decide, by decide⟩

/-- C7 counterexample: the claim quantifies over every manifest text,
but the pipeline collapses a run of three blank lines to one even when
the supplied URL map reproduces the text verbatim, so the line count
changes under no-op data. -/
theorem c7_counterexample :
    (splitNl (update_manifest_content
        (str ("PackageVersion: 1.0\nInstallers:\n- Architecture: x64\n  InstallerUrl: http://u\n\n\n\nManifestType: installer\n"))
        (str ("1.0")) none none none none none
        (some [(str ("x64"), str ("http://u"))]) none none
        (str ("2025-10-12")))).length ≠
      (splitNl (str ("PackageVersion: 1.0\nInstallers:\n- Architecture: x64\n  InstallerUrl: http://u\n\n\n\nManifestType: installer\n"))).length := by
  decide

/-- C7 (amended): no-op idempotence holds for texts the cleanup passes
fix: if the supplied version is the one found in the text, the per-arch
URL and hash maps rewrite every line of the text to itself, the text is
a fixpoint of the blank-run collapse, a `ReleaseDate: VALUE` occurrence
decomposes the text with no scanner match elsewhere, and the text with
`today` substituted is a fixpoint of the collapse and of
`remove_duplicate_fields`, then `update_manifest_content` returns the
input with only the ReleaseDate value replaced: same line count, the
same field key on every line, and every changed line is the
`ReleaseDate:` line. -/
theorem c7_no_op_idempotence (content version today A D B : List Char)
    (us hs : Dict)
    (hdecomp : content = A ++ (str ("ReleaseDate: ") ++ (D ++ B)))
    (hfind : findPackageVersion content = some version)
    (husne : us ≠ []) (hhsne : hs ≠ [])
    (hus : ∀ i < (splitNl content).length,
      maSpecLine (str ("InstallerUrl:")) us (splitNl content) i =
        some ((splitNl content).getD i []))
    (hhs : ∀ i < (splitNl content).length,
      maSpecLine (str ("InstallerSha256:")) hs (splitNl content) i =
        some ((splitNl content).getD i []))
    (hcol1 : collapseNl content = content)
    (hgate : searchLitClass (str ("ReleaseDate:")) isDigitDash content = true)
    (hscanA : ∀ j < A.length, matchLitClassAt (str ("ReleaseDate:")) isDigitDash
      ((A ++ (str ("ReleaseDate: ") ++ (D ++ B))).drop j) = none)
    (hD1 : D ≠ []) (hD2 : D.all isDigitDash = true)
    (hBh : ∀ c, B.head? = some c → isDigitDash c = false)
    (hscanB : ∀ j < B.length, matchLitClassAt (str ("ReleaseDate:")) isDigitDash
      (B.drop j) = none)
    (htoday : '\n' ∉ today)
    (hlastA : (splitNl A).getLastD [] = [])
    (hBnl : B = [] ∨ B.head? = some '\n')
    (hcol2 : collapseNl (A ++ (str ("ReleaseDate: ") ++ (today ++ B))) =
      A ++ (str ("ReleaseDate: ") ++ (today ++ B)))
    (hrdf : remove_duplicate_fields (A ++ (str ("ReleaseDate: ") ++ (today ++ B))) =
      A ++ (str ("ReleaseDate: ") ++ (today ++ B))) :
    update_manifest_content content version none none none none (some hs) (some us)
        none none today = A ++ (str ("ReleaseDate: ") ++ (today ++ B)) ∧
    (splitNl (update_manifest_content content version none none none none (some hs)
        (some us) none none today)).length = (splitNl content).length ∧
    (splitNl (update_manifest_content content version none none none none (some hs)
        (some us) none none today)).map keyOf = (splitNl content).map keyOf ∧
    ∀ i, (splitNl (update_manifest_content content version none none none none
        (some hs) (some us) none none today)).getD i [] ≠
        (splitNl content).getD i [] →
      keyOf ((splitNl content).getD i []) = some (str ("ReleaseDate")) := by
  have hust : optDict (some us) = true := by
    cases us with
    | nil => exact absurd rfl husne
    | cons a t => rfl
  have hhst : optDict (some hs) = true := by
    cases hs with
    | nil => exact absurd rfl hhsne
    | cons a t => rfl
  have hma_u : update_multi_arch_urls content us = content := by
    unfold update_multi_arch_urls
    rw [updMultiArch_eq_spec]
    show collapseNl (joinNl ((List.range (splitNl content).length).filterMap
      (maSpecLine (str ("InstallerUrl:")) us (splitNl content)))) = content
    rw [range_filterMap_getD (splitNl content) [] _ hus, joinNl_splitNl]
    exact hcol1
  have hma_h : update_multi_arch_hashes content hs = content := by
    unfold update_multi_arch_hashes
    rw [updMultiArch_eq_spec]
    show collapseNl (joinNl ((List.range (splitNl content).length).filterMap
      (maSpecLine (str ("InstallerSha256:")) hs (splitNl content)))) = content
    rw [range_filterMap_getD (splitNl content) [] _ hhs, joinNl_splitNl]
    exact hcol1
  have hsub : subReleaseDate today content =
      A ++ (str ("ReleaseDate: ") ++ (today ++ B)) := by
    rw [hdecomp]
    exact subRD_canonical today A D B hscanA hD1 hD2 hBh hscanB
  have hout : update_manifest_content content version none none none none (some hs)
      (some us) none none today = A ++ (str ("ReleaseDate: ") ++ (today ++ B)) := by
    unfold update_manifest_content
    rw [hfind]
    have hv : (version ≠ version) = False := by simp
    have hsn : optStr (none : Option (List Char)) = false := rfl
    have hdn : optDict (none : Option Dict) = false := rfl
    simp only [hv, if_false, hust, hhst, if_true, Option.getD_some, hma_u, hma_h,
      hsn, hdn, Bool.false_and, Bool.false_eq_true, ite_self, hgate, hsub, hcol2]
    exact hrdf
  have hm1 : '\n' ∉ str ("ReleaseDate: ") ++ D := by
    intro hmem
    rcases List.mem_append.mp hmem with h | h
    · revert h
      decide
    · exact absurd (List.all_eq_true.mp hD2 _ h) (by decide)
  have hm2 : '\n' ∉ str ("ReleaseDate: ") ++ today := by
    intro hmem
    rcases List.mem_append.mp hmem with h | h
    · revert h
      decide
    · exact htoday h
  have hclines : splitNl content =
      (splitNl A).dropLast ++ ((str ("ReleaseDate: ") ++ D) :: (splitNl B).tail) := by
    rw [hdecomp, show str ("ReleaseDate: ") ++ (D ++ B) =
      (str ("ReleaseDate: ") ++ D) ++ B from (List.append_assoc _ _ _).symm]
    exact splitNl_mid A _ B hm1 hlastA hBnl
  have holines : splitNl (A ++ (str ("ReleaseDate: ") ++ (today ++ B))) =
      (splitNl A).dropLast ++ ((str ("ReleaseDate: ") ++ today) :: (splitNl B).tail) := by
    rw [show str ("ReleaseDate: ") ++ (today ++ B) =
      (str ("ReleaseDate: ") ++ today) ++ B from (List.append_assoc _ _ _).symm]
    exact splitNl_mid A _ B hm2 hlastA hBnl
  have hk1 : keyOf (str ("ReleaseDate: ") ++ D) = some (str ("ReleaseDate")) := by
    rw [keyOf_append (by decide) D]
    decide
  have hk2 : keyOf (str ("ReleaseDate: ") ++ today) = some (str ("ReleaseDate")) := by
    rw [keyOf_append (by decide) today]
    decide
  refine ⟨hout, ?_, ?_, ?_⟩
  · rw [hout, holines, hclines]
    simp [List.length_append]
  · rw [hout, holines, hclines, List.map_append, List.map_append, List.map_cons,
      List.map_cons, hk1, hk2]
  · intro i hne
    rw [hout, holines] at hne
    rw [hclines] at hne ⊢
    rcases Nat.lt_trichotomy i (splitNl A).dropLast.length with hlt | heq | hgt
    · rw [getD_append_lt _ _ _ _ hlt, getD_append_lt _ _ _ _ hlt] at hne
      exact absurd rfl hne
    · rw [heq, getD_append_len]
      exact hk1
    · rw [getD_append_gt _ _ _ _ _ hgt, getD_append_gt _ _ _ _ _ hgt] at hne
      exact absurd rfl hne

/-- C7 witness: a one-architecture manifest with matching URL and hash
maps is returned with only its ReleaseDate value replaced. -/
theorem c7_witness :
    update_manifest_content
        (str ("PackageVersion: 1.0\nInstallers:\n- Architecture: x64\n  InstallerUrl: http://u\n  InstallerSha256: ABC\nReleaseDate: 2024-01-01\nManifestType: installer\n"))
        (str ("1.0")) none none none none
        (some [(str ("x64"), str ("ABC"))]) (some [(str ("x64"), str ("http://u"))])
        none none (str ("2025-10-12")) =
      str ("PackageVersion: 1.0\nInstallers:\n- Architecture: x64\n  InstallerUrl: http://u\n  InstallerSha256: ABC\n") ++
        (str ("ReleaseDate: ") ++ (str ("2025-10-12") ++
          str ("\nManifestType: installer\n"))) ∧
    (splitNl (update_manifest_content
        (str ("PackageVersion: 1.0\nInstallers:\n- Architecture: x64\n  InstallerUrl: http://u\n  InstallerSha256: ABC\nReleaseDate: 2024-01-01\nManifestType: installer\n"))
        (str ("1.0")) none none none none
        (some [(str ("x64"), str ("ABC"))]) (some [(str ("x64"), str ("http://u"))])
        none none (str ("2025-10-12")))).length =
      (splitNl (str ("PackageVersion: 1.0\nInstallers:\n- Architecture: x64\n  InstallerUrl: http://u\n  InstallerSha256: ABC\nReleaseDate: 2024-01-01\nManifestType: installer\n"))).length ∧
    (splitNl (update_manifest_content
        (str ("PackageVersion: 1.0\nInstallers:\n- Architecture: x64\n  InstallerUrl: http://u\n  InstallerSha256: ABC\nReleaseDate: 2024-01-01\nManifestType: installer\n"))
        (str ("1.0")) none none none none
        (some [(str ("x64"), str ("ABC"))]) (some [(str ("x64"), str ("http://u"))])
        none none (str ("2025-10-12")))).map keyOf =
      (splitNl (str ("PackageVersion: 1.0\nInstallers:\n- Architecture: x64\n  InstallerUrl: http://u\n  InstallerSha256: ABC\nReleaseDate: 2024-01-01\nManifestType: installer\n"))).map keyOf ∧
    ∀ i, (splitNl (update_manifest_content
        (str ("PackageVersion: 1.0\nInstallers:\n- Architecture: x64\n  InstallerUrl: http://u\n  InstallerSha256: ABC\nReleaseDate: 2024-01-01\nManifestType: installer\n"))
        (str ("1.0")) none none none none
        (some [(str ("x64"), str ("ABC"))]) (some [(str ("x64"), str ("http://u"))])
        none none (str ("2025-10-12")))).getD i [] ≠
        (splitNl (str ("PackageVersion: 1.0\nInstallers:\n- Architecture: x64\n  InstallerUrl: http://u\n  InstallerSha256: ABC\nReleaseDate: 2024-01-01\nManifestType: installer\n"))).getD i [] →
      keyOf ((splitNl (str ("PackageVersion: 1.0\nInstallers:\n- Architecture: x64\n  InstallerUrl: http://u\n  InstallerSha256: ABC\nReleaseDate: 2024-01-01\nManifestType: installer\n"))).getD i []) =
        some (str ("ReleaseDate")) :=
  c7_no_op_idempotence
    (str ("PackageVersion: 1.0\nInstallers:\n- Architecture: x64\n  InstallerUrl: http://u\n  InstallerSha256: ABC\nReleaseDate: 2024-01-01\nManifestType: installer\n"))
    (str ("1.0")) (str ("2025-10-12"))
    (str ("PackageVersion: 1.0\nInstallers:\n- Architecture: x64\n  InstallerUrl: http://u\n  InstallerSha256: ABC\n"))
    (str ("2024-01-01")) (str ("\nManifestType: installer\n"))
    [(str ("x64"), str ("http://u"))] [(str ("x64"), str ("ABC"))]
    (by decide) (by decide) (by decide) (by decide) (by decide) (by decide)
    (by decide) (by decide) (by decide) (by decide) (by decide)
    (fun c hc => (Option.some.inj hc) ▸ (by decide : isDigitDash '\n' = false))
    (by decide) (by decide) (by decide) (by decide) (by decide) (by decide)

/-- dropping past an appended prefix. -/
theorem drop_append_len {α : Type} : ∀ (X Y : List α) (k : Nat),
    (X ++ Y).drop (X.length + k) = Y.drop k
  | [], Y, k => by simp
  | x :: t, Y, k => by
    have h : (x :: t).length + k = (t.length + k) + 1 := by
      simp only [List.length_cons]
      omega
    rw [List.cons_append, h, List.drop_succ_cons]
    exact drop_append_len t Y k

/-- the fuel of the replacement scan is irrelevant once it covers the
text length. -/
theorem pyReplaceF_fuel (old new : List Char) :
    ∀ (f1 : Nat) (s : List Char) (f2 : Nat),
      s.length ≤ f1 → s.length ≤ f2 →
      pyReplaceF old new f1 s = pyReplaceF old new f2 s := by
  intro f1
  induction f1 with
  | zero =>
    intro s f2 h1 _
    have hs : s = [] := List.length_eq_zero.mp (Nat.le_zero.mp h1)
    subst hs
    cases f2 <;> rfl
  | succ f ih =>
    intro s f2 h1 h2
    cases s with
    | nil => cases f2 <;> rfl
    | cons c r =>
      cases f2 with
      | zero => simp at h2
      | succ f2' =>
        simp only [List.length_cons] at h1 h2
        by_cases hc : old ≠ [] ∧ old.isPrefixOf (c :: r) = true
        · have hs1 : pyReplaceF old new (f + 1) (c :: r) =
              new ++ pyReplaceF old new f (r.drop (old.length - 1)) := by
            conv_lhs => rw [pyReplaceF]
            rw [if_pos hc]
          have hs2 : pyReplaceF old new (f2' + 1) (c :: r) =
              new ++ pyReplaceF old new f2' (r.drop (old.length - 1)) := by
            conv_lhs => rw [pyReplaceF]
            rw [if_pos hc]
          have hd := List.length_drop (old.length - 1) r
          rw [hs1, hs2, ih (r.drop (old.length - 1)) f2' (by omega) (by omega)]
        · have hs1 : pyReplaceF old new (f + 1) (c :: r) =
              c :: pyReplaceF old new f r := by
            conv_lhs => rw [pyReplaceF]
            rw [if_neg hc]
          have hs2 : pyReplaceF old new (f2' + 1) (c :: r) =
              c :: pyReplaceF old new f2' r := by
            conv_lhs => rw [pyReplaceF]
            rw [if_neg hc]
          rw [hs1, hs2, ih r f2' (by omega) (by omega)]

/-- the replacement scan passes over a region without occurrences
unchanged. -/
theorem pyReplaceF_skip (old new : List Char) :
    ∀ (A rest : List Char) (f : Nat),
      (A ++ rest).length ≤ f →
      (∀ j < A.length, old.isPrefixOf ((A ++ rest).drop j) = false) →
      pyReplaceF old new f (A ++ rest) = A ++ pyReplaceF old new rest.length rest := by
  intro A
  induction A with
  | nil =>
    intro rest f hf _
    simp only [List.nil_append]
    exact pyReplaceF_fuel old new f rest rest.length (by simpa using hf) (le_refl _)
  | cons c A2 ih =>
    intro rest f hf hno
    have h0 := hno 0 (by simp)
    simp only [List.drop_zero, List.cons_append] at h0
    cases f with
    | zero => simp at hf
    | succ f2 =>
      have hcond : ¬(old ≠ [] ∧ old.isPrefixOf (c :: (A2 ++ rest)) = true) := by
        rintro ⟨-, hp⟩
        rw [h0] at hp
        exact Bool.false_ne_true hp
      have hstep : pyReplaceF old new (f2 + 1) (c :: (A2 ++ rest)) =
          c :: pyReplaceF old new f2 (A2 ++ rest) := by
        conv_lhs => rw [pyReplaceF]
        rw [if_neg hcond]
      rw [List.cons_append, hstep,
        ih rest f2 (by simp only [List.cons_append, List.length_cons] at hf; omega)
          (fun j hj => by
            have h2 := hno (j + 1) (by simp only [List.length_cons]; omega)
            simpa using h2),
        List.cons_append]

/-- the replacement scan fires exactly once at a leading occurrence. -/
theorem pyReplaceF_seam (old new T : List Char) (hold : old ≠ []) :
    pyReplaceF old new (old ++ T).length (old ++ T) =
      new ++ pyReplaceF old new T.length T := by
  rcases List.exists_cons_of_ne_nil hold with ⟨c, pt, rfl⟩
  have hlen : ((c :: pt) ++ T).length = (pt ++ T).length + 1 := by simp
  have hcond : (c :: pt) ≠ [] ∧ (c :: pt).isPrefixOf (c :: (pt ++ T)) = true :=
    ⟨List.cons_ne_nil c pt, by
      rw [show c :: (pt ++ T) = (c :: pt) ++ T from rfl, List.isPrefixOf_iff_prefix]
      exact List.prefix_append _ _⟩
  have hstep : pyReplaceF (c :: pt) new ((pt ++ T).length + 1) (c :: (pt ++ T)) =
      new ++ pyReplaceF (c :: pt) new (pt ++ T).length ((pt ++ T).drop ((c :: pt).length - 1)) := by
    conv_lhs => rw [pyReplaceF]
    rw [if_pos hcond]
  rw [hlen]
  rw [show (c :: pt) ++ T = c :: (pt ++ T) from rfl]
  rw [hstep, show (c :: pt).length - 1 = pt.length from by simp, List.drop_left]
  rw [pyReplaceF_fuel (c :: pt) new (pt ++ T).length T T.length (by simp) (le_refl _)]

/-- the fuel of the counting scan is irrelevant once it covers the text
length. -/
theorem countOccsF_fuel (pat : List Char) :
    ∀ (f1 : Nat) (s : List Char) (f2 : Nat),
      s.length ≤ f1 → s.length ≤ f2 →
      countOccsF pat f1 s = countOccsF pat f2 s := by
  intro f1
  induction f1 with
  | zero =>
    intro s f2 h1 _
    have hs : s = [] := List.length_eq_zero.mp (Nat.le_zero.mp h1)
    subst hs
    cases f2 <;> rfl
  | succ f ih =>
    intro s f2 h1 h2
    cases s with
    | nil => cases f2 <;> rfl
    | cons c r =>
      cases f2 with
      | zero => simp at h2
      | succ f2' =>
        simp only [List.length_cons] at h1 h2
        by_cases hc : pat ≠ [] ∧ pat.isPrefixOf (c :: r) = true
        · have hs1 : countOccsF pat (f + 1) (c :: r) =
              countOccsF pat f (r.drop (pat.length - 1)) + 1 := by
            conv_lhs => rw [countOccsF]
            rw [if_pos hc]
          have hs2 : countOccsF pat (f2' + 1) (c :: r) =
              countOccsF pat f2' (r.drop (pat.length - 1)) + 1 := by
            conv_lhs => rw [countOccsF]
            rw [if_pos hc]
          have hd := List.length_drop (pat.length - 1) r
          rw [hs1, hs2, ih (r.drop (pat.length - 1)) f2' (by omega) (by omega)]
        · have hs1 : countOccsF pat (f + 1) (c :: r) = countOccsF pat f r := by
            conv_lhs => rw [countOccsF]
            rw [if_neg hc]
          have hs2 : countOccsF pat (f2' + 1) (c :: r) = countOccsF pat f2' r := by
            conv_lhs => rw [countOccsF]
            rw [if_neg hc]
          rw [hs1, hs2, ih r f2' (by omega) (by omega)]

/-- the counting scan sees nothing in a region without occurrences. -/
theorem countOccsF_skip (pat : List Char) :
    ∀ (A rest : List Char) (f : Nat),
      (A ++ rest).length ≤ f →
      (∀ j < A.length, pat.isPrefixOf ((A ++ rest).drop j) = false) →
      countOccsF pat f (A ++ rest) = countOccsF pat rest.length rest := by
  intro A
  induction A with
  | nil =>
    intro rest f hf _
    simp only [List.nil_append]
    exact countOccsF_fuel pat f rest rest.length (by simpa using hf) (le_refl _)
  | cons c A2 ih =>
    intro rest f hf hno
    have h0 := hno 0 (by simp)
    simp only [List.drop_zero, List.cons_append] at h0
    cases f with
    | zero => simp at hf
    | succ f2 =>
      have hcond : ¬(pat ≠ [] ∧ pat.isPrefixOf (c :: (A2 ++ rest)) = true) := by
        rintro ⟨-, hp⟩
        rw [h0] at hp
        exact Bool.false_ne_true hp
      have hstep : countOccsF pat (f2 + 1) (c :: (A2 ++ rest)) =
          countOccsF pat f2 (A2 ++ rest) := by
        conv_lhs => rw [countOccsF]
        rw [if_neg hcond]
      rw [List.cons_append, hstep,
        ih rest f2 (by simp only [List.cons_append, List.length_cons] at hf; omega)
          (fun j hj => by
            have h2 := hno (j + 1) (by simp only [List.length_cons]; omega)
            simpa using h2)]

/-- the counting scan counts a leading occurrence exactly once. -/
theorem countOccsF_seam (pat T : List Char) (hpat : pat ≠ []) :
    countOccsF pat (pat ++ T).length (pat ++ T) = countOccsF pat T.length T + 1 := by
  rcases List.exists_cons_of_ne_nil hpat with ⟨c, pt, rfl⟩
  have hlen : ((c :: pt) ++ T).length = (pt ++ T).length + 1 := by simp
  have hcond : (c :: pt) ≠ [] ∧ (c :: pt).isPrefixOf (c :: (pt ++ T)) = true :=
    ⟨List.cons_ne_nil c pt, by
      rw [show c :: (pt ++ T) = (c :: pt) ++ T from rfl, List.isPrefixOf_iff_prefix]
      exact List.prefix_append _ _⟩
  have hstep : countOccsF (c :: pt) ((pt ++ T).length + 1) (c :: (pt ++ T)) =
      countOccsF (c :: pt) (pt ++ T).length ((pt ++ T).drop ((c :: pt).length - 1)) + 1 := by
    conv_lhs => rw [countOccsF]
    rw [if_pos hcond]
  rw [hlen]
  rw [show (c :: pt) ++ T = c :: (pt ++ T) from rfl]
  rw [hstep, show (c :: pt).length - 1 = pt.length from by simp, List.drop_left]
  rw [countOccsF_fuel (c :: pt) (pt ++ T).length T T.length (by simp) (le_refl _)]

/-- a pattern absent from a text is counted zero times. -/
theorem countOccsF_zero (pat : List Char) :
    ∀ (f : Nat) (s : List Char), occursIn pat s = false → countOccsF pat f s = 0 := by
  intro f
  induction f with
  | zero =>
    intro s _
    cases s <;> rfl
  | succ f ih =>
    intro s h
    cases s with
    | nil => rfl
    | cons c r =>
      unfold occursIn at h
      rcases Bool.or_eq_false_iff.mp h with ⟨h1, h2⟩
      have hcond : ¬(pat ≠ [] ∧ pat.isPrefixOf (c :: r) = true) := by
        rintro ⟨-, hp⟩
        rw [h1] at hp
        exact Bool.false_ne_true hp
      have hstep : countOccsF pat (f + 1) (c :: r) = countOccsF pat f r := by
        conv_lhs => rw [countOccsF]
        rw [if_neg hcond]
      rw [hstep]
      exact ih r h2

/-- `str.count` of an absent pattern. -/
theorem countOccs_zero (pat s : List Char) (h : occursIn pat s = false) :
    countOccs pat s = 0 :=
  countOccsF_zero pat s.length s h

/-- every seam offset fits inside the joined text. -/
theorem seamPos_bound (sep : List Char) : ∀ (frags : List (List Char)) (p : Nat),
    p ∈ seamPos sep frags → p + sep.length ≤ (joinSep sep frags).length := by
  intro frags
  induction frags with
  | nil =>
    intro p h
    simp [seamPos] at h
  | cons f rest ih =>
    cases rest with
    | nil =>
      intro p h
      simp [seamPos] at h
    | cons g rest2 =>
      intro p h
      simp only [seamPos, List.mem_cons, List.mem_map] at h
      show p + sep.length ≤ (f ++ (sep ++ joinSep sep (g :: rest2))).length
      simp only [List.length_append]
      rcases h with rfl | ⟨q, hq, rfl⟩
      · omega
      · have hb := ih q hq
        omega

/-- the scans of `str.replace` and `str.count` on a text decomposed
along its pattern occurrences: every seam is replaced (counted), and
nothing else is. -/
theorem scan_joinSep (pat new : List Char) (hpat : pat ≠ []) :
    ∀ (frags : List (List Char)), frags ≠ [] →
      (∀ j, pat.isPrefixOf ((joinSep pat frags).drop j) = true ↔
        j ∈ seamPos pat frags) →
      pyReplace pat new (joinSep pat frags) = joinSep new frags ∧
      countOccs pat (joinSep pat frags) = frags.length - 1 := by
  intro frags
  induction frags with
  | nil =>
    intro h _
    exact absurd rfl h
  | cons f rest ih =>
    intro _ hocc
    have h1 : 1 ≤ pat.length := by
      cases pat with
      | nil => exact absurd rfl hpat
      | cons _ _ => simp
    cases rest with
    | nil =>
      have hno : ∀ j < f.length, pat.isPrefixOf ((f ++ ([] : List Char)).drop j) = false := by
        intro j hj
        cases hx : pat.isPrefixOf ((f ++ ([] : List Char)).drop j) with
        | false => rfl
        | true =>
          exfalso
          have hmem := (hocc j).mp (by simpa using hx)
          simp [seamPos] at hmem
      constructor
      · show pyReplace pat new f = f
        unfold pyReplace
        have h := pyReplaceF_skip pat new f [] f.length (by simp) hno
        rw [show pyReplaceF pat new ([] : List Char).length [] = [] from rfl,
          List.append_nil] at h
        exact h
      · show countOccs pat f = 0
        unfold countOccs
        have h := countOccsF_skip pat f [] f.length (by simp) hno
        rw [List.append_nil] at h
        exact h.trans rfl
    | cons g rest2 =>
      have hshift : ∀ j, pat.isPrefixOf ((joinSep pat (g :: rest2)).drop j) = true ↔
          j ∈ seamPos pat (g :: rest2) := by
        intro j
        have h := hocc (f.length + pat.length + j)
        have hd : (joinSep pat (f :: g :: rest2)).drop (f.length + (pat.length + j)) =
            (joinSep pat (g :: rest2)).drop j := by
          show (f ++ (pat ++ joinSep pat (g :: rest2))).drop (f.length + (pat.length + j)) = _
          rw [drop_append_len f _ (pat.length + j), drop_append_len pat _ j]
        rw [Nat.add_assoc] at h
        rw [hd] at h
        rw [h]
        simp only [seamPos, List.mem_cons, List.mem_map]
        constructor
        · intro hm
          rcases hm with he | ⟨q, hq, he⟩
          · omega
          · have hqj : q = j := by omega
            exact hqj ▸ hq
        · intro hm
          right
          exact ⟨j, hm, by omega⟩
      have hT := ih (List.cons_ne_nil g rest2) hshift
      have hnoF : ∀ j < f.length, pat.isPrefixOf
          ((f ++ (pat ++ joinSep pat (g :: rest2))).drop j) = false := by
        intro j hj
        cases hx : pat.isPrefixOf ((f ++ (pat ++ joinSep pat (g :: rest2))).drop j) with
        | false => rfl
        | true =>
          exfalso
          have hmem := (hocc j).mp (by exact hx)
          simp only [seamPos, List.mem_cons, List.mem_map] at hmem
          rcases hmem with he | ⟨q, -, he⟩
          · omega
          · omega
      constructor
      · show pyReplace pat new (f ++ (pat ++ joinSep pat (g :: rest2))) =
          f ++ (new ++ joinSep new (g :: rest2))
        unfold pyReplace
        rw [pyReplaceF_skip pat new f (pat ++ joinSep pat (g :: rest2)) _ (le_refl _) hnoF]
        rw [pyReplaceF_seam pat new (joinSep pat (g :: rest2)) hpat]
        rw [show pyReplaceF pat new (joinSep pat (g :: rest2)).length
          (joinSep pat (g :: rest2)) = pyReplace pat new (joinSep pat (g :: rest2)) from rfl]
        rw [hT.1]
      · show countOccs pat (f ++ (pat ++ joinSep pat (g :: rest2))) = (g :: rest2).length
        unfold countOccs
        rw [countOccsF_skip pat f (pat ++ joinSep pat (g :: rest2)) _ (le_refl _) hnoF]
        rw [countOccsF_seam pat (joinSep pat (g :: rest2)) hpat]
        rw [show countOccsF pat (joinSep pat (g :: rest2)).length
          (joinSep pat (g :: rest2)) = countOccs pat (joinSep pat (g :: rest2)) from rfl]
        rw [hT.2]
        have hge : 1 ≤ (g :: rest2).length := by simp
        omega

/-- C1 (amended): on a text that decomposes along the non-overlapping
occurrences of the detected old version — the old version occurs exactly
at the seams, the new version occurs in the rewritten text exactly at
its seams, the old version does not survive anywhere in the rewritten
text, the two versions do not both end in `.0`, and the rewritten text
triggers no ReleaseDate rewrite and is a fixpoint of the cleanup pass —
`update_manifest_content` replaces all N occurrences: the output is the
decomposition joined by the new version, the old version occurred N
times in the input, and the output contains the new version exactly N
times and the old version 0 times.  (Without the seam conditions the
original claim fails: with old `1.2` and new `1.2.3` the old version
survives inside the new one.) -/
theorem c1_version_propagation (content version old today : List Char)
    (frags : List (List Char))
    (hfind : findPackageVersion content = some old)
    (hne : old ≠ version)
    (hnot0 : ((str (".0")).isSuffixOf old && (str (".0")).isSuffixOf version) = false)
    (hdecomp : content = joinSep old frags)
    (hfr : frags ≠ [])
    (hpo : old ≠ []) (hpv : version ≠ [])
    (hoccIn : ∀ j < content.length,
      old.isPrefixOf (content.drop j) = true ↔ j ∈ seamPos old frags)
    (hoccOut : ∀ j < (joinSep version frags).length,
      version.isPrefixOf ((joinSep version frags).drop j) = true ↔
        j ∈ seamPos version frags)
    (holdOut : occursIn old (joinSep version frags) = false)
    (hgate : searchLitClass (str ("ReleaseDate:")) isDigitDash
      (joinSep version frags) = false)
    (hrdf : remove_duplicate_fields (joinSep version frags) = joinSep version frags) :
    update_manifest_content content version none none none none none none none none
        today = joinSep version frags ∧
    countOccs old content = frags.length - 1 ∧
    countOccs version (update_manifest_content content version none none none none
      none none none none today) = frags.length - 1 ∧
    countOccs old (update_manifest_content content version none none none none
      none none none none today) = 0 := by
  subst hdecomp
  have hoccIn2 : ∀ j, old.isPrefixOf ((joinSep old frags).drop j) = true ↔
      j ∈ seamPos old frags := by
    intro j
    by_cases hj : j < (joinSep old frags).length
    · exact hoccIn j hj
    · constructor
      · intro hp
        exfalso
        rw [List.drop_eq_nil_of_le (Nat.le_of_not_lt hj)] at hp
        rcases List.exists_cons_of_ne_nil hpo with ⟨c, t, rfl⟩
        have hfalse : (c :: t).isPrefixOf ([] : List Char) = false := rfl
        rw [hfalse] at hp
        exact Bool.false_ne_true hp
      · intro hm
        exfalso
        have hb := seamPos_bound old frags j hm
        have h1 : 1 ≤ old.length := by
          rcases List.exists_cons_of_ne_nil hpo with ⟨c, t, rfl⟩
          simp
        omega
  have hoccOut2 : ∀ j, version.isPrefixOf ((joinSep version frags).drop j) = true ↔
      j ∈ seamPos version frags := by
    intro j
    by_cases hj : j < (joinSep version frags).length
    · exact hoccOut j hj
    · constructor
      · intro hp
        exfalso
        rw [List.drop_eq_nil_of_le (Nat.le_of_not_lt hj)] at hp
        rcases List.exists_cons_of_ne_nil hpv with ⟨c, t, rfl⟩
        have hfalse : (c :: t).isPrefixOf ([] : List Char) = false := rfl
        rw [hfalse] at hp
        exact Bool.false_ne_true hp
      · intro hm
        exfalso
        have hb := seamPos_bound version frags j hm
        have h1 : 1 ≤ version.length := by
          rcases List.exists_cons_of_ne_nil hpv with ⟨c, t, rfl⟩
          simp
        omega
  obtain ⟨hrepl, hcntIn⟩ := scan_joinSep old version hpo frags hfr hoccIn2
  obtain ⟨-, hcntOut⟩ := scan_joinSep version version hpv frags hfr hoccOut2
  have hout : update_manifest_content (joinSep old frags) version none none none none
      none none none none today = joinSep version frags := by
    unfold update_manifest_content
    rw [hfind]
    have hvne : (old ≠ version) = True := by simp [hne]
    have hsn : optStr (none : Option (List Char)) = false := rfl
    have hdn : optDict (none : Option Dict) = false := rfl
    simp only [hvne, if_true, hnot0, Bool.false_eq_true, if_false, hsn, hdn,
      Bool.false_and, hrepl, hgate, ite_self]
    exact hrdf
  exact ⟨hout, hcntIn, by rw [hout]; exact hcntOut,
    by rw [hout]; exact countOccs_zero old _ holdOut⟩

/-- C1 witness: old version `4.6.230919` occurring twice (in
`PackageVersion` and in the installer URL) is replaced by `4.6.250531`
at both places and survives nowhere. -/
theorem c1_witness :
    update_manifest_content
        (str ("PackageVersion: 4.6.230919\nInstallerUrl: https://x/4.6.230919/a.zip\n"))
        (str ("4.6.250531")) none none none none none none none none
        (str ("2025-10-12")) =
      joinSep (str ("4.6.250531"))
        [str ("PackageVersion: "), str ("\nInstallerUrl: https://x/"), str ("/a.zip\n")] ∧
    countOccs (str ("4.6.230919"))
      (str ("PackageVersion: 4.6.230919\nInstallerUrl: https://x/4.6.230919/a.zip\n")) = 2 ∧
    countOccs (str ("4.6.250531"))
      (update_manifest_content
        (str ("PackageVersion: 4.6.230919\nInstallerUrl: https://x/4.6.230919/a.zip\n"))
        (str ("4.6.250531")) none none none none none none none none
        (str ("2025-10-12"))) = 2 ∧
    countOccs (str ("4.6.230919"))
      (update_manifest_content
        (str ("PackageVersion: 4.6.230919\nInstallerUrl: https://x/4.6.230919/a.zip\n"))
        (str ("4.6.250531")) none none none none none none none none
        (str ("2025-10-12"))) = 0 :=
  c1_version_propagation
    (str ("PackageVersion: 4.6.230919\nInstallerUrl: https://x/4.6.230919/a.zip\n"))
    (str ("4.6.250531")) (str ("4.6.230919")) (str ("2025-10-12"))
    [str ("PackageVersion: "), str ("\nInstallerUrl: https://x/"), str ("/a.zip\n")]
    (by decide) (by decide) (by decide) (by decide) (by decide) (by decide) (by decide)
    (by decide) (by decide) (by decide) (by decide) (by decide)

/-- the duplicate-field scan only deletes lines: its output is a
sublist of its input. -/
theorem rdfGo_sublist : ∀ (ls : List (List Char)) (tr : Tracker)
    (arch secName : Option (List Char)) (listIdx : Nat) (inInst : Bool) (lineIdx : Nat),
    List.Sublist (rdfGo tr arch secName listIdx inInst lineIdx ls) ls := by
  intro ls
  induction ls with
  | nil =>
    intro tr a s k b i
    exact List.nil_sublist []
  | cons l t ih =>
    intro tr a s k b i
    show List.Sublist (rdfGo tr a s k b i (l :: t)) (l :: t)
    simp only [rdfGo]
    repeat' split
    all_goals
      first
        | exact List.Sublist.cons₂ _ (ih _ _ _ _ _ _)
        | exact List.Sublist.cons _ (ih _ _ _ _ _ _)

/-- every line of the blank-run collapse is an input line or the empty
line. -/
theorem collapseBlankLines_mem : ∀ (fuel : Nat) (ls : List (List Char)) (l : List Char),
    l ∈ collapseBlankLines fuel ls → l ∈ ls ∨ l = [] := by
  intro fuel
  induction fuel with
  | zero =>
    intro ls l h
    cases ls with
    | nil => simp [collapseBlankLines] at h
    | cons x t => exact Or.inl (by simpa [collapseBlankLines] using h)
  | succ f ih =>
    intro ls l h
    cases ls with
    | nil => simp [collapseBlankLines] at h
    | cons x t =>
      simp only [collapseBlankLines] at h
      by_cases he : (t.drop (t.takeWhile isWsLine).length).isEmpty = true
      · rw [if_pos he] at h
        by_cases h3 : 3 ≤ (t.takeWhile isWsLine).length
        · rw [if_pos h3] at h
          rcases List.mem_cons.mp h with rfl | h2
          · exact Or.inl (List.mem_cons_self _ _)
          · rcases List.mem_cons.mp h2 with rfl | h4
            · exact Or.inr rfl
            · have h5 : l = (t.takeWhile isWsLine).getLastD [] := by simpa using h4
              subst h5
              by_cases hw : t.takeWhile isWsLine = []
              · rw [hw]
                exact Or.inr rfl
              · exact Or.inl (List.mem_cons_of_mem x
                  ((List.takeWhile_sublist _).subset (mem_getLastD _ [] hw)))
        · rw [if_neg h3] at h
          rcases List.mem_cons.mp h with rfl | h2
          · exact Or.inl (List.mem_cons_self _ _)
          · exact Or.inl (List.mem_cons_of_mem x ((List.takeWhile_sublist _).subset h2))
      · rw [if_neg he] at h
        by_cases h2 : 2 ≤ (t.takeWhile isWsLine).length
        · rw [if_pos h2] at h
          rcases List.mem_cons.mp h with rfl | h3
          · exact Or.inl (List.mem_cons_self _ _)
          · rcases List.mem_cons.mp h3 with rfl | h4
            · exact Or.inr rfl
            · rcases ih _ l h4 with h5 | h5
              · exact Or.inl (List.mem_cons_of_mem x (List.mem_of_mem_drop h5))
              · exact Or.inr h5
        · rw [if_neg h2] at h
          rcases List.mem_cons.mp h with rfl | h3
          · exact Or.inl (List.mem_cons_self _ _)
          · rcases List.mem_append.mp h3 with h4 | h4
            · exact Or.inl (List.mem_cons_of_mem x ((List.takeWhile_sublist _).subset h4))
            · rcases ih _ l h4 with h5 | h5
              · exact Or.inl (List.mem_cons_of_mem x (List.mem_of_mem_drop h5))
              · exact Or.inr h5

/-- the lines produced by splitting contain no newline. -/
theorem splitNl_nlfree_lines : ∀ (s : List Char) (l : List Char),
    l ∈ splitNl s → '\n' ∉ l := by
  intro s
  induction s with
  | nil =>
    intro l h
    have hl : l = [] := by simpa [splitNl] using h
    subst hl
    simp
  | cons c r ih =>
    intro l h
    by_cases hc : c = '\n'
    · subst hc
      rw [splitNl_cons_nl] at h
      rcases List.mem_cons.mp h with rfl | h2
      · simp
      · exact ih l h2
    · rw [splitNl_cons_ne r hc] at h
      rcases hS : splitNl r with _ | ⟨p, ps⟩
      · exact absurd hS (splitNl_ne_nil r)
      · rw [hS] at h
        simp only [List.headD_cons, List.tail_cons] at h
        rcases List.mem_cons.mp h with rfl | h2
        · intro hmem
          rcases List.mem_cons.mp hmem with he | hmem2
          · exact hc he.symm
          · exact ih p (by rw [hS]; exact List.mem_cons_self p ps) hmem2
        · exact ih l (by rw [hS]; exact List.mem_cons_of_mem p h2)

/-- splitting undoes joining for a nonempty list of newline-free
lines. -/
theorem splitNl_joinNl : ∀ (R : List (List Char)), R ≠ [] → (∀ l ∈ R, '\n' ∉ l) →
    splitNl (joinNl R) = R := by
  intro R
  induction R with
  | nil =>
    intro h _
    exact absurd rfl h
  | cons l rest ih =>
    intro _ hnl
    cases rest with
    | nil =>
      show splitNl l = [l]
      have h := splitNl_nlfree_append (hnl l (List.mem_cons_self l [])) []
      have h0 : splitNl ([] : List Char) = [[]] := rfl
      rw [h0] at h
      simpa using h
    | cons g rest2 =>
      show splitNl (l ++ '\n' :: joinNl (g :: rest2)) = l :: g :: rest2
      rw [splitNl_nlfree_append (hnl l (List.mem_cons_self l _)) ('\n' :: joinNl (g :: rest2))]
      rw [splitNl_cons_nl]
      simp only [List.headD_cons, List.tail_cons, List.append_nil]
      rw [ih (List.cons_ne_nil g rest2) (fun x hx => hnl x (List.mem_cons_of_mem l hx))]

/-- a whitespace-only line has no field key. -/
theorem keyOf_ws_none {l : List Char} (h : isWsLine l = true) : keyOf l = none := by
  have hstrip : pyStrip l = [] := by
    unfold pyStrip
    have hd : l.dropWhile isWs = [] := by
      rw [List.dropWhile_eq_nil_iff]
      intro x hx
      exact List.all_eq_true.mp h x hx
    rw [hd]
    rfl
  unfold keyOf
  rw [hstrip]
  rfl

/-- the cleanup pass introduces no field name: every key of its output
is a key of its input. -/
theorem rdf_fieldNames_subset (content : List Char) :
    fieldNames (remove_duplicate_fields content) ⊆ fieldNames content := by
  intro key hkey
  unfold fieldNames at hkey ⊢
  unfold remove_duplicate_fields at hkey
  rcases List.mem_filterMap.mp hkey with ⟨l, hl, hkl⟩
  have hRsub : List.Sublist (rdfGo [] none none 0 false 0 (splitNl content))
      (splitNl content) := rdfGo_sublist _ _ _ _ _ _ _
  have hRnl : ∀ x ∈ rdfGo [] none none 0 false 0 (splitNl content), '\n' ∉ x :=
    fun x hx => splitNl_nlfree_lines content x (hRsub.subset hx)
  by_cases hRe : rdfGo [] none none 0 false 0 (splitNl content) = []
  · rw [hRe] at hl
    have hcalc : splitNl (collapseNl (joinNl ([] : List (List Char)))) = [[]] := rfl
    rw [hcalc] at hl
    have hle : l = [] := by simpa using hl
    rw [hle] at hkl
    have hnone : keyOf ([] : List Char) = none := rfl
    rw [hnone] at hkl
    exact Option.noConfusion hkl
  · have hsj : splitNl (joinNl (rdfGo [] none none 0 false 0 (splitNl content))) =
        rdfGo [] none none 0 false 0 (splitNl content) := splitNl_joinNl _ hRe hRnl
    have hcol : collapseNl (joinNl (rdfGo [] none none 0 false 0 (splitNl content))) =
        joinNl (collapseBlankLines (rdfGo [] none none 0 false 0 (splitNl content)).length
          (rdfGo [] none none 0 false 0 (splitNl content))) := by
      unfold collapseNl
      rw [hsj]
    rw [hcol] at hl
    have hCmem : ∀ x ∈ collapseBlankLines
        (rdfGo [] none none 0 false 0 (splitNl content)).length
        (rdfGo [] none none 0 false 0 (splitNl content)),
        x ∈ rdfGo [] none none 0 false 0 (splitNl content) ∨ x = [] :=
      fun x hx => collapseBlankLines_mem _ _ x hx
    by_cases hCe : collapseBlankLines
        (rdfGo [] none none 0 false 0 (splitNl content)).length
        (rdfGo [] none none 0 false 0 (splitNl content)) = []
    · rw [hCe] at hl
      have hle : l = [] := by simpa [joinNl, splitNl] using hl
      rw [hle] at hkl
      have hnone : keyOf ([] : List Char) = none := rfl
      rw [hnone] at hkl
      exact Option.noConfusion hkl
    · have hCnl : ∀ x ∈ collapseBlankLines
          (rdfGo [] none none 0 false 0 (splitNl content)).length
          (rdfGo [] none none 0 false 0 (splitNl content)), '\n' ∉ x := by
        intro x hx
        rcases hCmem x hx with hxr | hxe
        · exact hRnl x hxr
        · rw [hxe]
          simp
      rw [splitNl_joinNl _ hCe hCnl] at hl
      rcases hCmem l hl with hlr | hle
      · exact List.mem_filterMap.mpr ⟨l, hRsub.subset hlr, hkl⟩
      · rw [hle] at hkl
        have hnone : keyOf ([] : List Char) = none := rfl
        rw [hnone] at hkl
        exact Option.noConfusion hkl

/-- C3 (amended): when the detected version equals the supplied one and
no ReleaseDate rewrite triggers, the pipeline is exactly the cleanup
pass, and that pass never invents a field: every field name of the
output occurs in the input.  (The unrestricted claim fails: an actual
version substitution rewrites field keys that contain the old version
string, producing a field name absent from the input.) -/
theorem c3_no_ghost_fields (content version today : List Char)
    (hfind : findPackageVersion content = some version)
    (hgate : searchLitClass (str ("ReleaseDate:")) isDigitDash content = false) :
    fieldNames (update_manifest_content content version none none none none none none
      none none today) ⊆ fieldNames content := by
  have hout : update_manifest_content content version none none none none none none
      none none today = remove_duplicate_fields content := by
    unfold update_manifest_content
    rw [hfind]
    have hv : (version ≠ version) = False := by simp
    have hsn : optStr (none : Option (List Char)) = false := rfl
    have hdn : optDict (none : Option Dict) = false := rfl
    simp only [hv, if_false, hsn, hdn, Bool.false_eq_true, Bool.false_and, hgate, ite_self]
  rw [hout]
  exact rdf_fieldNames_subset content

/-- C3 witness: a manifest with a duplicated field keeps only field
names that already occur in it. -/
theorem c3_witness :
    fieldNames (update_manifest_content
        (str ("PackageVersion: 1.0\nPublisher: a\nPublisher: b\n"))
        (str ("1.0")) none none none none none none none none
        (str ("2025-10-12"))) ⊆
      fieldNames (str ("PackageVersion: 1.0\nPublisher: a\nPublisher: b\n")) :=
  c3_no_ghost_fields (str ("PackageVersion: 1.0\nPublisher: a\nPublisher: b\n"))
    (str ("1.0")) (str ("2025-10-12")) (by decide) (by decide)

/-- a pattern starting with a character absent from a region matches at
no position of that region. -/
theorem no_cons_prefix {c : Char} (cs : List Char) : ∀ {L : List Char}, c ∉ L →
    ∀ (rest : List Char) (j : Nat), j < L.length →
    (c :: cs).isPrefixOf ((L ++ rest).drop j) = false := by
  intro L
  induction L with
  | nil =>
    intro _ rest j hj
    simp at hj
  | cons x xs ih =>
    intro hc rest j hj
    cases j with
    | zero =>
      simp only [List.drop_zero, List.cons_append]
      have hx : c ≠ x := fun he => hc (he ▸ List.mem_cons_self x xs)
      simp [List.isPrefixOf, hx]
    | succ k =>
      simp only [List.cons_append, List.drop_succ_cons]
      exact ih (fun h => hc (List.mem_cons_of_mem x h)) rest k (by simpa using hj)

/-- the whole-text version of the previous lemma. -/
theorem no_cons_prefix_self {c : Char} (cs : List Char) {s : List Char} (hc : c ∉ s) :
    ∀ j < s.length, (c :: cs).isPrefixOf (s.drop j) = false := by
  intro j hj
  have h := no_cons_prefix cs hc [] j hj
  rwa [List.append_nil] at h

/-- a replacement with no occurrence anywhere is the identity. -/
theorem pyReplace_no_occs (old new s : List Char)
    (h : ∀ j < s.length, old.isPrefixOf (s.drop j) = false) : pyReplace old new s = s := by
  unfold pyReplace
  have h2 := pyReplaceF_skip old new s [] s.length (by simp)
    (fun j hj => by
      have h3 := h j (by simpa using hj)
      simpa using h3)
  rw [show pyReplaceF old new ([] : List Char).length [] = [] from rfl,
    List.append_nil] at h2
  exact h2

/-- consuming a line up to its terminating newline. -/
theorem dropWhile_ne_nl_append {X : List Char} (hX : '\n' ∉ X) (B : List Char) :
    (X ++ '\n' :: B).dropWhile (· ≠ '\n') = '\n' :: B := by
  induction X with
  | nil => simp [List.dropWhile_cons]
  | cons x xs ih =>
    have hx : x ≠ '\n' := fun he => hX (he ▸ List.mem_cons_self x xs)
    rw [List.cons_append, List.dropWhile_cons, if_pos (by simp [hx])]
    exact ih (fun h => hX (List.mem_cons_of_mem x h))

/-- the fuel of the line substitution is irrelevant once it covers the
text length. -/
theorem subLitLineF_fuel (lit repl : List Char) (hlit : lit ≠ []) :
    ∀ (f1 : Nat) (s : List Char) (f2 : Nat) (seen : Bool),
      s.length ≤ f1 → s.length ≤ f2 →
      subLitLineF lit repl f1 seen s = subLitLineF lit repl f2 seen s := by
  have hl1 : 1 ≤ lit.length := by
    cases lit with
    | nil => exact absurd rfl hlit
    | cons _ _ => simp
  intro f1
  induction f1 with
  | zero =>
    intro s f2 seen h1 _
    have hs : s = [] := List.length_eq_zero.mp (Nat.le_zero.mp h1)
    subst hs
    cases f2 <;> rfl
  | succ f ih =>
    intro s f2 seen h1 h2
    cases s with
    | nil => cases f2 <;> rfl
    | cons c r =>
      cases f2 with
      | zero => simp at h2
      | succ f2' =>
        simp only [List.length_cons] at h1 h2
        by_cases hc : lit.isPrefixOf (c :: r) = true
        · have hs1 : subLitLineF lit repl (f + 1) seen (c :: r) =
              (if seen = true then [] else repl) ++ subLitLineF lit repl f true
                (((c :: r).drop lit.length).dropWhile (· ≠ '\n')) := by
            conv_lhs => rw [subLitLineF]
            rw [if_pos hc]
          have hs2 : subLitLineF lit repl (f2' + 1) seen (c :: r) =
              (if seen = true then [] else repl) ++ subLitLineF lit repl f2' true
                (((c :: r).drop lit.length).dropWhile (· ≠ '\n')) := by
            conv_lhs => rw [subLitLineF]
            rw [if_pos hc]
          have hd1 := dropWhile_length_le (fun a => a ≠ '\n') ((c :: r).drop lit.length)
          have hd2 := List.length_drop lit.length (c :: r)
          simp only [List.length_cons] at hd2
          rw [hs1, hs2, ih _ f2' true (by omega) (by omega)]
        · have hs1 : subLitLineF lit repl (f + 1) seen (c :: r) =
              c :: subLitLineF lit repl f seen r := by
            conv_lhs => rw [subLitLineF]
            rw [if_neg hc]
          have hs2 : subLitLineF lit repl (f2' + 1) seen (c :: r) =
              c :: subLitLineF lit repl f2' seen r := by
            conv_lhs => rw [subLitLineF]
            rw [if_neg hc]
          rw [hs1, hs2, ih r f2' seen (by omega) (by omega)]

/-- the line substitution passes over a region without occurrences
unchanged. -/
theorem subLitLineF_skip (lit repl : List Char) (hlit : lit ≠ []) :
    ∀ (A rest : List Char) (f : Nat) (seen : Bool),
      (A ++ rest).length ≤ f →
      (∀ j < A.length, lit.isPrefixOf ((A ++ rest).drop j) = false) →
      subLitLineF lit repl f seen (A ++ rest) =
        A ++ subLitLineF lit repl rest.length seen rest := by
  intro A
  induction A with
  | nil =>
    intro rest f seen hf _
    simp only [List.nil_append]
    exact subLitLineF_fuel lit repl hlit f rest rest.length seen (by simpa using hf)
      (le_refl _)
  | cons c A2 ih =>
    intro rest f seen hf hno
    have h0 := hno 0 (by simp)
    simp only [List.drop_zero, List.cons_append] at h0
    cases f with
    | zero => simp at hf
    | succ f2 =>
      have hstep : subLitLineF lit repl (f2 + 1) seen (c :: (A2 ++ rest)) =
          c :: subLitLineF lit repl f2 seen (A2 ++ rest) := by
        conv_lhs => rw [subLitLineF]
        rw [if_neg (by rw [h0]; exact Bool.false_ne_true)]
      rw [List.cons_append, hstep,
        ih rest f2 seen (by simp only [List.cons_append, List.length_cons] at hf; omega)
          (fun j hj => by
            have h2 := hno (j + 1) (by simp only [List.length_cons]; omega)
            simpa using h2),
        List.cons_append]

/-- a region without matches is returned unchanged by the line
substitution. -/
theorem subLitLineF_noMatch (lit repl : List Char) (hlit : lit ≠ []) (s : List Char)
    (f : Nat) (seen : Bool) (hf : s.length ≤ f)
    (hno : ∀ j < s.length, lit.isPrefixOf (s.drop j) = false) :
    subLitLineF lit repl f seen s = s := by
  have h := subLitLineF_skip lit repl hlit s [] f seen (by simpa using hf)
    (fun j hj => by
      have h2 := hno j (by simpa using hj)
      simpa using h2)
  rw [show subLitLineF lit repl ([] : List Char).length seen [] = [] from rfl,
    List.append_nil] at h
  exact h

/-- the line substitution fires on a leading occurrence: it keeps the
replacement (first occurrence) and consumes the rest of the line. -/
theorem subLitLineF_seam (lit repl X B : List Char) (hlit : lit ≠ []) (hX : '\n' ∉ X) :
    subLitLineF lit repl (lit ++ (X ++ '\n' :: B)).length false (lit ++ (X ++ '\n' :: B)) =
      repl ++ subLitLineF lit repl ('\n' :: B).length true ('\n' :: B) := by
  rcases List.exists_cons_of_ne_nil hlit with ⟨c, pt, rfl⟩
  have hpre : (c :: pt).isPrefixOf (c :: (pt ++ (X ++ '\n' :: B))) = true := by
    rw [show c :: (pt ++ (X ++ '\n' :: B)) = (c :: pt) ++ (X ++ '\n' :: B) from rfl,
      List.isPrefixOf_iff_prefix]
    exact List.prefix_append _ _
  have hstep : subLitLineF (c :: pt) repl ((pt ++ (X ++ '\n' :: B)).length + 1) false
      (c :: (pt ++ (X ++ '\n' :: B))) =
      (if false = true then [] else repl) ++
        subLitLineF (c :: pt) repl (pt ++ (X ++ '\n' :: B)).length true
          (((c :: (pt ++ (X ++ '\n' :: B))).drop (c :: pt).length).dropWhile (· ≠ '\n')) := by
    conv_lhs => rw [subLitLineF]
    rw [if_pos hpre]
  have hdrop : ((c :: (pt ++ (X ++ '\n' :: B))).drop (c :: pt).length) = X ++ '\n' :: B := by
    rw [List.length_cons, List.drop_succ_cons, List.drop_left]
  rw [show ((c :: pt) ++ (X ++ '\n' :: B)).length = (pt ++ (X ++ '\n' :: B)).length + 1
    from by simp]
  rw [show (c :: pt) ++ (X ++ '\n' :: B) = c :: (pt ++ (X ++ '\n' :: B)) from rfl]
  rw [hstep, hdrop, dropWhile_ne_nl_append hX B]
  rw [subLitLineF_fuel (c :: pt) repl (List.cons_ne_nil c pt) (pt ++ (X ++ '\n' :: B)).length
    ('\n' :: B) ('\n' :: B).length true
    (by simp only [List.length_append, List.length_cons]; omega) (le_refl _)]
  rw [if_neg Bool.false_ne_true]

/-- indenting the notes indents every line: the two-space prefix plus
the newline replacement is the line-wise two-space indentation. -/
theorem indent_lines : ∀ (NL : List (List Char)), NL ≠ [] → (∀ l ∈ NL, '\n' ∉ l) →
    str ("  ") ++ pyReplace ['\n'] (str ("\n  ")) (joinNl NL) =
      joinNl (NL.map (fun l => str ("  ") ++ l)) := by
  intro NL
  induction NL with
  | nil =>
    intro h _
    exact absurd rfl h
  | cons L rest ih =>
    intro _ hnl
    cases rest with
    | nil =>
      show str ("  ") ++ pyReplace ['\n'] (str ("\n  ")) L = joinNl [str ("  ") ++ L]
      rw [pyReplace_no_occs _ _ _ (no_cons_prefix_self [] (hnl L (List.mem_cons_self L [])))]
      rfl
    | cons G rest2 =>
      have hLnl : '\n' ∉ L := hnl L (List.mem_cons_self L _)
      show str ("  ") ++ pyReplace ['\n'] (str ("\n  ")) (L ++ '\n' :: joinNl (G :: rest2)) =
        joinNl ((str ("  ") ++ L) :: (G :: rest2).map (fun l => str ("  ") ++ l))
      unfold pyReplace
      rw [pyReplaceF_skip ['\n'] (str ("\n  ")) L ('\n' :: joinNl (G :: rest2)) _
        (le_refl _) (fun j hj => no_cons_prefix [] hLnl _ j hj)]
      rw [show ('\n' :: joinNl (G :: rest2)) = ['\n'] ++ joinNl (G :: rest2) from rfl]
      rw [pyReplaceF_seam ['\n'] (str ("\n  ")) (joinNl (G :: rest2)) (by simp)]
      have hih := ih (List.cons_ne_nil G rest2) (fun x hx => hnl x (List.mem_cons_of_mem L hx))
      rw [show pyReplaceF ['\n'] (str ("\n  ")) (joinNl (G :: rest2)).length
        (joinNl (G :: rest2)) = pyReplace ['\n'] (str ("\n  ")) (joinNl (G :: rest2)) from rfl]
      rw [show joinNl ((str ("  ") ++ L) :: (G :: rest2).map (fun l => str ("  ") ++ l)) =
        (str ("  ") ++ L) ++ '\n' :: joinNl ((G :: rest2).map (fun l => str ("  ") ++ l))
        from rfl]
      rw [← hih]
      rw [show str ("\n  ") = '\n' :: str ("  ") from rfl]
      simp [List.append_assoc]

/-- re-assembling a list from its last element. -/
theorem dropLast_getLastD_append {α : Type} : ∀ (l : List α) (d : α) (T : List α), l ≠ [] →
    l.dropLast ++ (l.getLastD d) :: T = l ++ T
  | [], _, _, h => absurd rfl h
  | [x], d, T, _ => rfl
  | x :: y :: t, d, T, _ => by
    rw [show (x :: y :: t).dropLast = x :: (y :: t).dropLast from rfl,
      show (x :: y :: t).getLastD d = (y :: t).getLastD x from rfl,
      List.cons_append,
      dropLast_getLastD_append (y :: t) x T (List.cons_ne_nil y t), List.cons_append]
    rfl

/-- line structure around a header line that sits alone on its line and
is followed by a newline. -/
theorem splitNl_hdr_block (A hdr M : List Char)
    (hhdrnl : '\n' ∉ hdr) (hlastA : (splitNl A).getLastD [] = []) :
    splitNl (A ++ (hdr ++ ('\n' :: M))) =
      (splitNl A).dropLast ++ hdr :: splitNl M := by
  rw [splitNl_append A (hdr ++ ('\n' :: M)), hlastA,
    splitNl_nlfree_append hhdrnl ('\n' :: M), splitNl_cons_nl]
  simp only [List.headD_cons, List.tail_cons, List.nil_append, List.append_nil]

/-- the first index satisfying the test, after a clean prefix. -/
theorem findIdx_append_first {α : Type} (p : α → Bool) :
    ∀ (P : List α) (x : α) (rest : List α) (i : Nat),
      (∀ l ∈ P, p l = false) → p x = true →
      List.findIdx? p (P ++ x :: rest) i = some (i + P.length) := by
  intro P
  induction P with
  | nil =>
    intro x rest i _ hx
    rw [List.nil_append, List.findIdx?_cons, hx]
    simp
  | cons a t ih =>
    intro x rest i hP hx
    rw [List.cons_append, List.findIdx?_cons, hP a (List.mem_cons_self a t)]
    simp only [Bool.false_eq_true, if_false]
    rw [ih x rest (i + 1) (fun l hl => hP l (List.mem_cons_of_mem a hl)) hx]
    congr 1
    simp only [List.length_cons]
    omega

/-- stripping the two-space indentation recovers the line. -/
theorem stripIndent_two (l : List Char) : stripIndent 2 (str ("  ") ++ l) = l := by
  unfold stripIndent
  cases l with
  | nil => rfl
  | cons c t =>
    rw [if_neg (by
      rw [List.length_append, show (str ("  ")).length = 2 from rfl]
      simp only [List.length_cons]
      omega)]
    exact List.drop_left (str ("  ")) (c :: t)

/-- the detected indentation of a two-space-indented line whose content
starts at column zero. -/
theorem indentOf_two {L1 : List Char} (h : indentOf L1 = 0) :
    indentOf (str ("  ") ++ L1) = 2 := by
  unfold indentOf at h ⊢
  cases L1 with
  | nil => rfl
  | cons c cs =>
    have hc : isWs c = false := by
      cases hx : isWs c with
      | false => rfl
      | true =>
        rw [List.takeWhile_cons, hx] at h
        simp at h
    show ((' ' :: ' ' :: c :: cs).takeWhile isWs).length = 2
    rw [List.takeWhile_cons, if_pos (show isWs ' ' = true from rfl),
      List.takeWhile_cons, if_pos (show isWs ' ' = true from rfl),
      List.takeWhile_cons, hc]
    rfl

/-- a two-space-indented line always clears indentation two. -/
theorem indentOf_two_ge (l : List Char) : 2 ≤ indentOf (str ("  ") ++ l) := by
  unfold indentOf
  show 2 ≤ ((' ' :: ' ' :: l).takeWhile isWs).length
  rw [List.takeWhile_cons, if_pos (show isWs ' ' = true from rfl),
    List.takeWhile_cons, if_pos (show isWs ' ' = true from rfl)]
  simp

/-- block collection passes over lines that stay in the block. -/
theorem takeBlock_append_all (n : Nat) : ∀ (P rest : List (List Char)),
    (∀ l ∈ P, (isWsLine l || decide (n ≤ indentOf l)) = true) →
    takeBlock n (P ++ rest) = P ++ takeBlock n rest := by
  intro P
  induction P with
  | nil => intro rest _; rfl
  | cons l t ih =>
    intro rest hP
    rw [List.cons_append]
    show (if isWsLine l || n ≤ indentOf l then l :: takeBlock n (t ++ rest) else []) =
      l :: (t ++ takeBlock n rest)
    rw [if_pos (by simpa using hP l (List.mem_cons_self l t))]
    rw [ih rest (fun x hx => hP x (List.mem_cons_of_mem l hx))]

/-- block collection stops at a line that leaves the block. -/
theorem takeBlock_stop (n : Nat) (t : List Char) (ts : List (List Char))
    (h : (isWsLine t || decide (n ≤ indentOf t)) = false) :
    takeBlock n (t :: ts) = [] := by
  show (if isWsLine t || n ≤ indentOf t then t :: takeBlock n ts else []) = []
  rw [if_neg (by simpa using h)]

/-- C8 (amended): on a manifest whose single `ReleaseNotes:` field is in
single-line form, notes with Unix line endings whose first line starts
with a non-space, non-whitespace character, and an emitted text that the
blank-run collapse fixes (notes without runs of whitespace-only lines),
`_update_release_notes` emits `ReleaseNotes: |-` followed by the notes
with every line indented by two spaces, and decoding that literal block
scalar per the YAML rules returns the notes modulo trailing-newline
normalization.  (Unrestricted, the claim fails: the final blank-run
collapse rewrites notes containing two consecutive whitespace-only
lines, so they do not round-trip.) -/
theorem c8_release_notes_round_trip (content release_notes A X B : List Char)
    (hcontent : content = A ++ (str ("ReleaseNotes:") ++ (X ++ ('\n' :: B))))
    (hr : '\r' ∉ release_notes)
    (hXnl : '\n' ∉ X)
    (hhdr : searchNotesHdr content = false)
    (hAscan : ∀ j < A.length, (str ("ReleaseNotes:")).isPrefixOf (content.drop j) = false)
    (hBscan : ∀ j < B.length, (str ("ReleaseNotes:")).isPrefixOf (B.drop j) = false)
    (hlastA : (splitNl A).getLastD [] = [])
    (hnoHdrA : ∀ l ∈ (splitNl A).dropLast, l ≠ str ("ReleaseNotes: |-"))
    (hL1a : isWsLine ((splitNl release_notes).headD []) = false)
    (hL1b : indentOf ((splitNl release_notes).headD []) = 0)
    (hB1a : isWsLine ((splitNl B).headD []) = false)
    (hB1b : indentOf ((splitNl B).headD []) < 2)
    (hcol : collapseNl (A ++ ((str ("ReleaseNotes: |-\n  ") ++
        pyReplace ['\n'] (str ("\n  ")) release_notes) ++ ('\n' :: B))) =
      A ++ ((str ("ReleaseNotes: |-\n  ") ++
        pyReplace ['\n'] (str ("\n  ")) release_notes) ++ ('\n' :: B))) :
    update_release_notes content release_notes =
      A ++ ((str ("ReleaseNotes: |-\n  ") ++
        pyReplace ['\n'] (str ("\n  ")) release_notes) ++ ('\n' :: B)) ∧
    decodeReleaseNotes (update_release_notes content release_notes) =
      some (chompNl release_notes) := by
  subst hcontent
  have hlit : (str ("ReleaseNotes:")) ≠ [] := by decide
  have hnorm : pyReplace ['\r'] ['\n'] (pyReplace (str ("\r\n")) (str ("\n")) release_notes) =
      release_notes := by
    rw [pyReplace_no_occs (str ("\r\n")) (str ("\n")) release_notes
      (fun j hj => no_cons_prefix_self ['\n'] hr j hj)]
    exact pyReplace_no_occs ['\r'] ['\n'] release_notes
      (fun j hj => no_cons_prefix_self [] hr j hj)
  have htail : ∀ j < ('\n' :: B).length,
      (str ("ReleaseNotes:")).isPrefixOf (('\n' :: B).drop j) = false := by
    intro j hj
    cases j with
    | zero => rfl
    | succ k =>
      simp only [List.drop_succ_cons]
      exact hBscan k (by simpa using hj)
  have hsub : subLitLineF (str ("ReleaseNotes:"))
      (str ("ReleaseNotes: |-\n  ") ++ pyReplace ['\n'] (str ("\n  ")) release_notes)
      (A ++ (str ("ReleaseNotes:") ++ (X ++ ('\n' :: B)))).length false
      (A ++ (str ("ReleaseNotes:") ++ (X ++ ('\n' :: B)))) =
      A ++ ((str ("ReleaseNotes: |-\n  ") ++
        pyReplace ['\n'] (str ("\n  ")) release_notes) ++ ('\n' :: B)) := by
    rw [subLitLineF_skip (str ("ReleaseNotes:")) _ hlit A
      (str ("ReleaseNotes:") ++ (X ++ ('\n' :: B))) _ false (le_refl _) hAscan]
    rw [subLitLineF_seam (str ("ReleaseNotes:")) _ X B hlit hXnl]
    rw [subLitLineF_noMatch (str ("ReleaseNotes:")) _ hlit ('\n' :: B) _ true (le_refl _)
      htail]
  have hout : update_release_notes (A ++ (str ("ReleaseNotes:") ++ (X ++ ('\n' :: B))))
      release_notes =
      A ++ ((str ("ReleaseNotes: |-\n  ") ++
        pyReplace ['\n'] (str ("\n  ")) release_notes) ++ ('\n' :: B)) := by
    unfold update_release_notes
    simp only [hnorm, hhdr, Bool.false_eq_true, if_false]
    rw [hsub]
    exact hcol
  have hNLnl : ∀ l ∈ splitNl release_notes, '\n' ∉ l := splitNl_nlfree_lines release_notes
  have hind : str ("  ") ++ pyReplace ['\n'] (str ("\n  ")) release_notes =
      joinNl ((splitNl release_notes).map (fun l => str ("  ") ++ l)) := by
    have h := indent_lines (splitNl release_notes) (splitNl_ne_nil release_notes) hNLnl
    rwa [joinNl_splitNl] at h
  have hmapnl : ∀ l ∈ (splitNl release_notes).map (fun l => str ("  ") ++ l), '\n' ∉ l := by
    intro l hl
    rcases List.mem_map.mp hl with ⟨x, hx, rfl⟩
    intro hmem
    rcases List.mem_append.mp hmem with h | h
    · revert h
      decide
    · exact hNLnl x hx h
  have hmapne : (splitNl release_notes).map (fun l => str ("  ") ++ l) ≠ [] := by
    rcases hNL : splitNl release_notes with _ | ⟨L1, NL2⟩
    · exact absurd hNL (splitNl_ne_nil release_notes)
    · simp
  have hM : splitNl ((str ("  ") ++ pyReplace ['\n'] (str ("\n  ")) release_notes) ++
      ('\n' :: B)) =
      (splitNl release_notes).map (fun l => str ("  ") ++ l) ++ splitNl B := by
    rw [hind, splitNl_append (joinNl ((splitNl release_notes).map (fun l => str ("  ") ++ l)))
      ('\n' :: B), splitNl_joinNl _ hmapne hmapnl, splitNl_cons_nl]
    simp only [List.headD_cons, List.tail_cons, List.append_nil]
    exact dropLast_getLastD_append _ [] _ hmapne
  have houtlines : splitNl (A ++ ((str ("ReleaseNotes: |-\n  ") ++
      pyReplace ['\n'] (str ("\n  ")) release_notes) ++ ('\n' :: B))) =
      (splitNl A).dropLast ++ (str ("ReleaseNotes: |-")) ::
        ((splitNl release_notes).map (fun l => str ("  ") ++ l) ++ splitNl B) := by
    rw [show (str ("ReleaseNotes: |-\n  ") ++
        pyReplace ['\n'] (str ("\n  ")) release_notes) ++ ('\n' :: B) =
      str ("ReleaseNotes: |-") ++ ('\n' ::
        ((str ("  ") ++ pyReplace ['\n'] (str ("\n  ")) release_notes) ++ ('\n' :: B)))
      from by
        rw [show str ("ReleaseNotes: |-\n  ") =
          str ("ReleaseNotes: |-") ++ ('\n' :: str ("  ")) from rfl]
        simp [List.append_assoc]]
    rw [splitNl_hdr_block A _ _ (by decide) hlastA, hM]
  have hdet : detectIndent ((splitNl release_notes).map (fun l => str ("  ") ++ l) ++
      splitNl B) = 2 := by
    rcases hNL : splitNl release_notes with _ | ⟨L1, NL2⟩
    · exact absurd hNL (splitNl_ne_nil release_notes)
    · simp only [hNL, List.headD_cons] at hL1a hL1b
      unfold detectIndent
      rw [List.map_cons, List.cons_append]
      have hws : isWsLine (str ("  ") ++ L1) = false := by
        unfold isWsLine at hL1a ⊢
        rw [List.all_append]
        simp [hL1a]
      rw [List.find?_cons_of_pos _ (by simp [hws])]
      show indentOf (str ("  ") ++ L1) = 2
      exact indentOf_two hL1b
  have htb : takeBlock 2 ((splitNl release_notes).map (fun l => str ("  ") ++ l) ++
      splitNl B) = (splitNl release_notes).map (fun l => str ("  ") ++ l) := by
    rw [takeBlock_append_all 2 _ _ (fun l hl => by
      rcases List.mem_map.mp hl with ⟨x, -, rfl⟩
      have hge : decide (2 ≤ indentOf (str ("  ") ++ x)) = true :=
        decide_eq_true (indentOf_two_ge x)
      rw [hge, Bool.or_true])]
    rcases hTB : splitNl B with _ | ⟨tB, tBs⟩
    · exact absurd hTB (splitNl_ne_nil B)
    · simp only [hTB, List.headD_cons] at hB1a hB1b
      rw [takeBlock_stop 2 tB tBs (by
        rw [hB1a, Bool.false_or]
        exact decide_eq_false (by omega))]
      rw [List.append_nil]
  have hsi : ((splitNl release_notes).map (fun l => str ("  ") ++ l)).map (stripIndent 2) =
      splitNl release_notes := by
    rw [List.map_map]
    have h : ∀ x ∈ splitNl release_notes,
        (stripIndent 2 ∘ fun l => str ("  ") ++ l) x = id x :=
      fun x _ => stripIndent_two x
    exact (List.map_congr_left h).trans (List.map_id _)
  have hdecode : decodeBlockScalar ((splitNl release_notes).map (fun l => str ("  ") ++ l) ++
      splitNl B) = chompNl release_notes := by
    unfold decodeBlockScalar
    simp only [hdet]
    rw [if_neg (by omega)]
    rw [htb, hsi, joinNl_splitNl]
  refine ⟨hout, ?_⟩
  rw [hout]
  unfold decodeReleaseNotes
  simp only [houtlines]
  have hfound := findIdx_append_first (fun l => decide (l = str ("ReleaseNotes: |-")))
    ((splitNl A).dropLast) (str ("ReleaseNotes: |-"))
    ((splitNl release_notes).map (fun l => str ("  ") ++ l) ++ splitNl B) 0
    (fun l hl => decide_eq_false (hnoHdrA l hl)) (by simp)
  rw [hfound]
  show some (decodeBlockScalar (((splitNl A).dropLast ++ (str ("ReleaseNotes: |-")) ::
      ((splitNl release_notes).map (fun l => str ("  ") ++ l) ++ splitNl B)).drop
      (0 + (splitNl A).dropLast.length + 1))) = some (chompNl release_notes)
  have hdroplines : ((splitNl A).dropLast ++ (str ("ReleaseNotes: |-")) ::
      ((splitNl release_notes).map (fun l => str ("  ") ++ l) ++ splitNl B)).drop
      (0 + (splitNl A).dropLast.length + 1) =
      (splitNl release_notes).map (fun l => str ("  ") ++ l) ++ splitNl B := by
    rw [Nat.zero_add]
    have h := drop_append_len ((splitNl A).dropLast) ((str ("ReleaseNotes: |-")) ::
      ((splitNl release_notes).map (fun l => str ("  ") ++ l) ++ splitNl B)) 1
    simpa using h
  rw [hdroplines, hdecode]

/-- C8 witness: notes with a colon and a markdown dash list, on a
single-line source field, are emitted as a two-space-indented literal
block scalar that decodes back to the notes. -/
theorem c8_witness :
    update_release_notes (str ("ReleaseNotes: old\nManifestType: installer\n"))
        (str ("Release 1.2:\n- Fixed bug\n- Added: feature")) =
      str ("ReleaseNotes: |-\n  Release 1.2:\n  - Fixed bug\n  - Added: feature\nManifestType: installer\n") ∧
    decodeReleaseNotes (update_release_notes
        (str ("ReleaseNotes: old\nManifestType: installer\n"))
        (str ("Release 1.2:\n- Fixed bug\n- Added: feature"))) =
      some (str ("Release 1.2:\n- Fixed bug\n- Added: feature")) :=
  c8_release_notes_round_trip
    (str ("ReleaseNotes: old\nManifestType: installer\n"))
    (str ("Release 1.2:\n- Fixed bug\n- Added: feature"))
    [] (str (" old")) (str ("ManifestType: installer\n"))
    (by decide) (by decide) (by decide) (by decide) (by decide) (by decide) (by decide)
    (by decide) (by decide) (by decide) (by decide) (by decide) (by decide)

/-- a boolean that is not true is false. -/
theorem bool_eq_false {b : Bool} (h : ¬ b = true) : b = false := by
  cases hb : b with
  | false => rfl
  | true => exact absurd hb h

/-- scan step: blank or comment line. -/
theorem rdfGo_cons_skip {l : List Char} {ls : List (List Char)} {tr : Tracker}
    {a s : Option (List Char)} {k : Nat} {b : Bool} {i : Nat}
    (h : rdfSkip l = true) :
    rdfGo tr a s k b i (l :: ls) = l :: rdfGo tr a s k b (i + 1) ls := by
  conv_lhs => rw [rdfGo]
  rw [if_pos h]

/-- scan step: the `Installers:` heading. -/
theorem rdfGo_cons_inst {l : List Char} {ls : List (List Char)} {tr : Tracker}
    {a s : Option (List Char)} {k : Nat} {b : Bool} {i : Nat}
    (h1 : rdfSkip l = false) (h2 : pyStrip l = str ("Installers:")) :
    rdfGo tr a s k b i (l :: ls) = l :: rdfGo tr a s 0 true (i + 1) ls := by
  conv_lhs => rw [rdfGo]
  rw [if_neg (by rw [h1]; exact Bool.false_ne_true), if_pos h2]

/-- scan step: a colon-free line. -/
theorem rdfGo_cons_nocolon {l : List Char} {ls : List (List Char)} {tr : Tracker}
    {a s : Option (List Char)} {k : Nat} {b : Bool} {i : Nat}
    (h1 : rdfSkip l = false) (h2 : pyStrip l ≠ str ("Installers:"))
    (h3 : hasColon (pyStrip l) = false) :
    rdfGo tr a s k b i (l :: ls) = l :: rdfGo tr a s k b (i + 1) ls := by
  conv_lhs => rw [rdfGo]
  rw [if_neg (by rw [h1]; exact Bool.false_ne_true), if_neg h2,
    if_neg (by rw [h3]; exact Bool.false_ne_true)]

/-- scan step: a `- Architecture:` list start inside the installer
list. -/
theorem rdfGo_cons_arch {l : List Char} {ls : List (List Char)} {tr : Tracker}
    {a s : Option (List Char)} {k : Nat} {b : Bool} {i : Nat}
    (h1 : rdfSkip l = false) (h2 : pyStrip l ≠ str ("Installers:"))
    (h3 : hasColon (pyStrip l) = true) (h4 : rdfArchLine b l = true) :
    rdfGo tr a s k b i (l :: ls) =
      l :: rdfGo (tset tr (CtxKey.archBlock (k + 1) (pyStrip (afterColon (pyStrip l)))) [])
        (some (pyStrip (afterColon (pyStrip l)))) s (k + 1) b (i + 1) ls := by
  conv_lhs => rw [rdfGo]
  rw [if_neg (by rw [h1]; exact Bool.false_ne_true), if_neg h2, if_pos h3, if_pos h4]

/-- scan step: a `- Architecture:` list start outside the installer
list (kept, not tracked). -/
theorem rdfGo_cons_archstart {l : List Char} {ls : List (List Char)} {tr : Tracker}
    {a s : Option (List Char)} {k : Nat} {b : Bool} {i : Nat}
    (h1 : rdfSkip l = false) (h2 : pyStrip l ≠ str ("Installers:"))
    (h3 : hasColon (pyStrip l) = true) (h4 : rdfArchLine b l = false)
    (h5 : (rdfListStart l && rdfField l = str ("Architecture")) = true) :
    rdfGo tr a s k b i (l :: ls) =
      l :: rdfGo tr (rdfArch2 a l) (rdfSec2 s l) (rdfIdx2 k l) (rdfInInst2 b l)
        (i + 1) ls := by
  conv_lhs => rw [rdfGo]
  rw [if_neg (by rw [h1]; exact Bool.false_ne_true), if_neg h2, if_pos h3,
    if_neg (by rw [h4]; exact Bool.false_ne_true),
    if_neg (by rw [h5]; decide)]

/-- scan step: a tracked field line whose name was already seen in its
context — the line is removed. -/
theorem rdfGo_cons_dup {l : List Char} {ls : List (List Char)} {tr : Tracker}
    {a s : Option (List Char)} {k : Nat} {b : Bool} {i : Nat}
    (h1 : rdfSkip l = false) (h2 : pyStrip l ≠ str ("Installers:"))
    (h3 : hasColon (pyStrip l) = true) (h4 : rdfArchLine b l = false)
    (h5 : (rdfListStart l && rdfField l = str ("Architecture")) = false)
    (h6 : ((tlook tr (rdfCtxOf a s k b i l)).getD []).contains (rdfField l) = true) :
    rdfGo tr a s k b i (l :: ls) =
      rdfGo tr (rdfArch2 a l) (rdfSec2 s l) (rdfIdx2 k l) (rdfInInst2 b l) (i + 1) ls := by
  conv_lhs => rw [rdfGo]
  rw [if_neg (by rw [h1]; exact Bool.false_ne_true), if_neg h2, if_pos h3,
    if_neg (by rw [h4]; exact Bool.false_ne_true),
    if_pos (by rw [h5]; rfl), if_pos h6]

/-- scan step: a tracked field line seen for the first time in its
context — the line is kept and registered. -/
theorem rdfGo_cons_fresh {l : List Char} {ls : List (List Char)} {tr : Tracker}
    {a s : Option (List Char)} {k : Nat} {b : Bool} {i : Nat}
    (h1 : rdfSkip l = false) (h2 : pyStrip l ≠ str ("Installers:"))
    (h3 : hasColon (pyStrip l) = true) (h4 : rdfArchLine b l = false)
    (h5 : (rdfListStart l && rdfField l = str ("Architecture")) = false)
    (h6 : ((tlook tr (rdfCtxOf a s k b i l)).getD []).contains (rdfField l) = false) :
    rdfGo tr a s k b i (l :: ls) =
      l :: rdfGo (tset tr (rdfCtxOf a s k b i l)
          (rdfField l :: (tlook tr (rdfCtxOf a s k b i l)).getD []))
        (rdfArch2 a l) (rdfSec2 s l) (rdfIdx2 k l) (rdfInInst2 b l) (i + 1) ls := by
  conv_lhs => rw [rdfGo]
  rw [if_neg (by rw [h1]; exact Bool.false_ne_true), if_neg h2, if_pos h3,
    if_neg (by rw [h4]; exact Bool.false_ne_true),
    if_pos (by rw [h5]; rfl), if_neg (by rw [h6]; exact Bool.false_ne_true)]

/-- the protected lines are never removed by the scan. -/
theorem rdfGo_protected (x : List Char) (hx : rdfProtected x = true) :
    ∀ (ls : List (List Char)) (tr : Tracker) (a s : Option (List Char)) (k : Nat)
      (b : Bool) (i : Nat),
      countLines x (rdfGo tr a s k b i ls) = countLines x ls := by
  intro ls
  induction ls with
  | nil => intro tr a s k b i; rfl
  | cons l t ih =>
    intro tr a s k b i
    by_cases h1 : rdfSkip l = true
    · rw [rdfGo_cons_skip h1]
      simp only [countLines, List.countP_cons]
      rw [show (rdfGo tr a s k b (i + 1) t).countP (fun y => decide (y = x)) =
        t.countP (fun y => decide (y = x)) from ih tr a s k b (i + 1)]
    · have h1' := bool_eq_false h1
      by_cases h2 : pyStrip l = str ("Installers:")
      · rw [rdfGo_cons_inst h1' h2]
        simp only [countLines, List.countP_cons]
        rw [show (rdfGo tr a s 0 true (i + 1) t).countP (fun y => decide (y = x)) =
          t.countP (fun y => decide (y = x)) from ih tr a s 0 true (i + 1)]
      · by_cases h3 : hasColon (pyStrip l) = true
        · by_cases h4 : rdfArchLine b l = true
          · rw [rdfGo_cons_arch h1' h2 h3 h4]
            simp only [countLines, List.countP_cons]
            rw [show (rdfGo (tset tr (CtxKey.archBlock (k + 1)
                (pyStrip (afterColon (pyStrip l)))) [])
                (some (pyStrip (afterColon (pyStrip l)))) s (k + 1) b (i + 1) t).countP
                (fun y => decide (y = x)) =
              t.countP (fun y => decide (y = x)) from ih _ _ _ _ _ _]
          · have h4' := bool_eq_false h4
            by_cases h5 : (rdfListStart l && rdfField l = str ("Architecture")) = true
            · rw [rdfGo_cons_archstart h1' h2 h3 h4' h5]
              simp only [countLines, List.countP_cons]
              rw [show (rdfGo tr (rdfArch2 a l) (rdfSec2 s l) (rdfIdx2 k l)
                  (rdfInInst2 b l) (i + 1) t).countP (fun y => decide (y = x)) =
                t.countP (fun y => decide (y = x)) from ih _ _ _ _ _ _]
            · have h5' := bool_eq_false h5
              have hlx : decide (l = x) = false := by
                apply decide_eq_false
                intro he
                subst he
                unfold rdfProtected at hx
                simp only [Bool.or_eq_true] at hx
                rcases hx with ((hc | hc) | hc) | hc
                · rw [h1'] at hc
                  exact Bool.false_ne_true hc
                · exact h2 (by simpa using hc)
                · rw [h3] at hc
                  simp at hc
                · rw [h5'] at hc
                  exact Bool.false_ne_true hc
              by_cases h6 : ((tlook tr (rdfCtxOf a s k b i l)).getD []).contains
                  (rdfField l) = true
              · rw [rdfGo_cons_dup h1' h2 h3 h4' h5' h6]
                rw [show countLines x (rdfGo tr (rdfArch2 a l) (rdfSec2 s l) (rdfIdx2 k l)
                    (rdfInInst2 b l) (i + 1) t) = countLines x t from ih _ _ _ _ _ _]
                simp [countLines, List.countP_cons, hlx]
              · have h6' := bool_eq_false h6
                rw [rdfGo_cons_fresh h1' h2 h3 h4' h5' h6']
                simp only [countLines, List.countP_cons]
                rw [show (rdfGo (tset tr (rdfCtxOf a s k b i l)
                    (rdfField l :: (tlook tr (rdfCtxOf a s k b i l)).getD []))
                    (rdfArch2 a l) (rdfSec2 s l) (rdfIdx2 k l) (rdfInInst2 b l)
                    (i + 1) t).countP (fun y => decide (y = x)) =
                  t.countP (fun y => decide (y = x)) from ih _ _ _ _ _ _]
        · have h3' := bool_eq_false h3
          rw [rdfGo_cons_nocolon h1' h2 h3']
          simp only [countLines, List.countP_cons]
          rw [show (rdfGo tr a s k b (i + 1) t).countP (fun y => decide (y = x)) =
            t.countP (fun y => decide (y = x)) from ih tr a s k b (i + 1)]

/-- reading the tracker after a write. -/
theorem tlook_tset : ∀ (tr : Tracker) (ck : CtxKey) (v : List (List Char)) (ck2 : CtxKey),
    tlook (tset tr ck v) ck2 = if ck2 = ck then some v else tlook tr ck2 := by
  intro tr
  induction tr with
  | nil =>
    intro ck v ck2
    show (if ck = ck2 then some v else tlook [] ck2) = if ck2 = ck then some v else tlook [] ck2
    by_cases h : ck2 = ck
    · rw [if_pos h, if_pos h.symm]
    · rw [if_neg h, if_neg (fun he => h he.symm)]
  | cons p rest ih =>
    intro ck v ck2
    show tlook (if p.1 = ck then (ck, v) :: rest else p :: tset rest ck v) ck2 =
      if ck2 = ck then some v else tlook (p :: rest) ck2
    by_cases hp : p.1 = ck
    · rw [if_pos hp]
      show (if ck = ck2 then some v else tlook rest ck2) = _
      by_cases h : ck2 = ck
      · rw [if_pos h.symm, if_pos h]
      · rw [if_neg (fun he => h he.symm), if_neg h]
        show tlook rest ck2 = tlook (p :: rest) ck2
        show tlook rest ck2 = if p.1 = ck2 then some p.2 else tlook rest ck2
        rw [if_neg (fun he => h (by rw [← he, hp]))]
    · rw [if_neg hp]
      show (if p.1 = ck2 then some p.2 else tlook (tset rest ck v) ck2) = _
      by_cases hq : p.1 = ck2
      · rw [if_pos hq]
        by_cases h : ck2 = ck
        · exact absurd (hq.trans h) hp
        · rw [if_neg h]
          show some p.2 = tlook (p :: rest) ck2
          show some p.2 = if p.1 = ck2 then some p.2 else tlook rest ck2
          rw [if_pos hq]
      · rw [if_neg hq, ih ck v ck2]
        by_cases h : ck2 = ck
        · rw [if_pos h, if_pos h]
        · rw [if_neg h, if_neg h]
          show tlook rest ck2 = tlook (p :: rest) ck2
          show tlook rest ck2 = if p.1 = ck2 then some p.2 else tlook rest ck2
          rw [if_neg hq]

/-- on a flat run of top-level field lines the scan is exactly the
first-kept / later-removed cleanup, relative to the names already seen
in each line's own-section context. -/
theorem rdfGo_flat : ∀ (L : List (List Char)) (S : List (List Char)) (tr : Tracker)
    (a s : Option (List Char)) (k : Nat) (b : Bool) (i : Nat),
    (∀ l ∈ L, rdfFlat l = true) →
    (∀ f, f ∈ S ↔ f ∈ (tlook tr (CtxKey.sec f 0)).getD []) →
    rdfGo tr a s k b i L = dedupByField S L := by
  intro L
  induction L with
  | nil => intro S tr a s k b i _ _; rfl
  | cons l t ih =>
    intro S tr a s k b i hflat hS
    have hfl := hflat l (List.mem_cons_self l t)
    unfold rdfFlat at hfl
    simp only [Bool.and_eq_true, Bool.not_eq_true', decide_eq_true_eq] at hfl
    obtain ⟨⟨⟨⟨⟨hB1, hB2⟩, hB3⟩, hB4⟩, hB5⟩, hB6⟩ := hfl
    have hreset : rdfReset l = true := by
      unfold rdfReset
      simp [hB4, hB5]
    have harch : rdfArchLine b l = false := by
      unfold rdfArchLine
      rw [hB5]
      simp
    have hnotarch : (rdfListStart l && rdfField l = str ("Architecture")) = false := by
      rw [hB5]
      simp
    have hctx : rdfCtxOf a s k b i l = CtxKey.sec (rdfField l) 0 := by
      unfold rdfCtxOf rdfArch2 rdfSec2 rdfIdx2 rdfInInst2
      rw [hreset]
      simp only [if_true]
      unfold rdfCtx
      rw [show (archTruthy none && false) = false from by simp [archTruthy]]
      rw [if_neg Bool.false_ne_true, hB5]
      rw [if_neg Bool.false_ne_true]
      show (if (rdfField l).isEmpty = true then CtxKey.top (indentOf l)
        else CtxKey.sec (rdfField l) (indentOf l)) = CtxKey.sec (rdfField l) 0
      rw [if_neg (by rw [hB6]; exact Bool.false_ne_true), hB4]
    have hflatT : ∀ y ∈ t, rdfFlat y = true :=
      fun y hy => hflat y (List.mem_cons_of_mem l hy)
    by_cases h6 : ((tlook tr (rdfCtxOf a s k b i l)).getD []).contains (rdfField l) = true
    · rw [rdfGo_cons_dup hB1 hB2 hB3 harch hnotarch h6]
      have hmem : rdfField l ∈ S := by
        rw [hS (rdfField l)]
        rw [hctx] at h6
        simpa using h6
      rw [show dedupByField S (l :: t) = dedupByField S t from by
        simp [dedupByField, hmem]]
      exact ih S tr _ _ _ _ _ hflatT hS
    · have h6' := bool_eq_false h6
      rw [rdfGo_cons_fresh hB1 hB2 hB3 harch hnotarch h6']
      have hnmem : rdfField l ∉ S := by
        rw [hS (rdfField l)]
        rw [hctx] at h6'
        intro hm
        rw [show ((tlook tr (CtxKey.sec (rdfField l) 0)).getD []).contains (rdfField l) =
          true from by simpa using hm] at h6'
        exact Bool.false_ne_true h6'.symm
      rw [show dedupByField S (l :: t) = l :: dedupByField (rdfField l :: S) t from by
        simp [dedupByField, hnmem]]
      congr 1
      apply ih (rdfField l :: S) _ _ _ _ _ _ hflatT
      intro f
      rw [hctx, tlook_tset]
      by_cases hf : f = rdfField l
      · subst hf
        rw [if_pos rfl]
        simp
      · rw [if_neg (fun he => hf (by simpa using he))]
        constructor
        · intro hm
          rcases List.mem_cons.mp hm with he | hm2
          · exact absurd he hf
          · exact (hS f).mp hm2
        · intro hm
          exact List.mem_cons_of_mem _ ((hS f).mpr hm)

/-- take-while over a fully passing left part, stopping immediately in
the right part. -/
theorem takeWhile_all_append_gen {α : Type} {p : α → Bool} : ∀ (w r : List α),
    w.all p = true → r.takeWhile p = [] → (w ++ r).takeWhile p = w := by
  intro w
  induction w with
  | nil =>
    intro r _ hr
    simpa using hr
  | cons a t ih =>
    intro r hw hr
    rw [List.all_cons] at hw
    rcases Bool.and_eq_true_iff.mp hw with ⟨h1, h2⟩
    rw [List.cons_append, List.takeWhile_cons, h1, if_pos rfl, ih r h2 hr]

/-- the blank-run collapse rewrites every interior run of two or more
whitespace-only lines to a single empty line. -/
theorem collapseBlankLines_run (fuel : Nat) (l : List Char) (w r : List (List Char))
    (hw : w.all isWsLine = true) (h2 : 2 ≤ w.length)
    (hr1 : r.takeWhile isWsLine = []) (hr2 : r.isEmpty = false) :
    collapseBlankLines (fuel + 1) (l :: (w ++ r)) =
      l :: [] :: collapseBlankLines fuel r := by
  simp only [collapseBlankLines]
  rw [takeWhile_all_append_gen w r hw hr1, List.drop_left]
  rw [if_neg (by rw [hr2]; exact Bool.false_ne_true), if_pos h2]

/-- C9 (amended): the cleanup scan of `remove_duplicate_fields` only
deletes lines; blank lines, comment lines, the `Installers:` heading,
colon-free lines, and `- Architecture:` list starts are never removed;
on a flat run of top-level field lines, starting from the empty tracker,
the scan keeps exactly the first line of each field name and removes
every later one; and the final collapse rewrites every interior run of
two or more (not three or more) consecutive whitespace-only lines to a
single empty line. -/
theorem c9_cleanup_pass :
    (∀ (ls : List (List Char)) (tr : Tracker) (a s : Option (List Char)) (k : Nat)
      (b : Bool) (i : Nat), List.Sublist (rdfGo tr a s k b i ls) ls) ∧
    (∀ (x : List Char), rdfProtected x = true →
      ∀ (ls : List (List Char)) (tr : Tracker) (a s : Option (List Char)) (k : Nat)
        (b : Bool) (i : Nat),
        countLines x (rdfGo tr a s k b i ls) = countLines x ls) ∧
    (∀ (L : List (List Char)), (∀ l ∈ L, rdfFlat l = true) →
      rdfGo [] none none 0 false 0 L = dedupByField [] L) ∧
    (∀ (fuel : Nat) (l : List Char) (w r : List (List Char)),
      w.all isWsLine = true → 2 ≤ w.length → r.takeWhile isWsLine = [] →
      r.isEmpty = false →
      collapseBlankLines (fuel + 1) (l :: (w ++ r)) =
        l :: [] :: collapseBlankLines fuel r) :=
  ⟨fun ls tr a s k b i => rdfGo_sublist ls tr a s k b i,
   fun x hx ls tr a s k b i => rdfGo_protected x hx ls tr a s k b i,
   fun L hL => rdfGo_flat L [] [] none none 0 false 0 hL (fun f => by simp [tlook]),
   fun fuel l w r hw h2 hr1 hr2 => collapseBlankLines_run fuel l w r hw h2 hr1 hr2⟩

/-- C9 witness: the cleanup at work on small concrete inputs — a
duplicate field scan result that is a sublist, a preserved comment line,
a flat run deduplicated by field name, and a two-line blank run
collapsed to one empty line. -/
theorem c9_witness :
    List.Sublist (rdfGo [] none none 0 false 0 [str ("A: 1"), str ("A: 2")])
      [str ("A: 1"), str ("A: 2")] ∧
    countLines (str ("# c")) (rdfGo [] none none 0 false 0
        [str ("# c"), str ("A: 1"), str ("# c")]) =
      countLines (str ("# c")) [str ("# c"), str ("A: 1"), str ("# c")] ∧
    rdfGo [] none none 0 false 0 [str ("A: 1"), str ("B: 2"), str ("A: 3")] =
      dedupByField [] [str ("A: 1"), str ("B: 2"), str ("A: 3")] ∧
    collapseBlankLines 4 (str ("x") :: ([[], []] ++ [str ("y")])) =
      str ("x") :: [] :: collapseBlankLines 3 [str ("y")] :=
  ⟨c9_cleanup_pass.1 [str ("A: 1"), str ("A: 2")] [] none none 0 false 0,
   c9_cleanup_pass.2.1 (str ("# c")) (by decide)
     [str ("# c"), str ("A: 1"), str ("# c")] [] none none 0 false 0,
   c9_cleanup_pass.2.2.1 [str ("A: 1"), str ("B: 2"), str ("A: 3")] (by decide),
   c9_cleanup_pass.2.2.2 3 (str ("x")) [[], []] [str ("y")] (by decide) (by decide)
     (by decide) (by decide)⟩

end Winget
